import Mathlib

/-!
# Look-ahead peak limiter (`src/src/iac_dec/audio_effect_peak_limiter.c`)

A shallow embedding of the peak limiter of the immersive audio codec and a
verification development about it, preceded by the enumeration of channel
layers of `src/src/iac_enc/scalable_factor.h` with the rule for adjacent
layouts stated in `src/include/immersive_audio_encoder.h`.

Conventions of the embedding.

* `float` values are elements of an arbitrary linearly ordered field `α`
  (exact arithmetic); the definitions are computable and can be evaluated
  over `ℚ`, the theorems hold over `ℝ` as well.
* `int` values are `Int`; frame sizes and delays stay far away from `2^31`.
* The C arrays `delayData[channel][i]` and `peakData[i]` are total functions
  on `Int`; the sample buffers `inblock` / `outblock` are functions on `Int`,
  a null `inblock` is `none`.
* The only partial operation of the code is the remainder in `DB_IDX`, whose
  divisor `delayBufferSize` may be zero: the embedding returns `none` there.
* The header `audio_effect_peak_limiter.h` is not part of the sources; the
  build modelled here is the default one (`USE_TRUEPEAK` off, `OLD_CODE` not
  defined), the library function `pow` is a parameter of `init`, and the static
  capacities `MAX_CHANNELS` and `MAX_DELAYSIZE` of the arrays are not modelled
  (the index bounds proved below are relative to `delayBufferSize`).
-/

namespace ScalableFactor

/-- The enumeration `ChannelLayerMdhr` (`scalable_factor.h`, lines 18-29), without its
end marker `CHANNEL_LAYER_MDHR_MAX`. -/
inductive ChannelLayerMdhr
  | CHANNEL_LAYER_MDHR_100
  | CHANNEL_LAYER_MDHR_200
  | CHANNEL_LAYER_MDHR_510
  | CHANNEL_LAYER_MDHR_512
  | CHANNEL_LAYER_MDHR_514
  | CHANNEL_LAYER_MDHR_710
  | CHANNEL_LAYER_MDHR_712
  | CHANNEL_LAYER_MDHR_714
  | CHANNEL_LAYER_MDHR_312
  deriving DecidableEq

open ChannelLayerMdhr

/-- The value of an enumerator in C. -/
def ChannelLayerMdhr.value : ChannelLayerMdhr → Nat
  | CHANNEL_LAYER_MDHR_100 => 0
  | CHANNEL_LAYER_MDHR_200 => 1
  | CHANNEL_LAYER_MDHR_510 => 2
  | CHANNEL_LAYER_MDHR_512 => 3
  | CHANNEL_LAYER_MDHR_514 => 4
  | CHANNEL_LAYER_MDHR_710 => 5
  | CHANNEL_LAYER_MDHR_712 => 6
  | CHANNEL_LAYER_MDHR_714 => 7
  | CHANNEL_LAYER_MDHR_312 => 8

/-- The end marker `CHANNEL_LAYER_MDHR_MAX` of the enumeration. -/
def CHANNEL_LAYER_MDHR_MAX : Nat := 9

/-- The counts `(S, W, H)` of surround, subwoofer and height channels of a layer, as
its name gives them (the comments `//1.0.0` ... `//3.1.2` of the enumeration). -/
def ChannelLayerMdhr.counts : ChannelLayerMdhr → Nat × Nat × Nat
  | CHANNEL_LAYER_MDHR_100 => (1, 0, 0)
  | CHANNEL_LAYER_MDHR_200 => (2, 0, 0)
  | CHANNEL_LAYER_MDHR_510 => (5, 1, 0)
  | CHANNEL_LAYER_MDHR_512 => (5, 1, 2)
  | CHANNEL_LAYER_MDHR_514 => (5, 1, 4)
  | CHANNEL_LAYER_MDHR_710 => (7, 1, 0)
  | CHANNEL_LAYER_MDHR_712 => (7, 1, 2)
  | CHANNEL_LAYER_MDHR_714 => (7, 1, 4)
  | CHANNEL_LAYER_MDHR_312 => (3, 1, 2)

/-- Modelled from the spec: the relation sign of the rule for adjacent channel layouts
of a scalable format. The rule is the remark of `immersive_audio_encoder_create`
(`immersive_audio_encoder.h`, lines 54-58), `S(n-1) ? S(n) and W(n-1) ? W(n) and
H(n-1) ? H(n) except` all three equal, whose relation sign is printed as `?` in the
header; it is read as `≤`, as the specification has it (no count decreases, and the
layouts differ in one count at least). -/
def allowed_adjacent (p n : ChannelLayerMdhr) : Bool :=
  decide (p.counts.1 ≤ n.counts.1) && decide (p.counts.2.1 ≤ n.counts.2.1) &&
    decide (p.counts.2.2 ≤ n.counts.2.2) &&
    !(decide (p.counts.1 = n.counts.1) && decide (p.counts.2.1 = n.counts.2.1) &&
      decide (p.counts.2.2 = n.counts.2.2))

/-- The order of the layers from `1.0.0` to `7.1.4`, which is the order of the
enumeration. -/
def hierarchy_order : List ChannelLayerMdhr :=
  [CHANNEL_LAYER_MDHR_100, CHANNEL_LAYER_MDHR_200, CHANNEL_LAYER_MDHR_510,
   CHANNEL_LAYER_MDHR_512, CHANNEL_LAYER_MDHR_514, CHANNEL_LAYER_MDHR_710,
   CHANNEL_LAYER_MDHR_712, CHANNEL_LAYER_MDHR_714]

/-- The pairs of neighbours of a list. -/
def adjacent_pairs : List ChannelLayerMdhr → List (ChannelLayerMdhr × ChannelLayerMdhr)
  | a :: b :: rest => (a, b) :: adjacent_pairs (b :: rest)
  | _ => []

end ScalableFactor

namespace PeakLimiter

/-- The limiter object `AudioEffectPeakLimiter` (fields used by the `.c` file). -/
structure AudioEffectPeakLimiter (α : Type) where
  linearThreashold : α
  attackSec : α
  releaseSec : α
  incTC : α
  numChannels : Int
  delaySize : Int
  delayBufferSize : Int
  delayData : Int → Int → α
  peakData : Int → α
  entryIndex : Int
  peak_pos : Int
  currentGain : α
  targetStartGain : α
  targetEndGain : α
  currentTC : α

variable {α : Type} [LinearOrderedField α]

/-- The ease curve `curve_accel` (lines 235-242). -/
def curve_accel (x : α) : α :=
  if 1 < x then 1
  else if x < 0 then 0
  else 1 - (x - 1) ^ 2

/-- The envelope follower `compute_target_gain` (lines 204-233): the new limiter
state and the returned gain. -/
def compute_target_gain (ths : AudioEffectPeakLimiter α) (peak : α) :
    AudioEffectPeakLimiter α × α :=
  let ths1 : AudioEffectPeakLimiter α :=
    if ths.currentTC ≠ -1 ∧ ths.currentTC < ths.attackSec then
      let tc := ths.currentTC + ths.incTC
      let acc_ratio := curve_accel (tc / ths.attackSec)
      let gain := ths.targetStartGain - acc_ratio * (ths.targetStartGain - ths.targetEndGain)
      { ths with currentTC := tc, currentGain := gain }
    else if ths.currentTC ≠ -1 ∧ ths.currentTC < ths.releaseSec + ths.attackSec then
      let tc := ths.currentTC + ths.incTC
      let acc_ratio := curve_accel ((tc - ths.attackSec) / ths.releaseSec)
      let gain := ths.targetEndGain + acc_ratio * (1 - ths.targetEndGain)
      { ths with currentTC := tc, currentGain := gain }
    else
      { ths with currentGain := 1 }
  let ths2 : AudioEffectPeakLimiter α :=
    if peak * ths1.currentGain > ths1.linearThreashold then
      { ths1 with
        targetStartGain := ths1.currentGain
        targetEndGain := ths1.linearThreashold / peak
        currentTC := 0 }
    else ths1
  (ths2, ths2.currentGain)

/-- The macro `DB_IDX(i)`, `(i) % ths->delayBufferSize` (line 88); the C remainder
truncates towards zero and is undefined for a zero divisor. -/
def DB_IDX (ths : AudioEffectPeakLimiter α) (i : Int) : Option Int :=
  if ths.delayBufferSize = 0 then none else some (Int.tmod i ths.delayBufferSize)

/-- The look-ahead scan of lines 96-105: `n` iterations are left, `i` is the loop
counter, `peak` and `peak_pos` the running maximum and its position. -/
def scan_loop (ths : AudioEffectPeakLimiter α) (idx : Int) :
    Nat → Int → α → Int → Option (α × Int)
  | 0, _, peak, peak_pos => some (peak, peak_pos)
  | n + 1, i, peak, peak_pos =>
    match DB_IDX ths (i + idx) with
    | none => none
    | some j =>
      let channel_peak := ths.peakData j
      if channel_peak > peak then scan_loop ths idx n (i + 1) channel_peak j
      else scan_loop ths idx n (i + 1) peak peak_pos

/-- The channel loop of lines 121-151 (true-peak metering off): `n` channels are
left, `channel` is the loop counter; the limiter, the output buffer and the
running `peakMax` are threaded through. -/
def channel_loop (inblock : Int → α) (frame_size k idx : Int) (gain : α) :
    Nat → Int → AudioEffectPeakLimiter α → (Int → α) → α →
      Option (AudioEffectPeakLimiter α × (Int → α) × α)
  | 0, _, ths, audioBlock, peakMax => some (ths, audioBlock, peakMax)
  | n + 1, channel, ths, audioBlock, peakMax =>
    let pos := channel * frame_size
    if ths.delaySize > 0 then
      match DB_IDX ths idx with
      | none => none
      | some j =>
        let out := ths.delayData channel j * gain
        let ths1 : AudioEffectPeakLimiter α :=
          { ths with
            delayData := Function.update ths.delayData channel
              (Function.update (ths.delayData channel) j (inblock (pos + k))) }
        let audioBlock1 := Function.update audioBlock (pos + k) out
        let channel_peak := |ths1.delayData channel j|
        let peakMax1 := if channel_peak > peakMax then channel_peak else peakMax
        channel_loop inblock frame_size k idx gain n (channel + 1) ths1 audioBlock1 peakMax1
    else
      let audioBlock1 := Function.update audioBlock (pos + k) (inblock (pos + k) * gain)
      match DB_IDX ths idx with
      | none => none
      | some j =>
        let channel_peak := |ths.delayData channel j|
        let peakMax1 := if channel_peak > peakMax then channel_peak else peakMax
        channel_loop inblock frame_size k idx gain n (channel + 1) ths audioBlock1 peakMax1

/-- The body of the sample loop (lines 91-161) for sample `k` of the block. -/
def sample_body (inblock : Int → α) (frame_size k : Int)
    (ths : AudioEffectPeakLimiter α) (audioBlock : Int → α) :
    Option (AudioEffectPeakLimiter α × (Int → α)) :=
  let idx := k + ths.entryIndex
  let scanned : Option (α × Int) :=
    if ths.peak_pos < 0 then scan_loop ths idx ths.delaySize.toNat 0 0 ths.peak_pos
    else some (ths.peakData ths.peak_pos, ths.peak_pos)
  match scanned with
  | none => none
  | some (peak, pp) =>
    let r := compute_target_gain { ths with peak_pos := pp } peak
    match channel_loop inblock frame_size k idx r.2 r.1.numChannels.toNat 0 r.1 audioBlock 0 with
    | none => none
    | some (ths3, audioBlock3, peakMax) =>
      match DB_IDX ths3 idx with
      | none => none
      | some j =>
        let pp1 : Int :=
          if ths3.peak_pos = j then -1
          else if ths3.peak_pos < 0 ∨ ths3.peakData ths3.peak_pos < peakMax then j
          else ths3.peak_pos
        some ({ ths3 with peak_pos := pp1, peakData := Function.update ths3.peakData j peakMax },
          audioBlock3)

/-- The sample loop `for (k = 0; k < frame_size; k++)` (line 90): `n` iterations
are left and `k` is the loop counter. -/
def sample_loop (inblock : Int → α) (frame_size : Int) :
    Nat → Int → AudioEffectPeakLimiter α → (Int → α) →
      Option (AudioEffectPeakLimiter α × (Int → α))
  | 0, _, ths, audioBlock => some (ths, audioBlock)
  | n + 1, k, ths, audioBlock =>
    match sample_body inblock frame_size k ths audioBlock with
    | none => none
    | some (ths1, audioBlock1) => sample_loop inblock frame_size n (k + 1) ths1 audioBlock1

/-- The entry point `audio_effect_peak_limiter_process_block` (lines 69-170): the
returned `int`, the limiter after the call and the output buffer after the call;
`none` when the call executes a remainder by zero. -/
def audio_effect_peak_limiter_process_block (ths : AudioEffectPeakLimiter α)
    (inblock : Option (Int → α)) (outblock : Int → α) (frame_size : Int) :
    Option (Int × AudioEffectPeakLimiter α × (Int → α)) :=
  match inblock with
  | none => some (0, ths, outblock)
  | some inb =>
    match sample_loop inb frame_size frame_size.toNat 0 ths outblock with
    | none => none
    | some (ths1, audioBlock) =>
      if ths1.delaySize > 0 then
        match DB_IDX ths1 (ths1.entryIndex + frame_size) with
        | none => none
        | some e => some (frame_size, { ths1 with entryIndex := e }, audioBlock)
      else some (frame_size, ths1, audioBlock)

/-- The function `init_default` (lines 172-202) on a non-null limiter: `memset`
to zero, then the defaults. -/
def init_default (_ths : AudioEffectPeakLimiter α) : AudioEffectPeakLimiter α :=
  { linearThreashold := 0
    attackSec := -1
    releaseSec := -1
    incTC := 0
    numChannels := 0
    delaySize := 0
    delayBufferSize := 0
    delayData := fun _ _ => 0
    peakData := fun _ => 0
    entryIndex := 0
    peak_pos := -1
    currentGain := 1
    targetStartGain := -1
    targetEndGain := -1
    currentTC := -1 }

/-- The function `audio_effect_peak_limiter_init` (lines 47-67); `pow` is the C
library function. The final loop stores `0.0f` into delay slots that `memset`
has already zeroed. -/
def audio_effect_peak_limiter_init (pow : α → α → α) (ths : AudioEffectPeakLimiter α)
    (threashold_db : α) (sample_rate num_channels : Int) (atk_sec rel_sec : α)
    (delay_size : Int) : AudioEffectPeakLimiter α :=
  { init_default ths with
    linearThreashold := pow 10 (threashold_db / 20)
    attackSec := atk_sec
    releaseSec := rel_sec
    incTC := 1 / (sample_rate : α)
    numChannels := num_channels
    delaySize := delay_size
    delayBufferSize := delay_size
    delayData := fun _ _ => 0 }

/-! ## The two halves of `compute_target_gain` and the two look-ahead paths -/

/-- The phase update of `compute_target_gain` (lines 209-224): attack, release or
idle; it advances the time counter and stores the gain. -/
def phase_update (ths : AudioEffectPeakLimiter α) : AudioEffectPeakLimiter α :=
  if ths.currentTC ≠ -1 ∧ ths.currentTC < ths.attackSec then
    let tc := ths.currentTC + ths.incTC
    let acc_ratio := curve_accel (tc / ths.attackSec)
    let gain := ths.targetStartGain - acc_ratio * (ths.targetStartGain - ths.targetEndGain)
    { ths with currentTC := tc, currentGain := gain }
  else if ths.currentTC ≠ -1 ∧ ths.currentTC < ths.releaseSec + ths.attackSec then
    let tc := ths.currentTC + ths.incTC
    let acc_ratio := curve_accel ((tc - ths.attackSec) / ths.releaseSec)
    let gain := ths.targetEndGain + acc_ratio * (1 - ths.targetEndGain)
    { ths with currentTC := tc, currentGain := gain }
  else
    { ths with currentGain := 1 }

/-- The peak test of `compute_target_gain` (lines 226-230). -/
def peak_detect (ths : AudioEffectPeakLimiter α) (peak : α) : AudioEffectPeakLimiter α :=
  if peak * ths.currentGain > ths.linearThreashold then
    { ths with
      targetStartGain := ths.currentGain
      targetEndGain := ths.linearThreashold / peak
      currentTC := 0 }
  else ths

/-- The look-ahead peak of a sample as the default build computes it (lines 94-110):
a scan when no position is cached, the cached slot of `peakData` otherwise; the peak
and the cached position after the step. -/
def cached_peak (ths : AudioEffectPeakLimiter α) (idx : Int) : Option (α × Int) :=
  if ths.peak_pos < 0 then scan_loop ths idx ths.delaySize.toNat 0 0 ths.peak_pos
  else some (ths.peakData ths.peak_pos, ths.peak_pos)

/-- The look-ahead peak of a sample as the build with `OLD_CODE` computes it (lines
96-105 alone): the scan of the whole window at every sample. -/
def old_code_peak (ths : AudioEffectPeakLimiter α) (idx : Int) : Option α :=
  (scan_loop ths idx ths.delaySize.toNat 0 0 ths.peak_pos).map Prod.fst

/-! ## Predicates used by the statements -/

/-- The states the limiter passes through: `s0` itself, the limiter left by a call
of `process_block` made in such a state (whatever the input, the output buffer and
the frame size), and the limiter after the first `n` samples of such a call. -/
inductive Reachable (s0 : AudioEffectPeakLimiter α) : AudioEffectPeakLimiter α → Prop
  | start : Reachable s0 s0
  | block {s s1 : AudioEffectPeakLimiter α} {inblock : Option (Int → α)}
      {outblock out1 : Int → α} {frame_size r : Int} :
      Reachable s0 s →
      audio_effect_peak_limiter_process_block s inblock outblock frame_size = some (r, s1, out1) →
      Reachable s0 s1
  | samples {s s1 : AudioEffectPeakLimiter α} {inb outblock out1 : Int → α}
      {frame_size : Int} {n : Nat} :
      Reachable s0 s → (n : Int) ≤ frame_size →
      sample_loop inb frame_size n 0 s outblock = some (s1, out1) →
      Reachable s0 s1

/-- The envelope invariant: the gain is in `[0, 1]`, and while the envelope is
active (`currentTC ≠ -1`) the target gains are ordered
`0 ≤ targetEndGain ≤ targetStartGain ≤ 1` and the gain is not below `targetEndGain`. -/
def EnvInv (s : AudioEffectPeakLimiter α) : Prop :=
  0 ≤ s.linearThreashold ∧ 0 ≤ s.currentGain ∧ s.currentGain ≤ 1 ∧
  (s.currentTC ≠ -1 →
    0 ≤ s.targetEndGain ∧ s.targetEndGain ≤ s.targetStartGain ∧ s.targetStartGain ≤ 1 ∧
      s.targetEndGain ≤ s.currentGain)

/-! ## The input stream seen by a sequence of calls -/

/-- The running maximum both inner loops compute: `n` iterations are left, `i` is
the loop counter and `acc` the maximum so far (`if (v > acc) acc = v;`). -/
def run_max (f : Int → α) : Nat → Int → α → α
  | 0, _, acc => acc
  | n + 1, i, acc => run_max f n (i + 1) (if f i > acc then f i else acc)

/-- Sample `m` of channel `c` of the stream `x`, silence before the first sample. -/
def stream_at (x : Int → Int → α) (c m : Int) : α := if m < 0 then 0 else x c m

/-- The largest magnitude of sample `m` over the channels `0 .. C - 1`. -/
def sample_peak (x : Int → Int → α) (C m : Int) : α :=
  run_max (fun c => |stream_at x c m|) C.toNat 0 0

/-- The largest `sample_peak` over the `D` samples before sample `n`. -/
def lookahead_peak (x : Int → Int → α) (C D n : Int) : α :=
  run_max (fun i => sample_peak x C (n - D + i)) D.toNat 0 0

/-- The limiter after `n` calls of `compute_target_gain` with the peaks
`pk 0, pk 1, ..., pk (n - 1)`. -/
def env_run (s : AudioEffectPeakLimiter α) (pk : Int → α) : Nat → AudioEffectPeakLimiter α
  | 0 => s
  | n + 1 => (compute_target_gain (env_run s pk n) (pk n)).1

/-- The limiters `s` and `t` differ at most in the two ring buffers, the cached
position and the write cursor. -/
def SameEnv (s t : AudioEffectPeakLimiter α) : Prop :=
  s = { t with delayData := s.delayData, peakData := s.peakData, peak_pos := s.peak_pos,
               entryIndex := s.entryIndex }

/-- The ring buffers of `s` hold the last `delaySize` samples before sample `n` of the
stream `x`: slot `m % delaySize` of the delay line of channel `c` holds sample `m`,
the same slot of `peakData` holds its peak over the channels, and the cached
position is `-1` or the slot of a largest peak of the window. -/
def BufInv (x : Int → Int → α) (s : AudioEffectPeakLimiter α) (n : Int) : Prop :=
  0 < s.delaySize ∧ s.delayBufferSize = s.delaySize ∧
  (∀ m, n - s.delaySize ≤ m → m < n →
    s.peakData (m % s.delaySize) = sample_peak x s.numChannels m) ∧
  (∀ c m, 0 ≤ c → c < s.numChannels → n - s.delaySize ≤ m → m < n →
    s.delayData c (m % s.delaySize) = stream_at x c m) ∧
  (s.peak_pos = -1 ∨ ∃ m, n - s.delaySize ≤ m ∧ m < n ∧ s.peak_pos = m % s.delaySize ∧
    ∀ m1, n - s.delaySize ≤ m1 → m1 < n →
      sample_peak x s.numChannels m1 ≤ sample_peak x s.numChannels m)

/-- The limiter `s` has been fed the first `N` samples of every channel of the stream
`x`, starting from `s0`, in any number of blocks of any sizes; the input buffers are
planar (`inb (c * frame_size + k)` is sample `k` of channel `c` of the block). -/
inductive Fed (s0 : AudioEffectPeakLimiter α) (x : Int → Int → α) :
    Int → AudioEffectPeakLimiter α → Prop
  | start : Fed s0 x 0 s0
  | block {N : Int} {s s1 : AudioEffectPeakLimiter α} {inb outblock out1 : Int → α}
      {frame_size r : Int} :
      Fed s0 x N s → 0 ≤ frame_size →
      (∀ c k, 0 ≤ c → c < s.numChannels → 0 ≤ k → k < frame_size →
        inb (c * frame_size + k) = x c (N + k)) →
      audio_effect_peak_limiter_process_block s (some inb) outblock frame_size
        = some (r, s1, out1) →
      Fed s0 x (N + frame_size) s1

/-- The invariant of a limiter that has been fed the first `N` samples of the stream
`x` starting from `s0`: its buffers hold the window before sample `N`, its write
cursor is `N % delaySize`, and its envelope is the one reached from `s0` by one call
of `compute_target_gain` per sample, with the look-ahead peaks of the stream. -/
def StreamInv (s0 : AudioEffectPeakLimiter α) (x : Int → Int → α) (N : Int)
    (s : AudioEffectPeakLimiter α) : Prop :=
  0 ≤ N ∧ BufInv x s N ∧ s.entryIndex = N % s.delaySize ∧
  SameEnv s (env_run s0 (lookahead_peak x s0.numChannels s0.delaySize) N.toNat)

/-! ## Concrete inputs of the examples -/

/-- A limiter object all of whose fields are zero, as `init` may receive it. -/
def blank_limiter : AudioEffectPeakLimiter α :=
  { linearThreashold := 0
    attackSec := 0
    releaseSec := 0
    incTC := 0
    numChannels := 0
    delaySize := 0
    delayBufferSize := 0
    delayData := fun _ _ => 0
    peakData := fun _ => 0
    entryIndex := 0
    peak_pos := 0
    currentGain := 0
    targetStartGain := 0
    targetEndGain := 0
    currentTC := 0 }

/-- The stream with one impulse: sample `n0` of every channel is `A`, all other
samples are zero. -/
def impulse (n0 : Int) (A : α) : Int → Int → α := fun _ m => if m = n0 then A else 0

/-- The power function of the rational examples, used at `pow 10 0` only. -/
def pow_one : ℚ → ℚ → ℚ := fun _ _ => 1

/-- The gain after `m` re-triggers by one held peak `p`: it starts at 1 and each call
moves it towards `T / p` by the fraction `a` of the remaining distance. -/
def held_gain (T p a : α) : Nat → α
  | 0 => 1
  | m + 1 => held_gain T p a m - a * (held_gain T p a m - T / p)

/-! # Theorems -/

set_option linter.unusedSectionVars false

/-! ## The ease curve -/

theorem curve_accel_nonneg (x : α) : 0 ≤ curve_accel x := by
  unfold curve_accel
  split_ifs with h1 h2
  · exact zero_le_one
  · exact le_refl 0
  · push_neg at h1 h2
    nlinarith

theorem curve_accel_le_one (x : α) : curve_accel x ≤ 1 := by
  unfold curve_accel
  split_ifs with h1 h2
  · exact le_refl 1
  · exact zero_le_one
  · nlinarith [sq_nonneg (x - 1)]

theorem curve_accel_of_mem {x : α} (h0 : 0 ≤ x) (h1 : x ≤ 1) :
    curve_accel x = 1 - (x - 1) ^ 2 := by
  unfold curve_accel
  rw [if_neg (not_lt.mpr h1), if_neg (not_lt.mpr h0)]

theorem curve_accel_of_one_le {x : α} (h : 1 ≤ x) : curve_accel x = 1 := by
  rcases eq_or_lt_of_le h with h1 | h1
  · rw [← h1, curve_accel_of_mem zero_le_one (le_refl 1)]
    norm_num
  · unfold curve_accel
    rw [if_pos h1]

theorem curve_accel_mono {x y : α} (h : x ≤ y) : curve_accel x ≤ curve_accel y := by
  rcases le_or_lt 1 y with hy | hy
  · rw [curve_accel_of_one_le hy]
    exact curve_accel_le_one x
  · rcases lt_or_le x 0 with hx | hx
    · have : curve_accel x = 0 := by
        unfold curve_accel
        rw [if_neg (by linarith), if_pos hx]
      rw [this]
      exact curve_accel_nonneg y
    · rw [curve_accel_of_mem hx (by linarith), curve_accel_of_mem (by linarith) (le_of_lt hy)]
      nlinarith

/-- C10. The ease curve `curve_accel` takes the value 0 at 0 and 1 at 1, is 1 above
1 and 0 below 0, equals `1 - (x - 1)^2` on `[0, 1]`, is monotonic non-decreasing on
the whole line and has all its values in `[0, 1]`. -/
theorem curve_accel_ease_curve :
    curve_accel (0 : α) = 0 ∧ curve_accel (1 : α) = 1 ∧
    (∀ x : α, 1 < x → curve_accel x = 1) ∧
    (∀ x : α, x < 0 → curve_accel x = 0) ∧
    (∀ x : α, 0 ≤ x → x ≤ 1 → curve_accel x = 1 - (x - 1) ^ 2) ∧
    (∀ x y : α, x ≤ y → curve_accel x ≤ curve_accel y) ∧
    (∀ x : α, 0 ≤ curve_accel x ∧ curve_accel x ≤ 1) := by
  refine ⟨?_, ?_, ?_, ?_, ?_, ?_, ?_⟩
  · rw [curve_accel_of_mem (le_refl 0) zero_le_one]
    norm_num
  · exact curve_accel_of_one_le (le_refl 1)
  · intro x hx
    exact curve_accel_of_one_le (le_of_lt hx)
  · intro x hx
    unfold curve_accel
    rw [if_neg (by linarith), if_pos hx]
  · intro x h0 h1
    exact curve_accel_of_mem h0 h1
  · intro x y h
    exact curve_accel_mono h
  · intro x
    exact ⟨curve_accel_nonneg x, curve_accel_le_one x⟩

/-- Witness for C10 over the rationals: at `x = 1/2` the curve is `3/4`, at `x = 2`
it is clamped to 1 and at `x = -1` to 0. -/
theorem curve_accel_ease_curve_witness :
    curve_accel (1 / 2 : ℚ) = 1 - (1 / 2 - 1) ^ 2 ∧ curve_accel (2 : ℚ) = 1 ∧
      curve_accel (-1 : ℚ) = 0 :=
  ⟨curve_accel_ease_curve.2.2.2.2.1 (1 / 2) (by norm_num) (by norm_num),
   curve_accel_ease_curve.2.2.1 2 (by norm_num),
   curve_accel_ease_curve.2.2.2.1 (-1) (by norm_num)⟩

/-! ## The envelope follower -/

section frame
variable (s : AudioEffectPeakLimiter α) (p : α)

theorem cgt_snd : (compute_target_gain s p).2 = (compute_target_gain s p).1.currentGain := rfl

@[simp] theorem cgt_linearThreashold :
    (compute_target_gain s p).1.linearThreashold = s.linearThreashold := by
  unfold compute_target_gain; dsimp only; split_ifs <;> rfl

@[simp] theorem cgt_attackSec : (compute_target_gain s p).1.attackSec = s.attackSec := by
  unfold compute_target_gain; dsimp only; split_ifs <;> rfl

@[simp] theorem cgt_releaseSec : (compute_target_gain s p).1.releaseSec = s.releaseSec := by
  unfold compute_target_gain; dsimp only; split_ifs <;> rfl

@[simp] theorem cgt_incTC : (compute_target_gain s p).1.incTC = s.incTC := by
  unfold compute_target_gain; dsimp only; split_ifs <;> rfl

@[simp] theorem cgt_numChannels : (compute_target_gain s p).1.numChannels = s.numChannels := by
  unfold compute_target_gain; dsimp only; split_ifs <;> rfl

@[simp] theorem cgt_delaySize : (compute_target_gain s p).1.delaySize = s.delaySize := by
  unfold compute_target_gain; dsimp only; split_ifs <;> rfl

@[simp] theorem cgt_delayBufferSize :
    (compute_target_gain s p).1.delayBufferSize = s.delayBufferSize := by
  unfold compute_target_gain; dsimp only; split_ifs <;> rfl

@[simp] theorem cgt_delayData : (compute_target_gain s p).1.delayData = s.delayData := by
  unfold compute_target_gain; dsimp only; split_ifs <;> rfl

@[simp] theorem cgt_peakData : (compute_target_gain s p).1.peakData = s.peakData := by
  unfold compute_target_gain; dsimp only; split_ifs <;> rfl

@[simp] theorem cgt_entryIndex : (compute_target_gain s p).1.entryIndex = s.entryIndex := by
  unfold compute_target_gain; dsimp only; split_ifs <;> rfl

@[simp] theorem cgt_peak_pos : (compute_target_gain s p).1.peak_pos = s.peak_pos := by
  unfold compute_target_gain; dsimp only; split_ifs <;> rfl

end frame

theorem attack_gain_bounds {a tS tE : α} (ha0 : 0 ≤ a) (ha1 : a ≤ 1) (h : tE ≤ tS) :
    tE ≤ tS - a * (tS - tE) ∧ tS - a * (tS - tE) ≤ tS := by
  constructor
  · nlinarith
  · nlinarith

theorem release_gain_bounds {a tE : α} (ha0 : 0 ≤ a) (ha1 : a ≤ 1) (h : tE ≤ 1) :
    tE ≤ tE + a * (1 - tE) ∧ tE + a * (1 - tE) ≤ 1 := by
  constructor
  · nlinarith
  · nlinarith

theorem trigger_bounds {T g p : α} (hT : 0 ≤ T) (hg : 0 ≤ g) (h : p * g > T) :
    0 < p ∧ 0 ≤ T / p ∧ T / p < g := by
  have hp : 0 < p := by
    by_contra hp
    push_neg at hp
    have : p * g ≤ 0 := mul_nonpos_of_nonpos_of_nonneg hp hg
    linarith
  refine ⟨hp, div_nonneg hT (le_of_lt hp), ?_⟩
  rw [div_lt_iff₀ hp]
  linarith

/-- The phase update of `compute_target_gain` (lines 209-224) keeps the invariant, and
so does the re-trigger (lines 226-230). -/
theorem EnvInv_cgt {s : AudioEffectPeakLimiter α} (h : EnvInv s) (p : α) :
    EnvInv (compute_target_gain s p).1 := by
  obtain ⟨hT, hg0, hg1, hact⟩ := h
  unfold compute_target_gain EnvInv
  dsimp only
  split_ifs with h1 h2 h3 h4 h5
  · -- attack, re-trigger
    dsimp only at h2 ⊢
    obtain ⟨e0, e1, e2, _⟩ := hact h1.1
    obtain ⟨b1, b2⟩ := attack_gain_bounds (curve_accel_nonneg ((s.currentTC + s.incTC) / s.attackSec))
      (curve_accel_le_one _) e1
    obtain ⟨_, t1, t2⟩ := trigger_bounds hT (le_trans e0 b1) h2
    exact ⟨hT, le_trans e0 b1, le_trans b2 e2, fun _ => ⟨t1, le_of_lt t2, le_trans b2 e2, le_of_lt t2⟩⟩
  · -- attack, no trigger
    dsimp only
    obtain ⟨e0, e1, e2, _⟩ := hact h1.1
    obtain ⟨b1, b2⟩ := attack_gain_bounds (curve_accel_nonneg ((s.currentTC + s.incTC) / s.attackSec))
      (curve_accel_le_one _) e1
    exact ⟨hT, le_trans e0 b1, le_trans b2 e2, fun _ => ⟨e0, e1, e2, b1⟩⟩
  · -- release, re-trigger
    dsimp only at h4 ⊢
    obtain ⟨e0, e1, e2, _⟩ := hact h3.1
    obtain ⟨b1, b2⟩ := release_gain_bounds
      (curve_accel_nonneg ((s.currentTC + s.incTC - s.attackSec) / s.releaseSec))
      (curve_accel_le_one _) (le_trans e1 e2)
    obtain ⟨_, t1, t2⟩ := trigger_bounds hT (le_trans e0 b1) h4
    exact ⟨hT, le_trans e0 b1, b2, fun _ => ⟨t1, le_of_lt t2, b2, le_of_lt t2⟩⟩
  · -- release, no trigger
    dsimp only
    obtain ⟨e0, e1, e2, _⟩ := hact h3.1
    obtain ⟨b1, b2⟩ := release_gain_bounds
      (curve_accel_nonneg ((s.currentTC + s.incTC - s.attackSec) / s.releaseSec))
      (curve_accel_le_one _) (le_trans e1 e2)
    exact ⟨hT, le_trans e0 b1, b2, fun _ => ⟨e0, e1, e2, b1⟩⟩
  · -- idle, trigger
    dsimp only at h5 ⊢
    obtain ⟨_, t1, t2⟩ := trigger_bounds hT zero_le_one h5
    exact ⟨hT, zero_le_one, le_refl 1, fun _ => ⟨t1, le_of_lt t2, le_refl 1, le_of_lt t2⟩⟩
  · -- idle, no trigger
    dsimp only
    refine ⟨hT, zero_le_one, le_refl 1, fun hne => ?_⟩
    obtain ⟨e0, e1, e2, _⟩ := hact hne
    exact ⟨e0, e1, e2, le_trans e1 e2⟩

/-! ## What the loops leave unchanged -/

/-- The channel loop changes nothing but the delay lines of the limiter. -/
theorem channel_loop_frame (inb : Int → α) (fs k idx : Int) (g : α) :
    ∀ (n : Nat) (c : Int) (s : AudioEffectPeakLimiter α) (ab : Int → α) (pm : α)
      (s1 : AudioEffectPeakLimiter α) (ab1 : Int → α) (pm1 : α),
      channel_loop inb fs k idx g n c s ab pm = some (s1, ab1, pm1) →
        s1 = { s with delayData := s1.delayData } := by
  intro n
  induction n with
  | zero =>
    intro c s ab pm s1 ab1 pm1 h
    simp only [channel_loop, Option.some.injEq, Prod.mk.injEq] at h
    rw [← h.1]
  | succ n ih =>
    intro c s ab pm s1 ab1 pm1 h
    unfold channel_loop at h
    dsimp only at h
    split_ifs at h with hd
    · split at h
      · exact absurd h (by simp)
      · have := ih _ _ _ _ _ _ _ h
        rw [this]
    · split at h
      · exact absurd h (by simp)
      · exact ih _ _ _ _ _ _ _ h

/-- One sample changes the envelope exactly as one call of `compute_target_gain`
does, for the look-ahead peak `pk` of that sample; besides, only the buffers and
the cached position change. -/
theorem sample_body_frame {inb : Int → α} {fs k : Int} {s s1 : AudioEffectPeakLimiter α}
    {ab ab1 : Int → α} (h : sample_body inb fs k s ab = some (s1, ab1)) :
    ∃ (pk : α) (pp : Int),
      s1 = { (compute_target_gain { s with peak_pos := pp } pk).1 with
              delayData := s1.delayData, peak_pos := s1.peak_pos, peakData := s1.peakData } := by
  unfold sample_body at h
  dsimp only at h
  split at h
  · exact absurd h (by simp)
  · rename_i peak pp hsc
    split at h
    · exact absurd h (by simp)
    · rename_i s3 ab3 pm hcl
      split at h
      · exact absurd h (by simp)
      · rename_i j hj
        simp only [Option.some.injEq, Prod.mk.injEq] at h
        refine ⟨peak, pp, ?_⟩
        have h3 := channel_loop_frame _ _ _ _ _ _ _ _ _ _ _ _ _ hcl
        rw [← h.1]
        dsimp only
        rw [h3]

theorem EnvInv_sample_body {inb : Int → α} {fs k : Int} {s s1 : AudioEffectPeakLimiter α}
    {ab ab1 : Int → α} (h : sample_body inb fs k s ab = some (s1, ab1)) (hs : EnvInv s) :
    EnvInv s1 := by
  obtain ⟨pk, pp, e⟩ := sample_body_frame h
  have h1 : EnvInv (compute_target_gain { s with peak_pos := pp } pk).1 :=
    @EnvInv_cgt α _ { s with peak_pos := pp } hs pk
  rw [e]
  exact h1

theorem EnvInv_sample_loop (inb : Int → α) (fs : Int) :
    ∀ (n : Nat) (k : Int) (s s1 : AudioEffectPeakLimiter α) (ab ab1 : Int → α),
      sample_loop inb fs n k s ab = some (s1, ab1) → EnvInv s → EnvInv s1 := by
  intro n
  induction n with
  | zero =>
    intro k s s1 ab ab1 h hs
    simp only [sample_loop, Option.some.injEq, Prod.mk.injEq] at h
    rw [← h.1]
    exact hs
  | succ n ih =>
    intro k s s1 ab ab1 h hs
    unfold sample_loop at h
    split at h
    · exact absurd h (by simp)
    · rename_i s2 ab2 hb
      exact ih _ _ _ _ _ h (EnvInv_sample_body hb hs)

theorem EnvInv_process_block {s s1 : AudioEffectPeakLimiter α} {inblock : Option (Int → α)}
    {outblock out1 : Int → α} {fs r : Int}
    (h : audio_effect_peak_limiter_process_block s inblock outblock fs = some (r, s1, out1))
    (hs : EnvInv s) : EnvInv s1 := by
  unfold audio_effect_peak_limiter_process_block at h
  split at h
  · simp only [Option.some.injEq, Prod.mk.injEq] at h
    rw [← h.2.1]
    exact hs
  · split at h
    · exact absurd h (by simp)
    · rename_i s2 ab2 hl
      have h2 := EnvInv_sample_loop _ _ _ _ _ _ _ _ hl hs
      split_ifs at h
      · split at h
        · exact absurd h (by simp)
        · simp only [Option.some.injEq, Prod.mk.injEq] at h
          rw [← h.2.1]
          exact h2
      · simp only [Option.some.injEq, Prod.mk.injEq] at h
        rw [← h.2.1]
        exact h2

theorem EnvInv_init (pow : α → α → α) (ths : AudioEffectPeakLimiter α) (db : α)
    (sr nc : Int) (atk rel : α) (d : Int) (hT : 0 < pow 10 (db / 20)) :
    EnvInv (audio_effect_peak_limiter_init pow ths db sr nc atk rel d) := by
  refine ⟨le_of_lt hT, zero_le_one, le_refl 1, fun h => ?_⟩
  exact absurd rfl h

theorem EnvInv_of_reachable {s0 s : AudioEffectPeakLimiter α} (h0 : EnvInv s0)
    (h : Reachable s0 s) : EnvInv s := by
  induction h with
  | start => exact h0
  | block _ hb ih => exact EnvInv_process_block hb ih
  | samples _ _ hl ih => exact EnvInv_sample_loop _ _ _ _ _ _ _ _ hl ih

/-! ## The running maximum -/

theorem run_max_ge_acc (f : Int → α) :
    ∀ (n : Nat) (i : Int) (acc : α), acc ≤ run_max f n i acc := by
  intro n
  induction n with
  | zero => intro i acc; exact le_refl acc
  | succ n ih =>
    intro i acc
    unfold run_max
    refine le_trans ?_ (ih _ _)
    split_ifs with h
    · exact le_of_lt h
    · exact le_refl acc

theorem run_max_ge (f : Int → α) :
    ∀ (n : Nat) (i : Int) (acc : α) (j : Int), i ≤ j → j < i + n → f j ≤ run_max f n i acc := by
  intro n
  induction n with
  | zero => intro i acc j h1 h2; simp at h2; omega
  | succ n ih =>
    intro i acc j h1 h2
    unfold run_max
    rcases eq_or_lt_of_le h1 with h | h
    · subst h
      refine le_trans ?_ (run_max_ge_acc f n _ _)
      split_ifs with h3
      · exact le_refl _
      · exact not_lt.mp h3
    · exact ih _ _ _ (by omega) (by push_cast at h2; omega)

theorem run_max_attained (f : Int → α) :
    ∀ (n : Nat) (i : Int) (acc : α),
      run_max f n i acc = acc ∨ ∃ j, i ≤ j ∧ j < i + n ∧ run_max f n i acc = f j := by
  intro n
  induction n with
  | zero => intro i acc; exact Or.inl rfl
  | succ n ih =>
    intro i acc
    unfold run_max
    rcases ih (i + 1) (if f i > acc then f i else acc) with h | ⟨j, h1, h2, h3⟩
    · rw [h]
      split_ifs with h3
      · exact Or.inr ⟨i, le_refl i, by push_cast; omega, rfl⟩
      · exact Or.inl rfl
    · exact Or.inr ⟨j, by omega, by push_cast; omega, h3⟩

/-- The running maximum over a range is the value `v` as soon as `v` is an upper
bound of the range and of `acc` that is attained. -/
theorem run_max_eq_of_max (f : Int → α) (n : Nat) (i : Int) (acc v : α)
    (hacc : acc ≤ v) (hub : ∀ j, i ≤ j → j < i + n → f j ≤ v)
    (hat : v = acc ∨ ∃ j, i ≤ j ∧ j < i + n ∧ v = f j) :
    run_max f n i acc = v := by
  apply le_antisymm
  · rcases run_max_attained f n i acc with h | ⟨j, h1, h2, h3⟩
    · rw [h]; exact hacc
    · rw [h3]; exact hub j h1 h2
  · rcases hat with h | ⟨j, h1, h2, h3⟩
    · rw [h]; exact run_max_ge_acc f n i acc
    · rw [h3]; exact run_max_ge f n i acc j h1 h2

theorem run_max_congr (f g : Int → α) :
    ∀ (n : Nat) (i : Int) (acc : α), (∀ j, i ≤ j → j < i + n → f j = g j) →
      run_max f n i acc = run_max g n i acc := by
  intro n
  induction n with
  | zero => intro i acc _; rfl
  | succ n ih =>
    intro i acc h
    unfold run_max
    rw [h i (le_refl i) (by push_cast; omega)]
    exact ih _ _ (fun j h1 h2 => h j (by omega) (by push_cast; omega))

theorem sample_peak_nonneg (x : Int → Int → α) (C m : Int) : 0 ≤ sample_peak x C m :=
  run_max_ge_acc _ _ _ _

theorem sample_peak_le_lookahead (x : Int → Int → α) (C : Int) {D n m : Int}
    (h0 : n - D ≤ m) (h1 : m < n) : sample_peak x C m ≤ lookahead_peak x C D n := by
  unfold lookahead_peak
  have := run_max_ge (fun i => sample_peak x C (n - D + i)) D.toNat 0 0 (m - (n - D))
    (by omega) (by omega)
  simpa using this

/-! ## Ring-buffer indices -/

theorem DB_IDX_of_nonneg {s : AudioEffectPeakLimiter α} {i : Int}
    (hd : 0 < s.delayBufferSize) (hi : 0 ≤ i) :
    DB_IDX s i = some (i % s.delayBufferSize) := by
  unfold DB_IDX
  rw [if_neg (ne_of_gt hd), Int.tmod_eq_emod hi (le_of_lt hd)]

theorem DB_IDX_of_zero {s : AudioEffectPeakLimiter α} (i : Int) (hd : s.delayBufferSize = 0) :
    DB_IDX s i = none := by
  unfold DB_IDX
  rw [if_pos hd]

theorem emod_shift {D a b : Int} (i : Int) (h : a % D = b % D) :
    (i + a) % D = (b - D + i) % D := by
  have h1 : (i + a) % D = (i + b) % D := by
    rw [Int.add_emod, h, ← Int.add_emod]
  rw [h1]
  have h2 : b - D + i = (i + b) + (-1) * D := by ring
  rw [h2, Int.add_mul_emod_self]

theorem emod_sub_self_eq (n D : Int) : (n - D) % D = n % D := by
  have h2 : n - D = n + (-1) * D := by ring
  rw [h2, Int.add_mul_emod_self]

/-- Two times of one window of `D` samples that share a slot are equal. -/
theorem window_slot_inj {D m1 m2 : Int} (h : m1 % D = m2 % D) (h1 : m1 - m2 < D)
    (h2 : m2 - m1 < D) : m1 = m2 := by
  have hd : D ∣ m1 - m2 := by
    exact Int.dvd_of_emod_eq_zero (Int.emod_eq_emod_iff_emod_sub_eq_zero.mp h)
  have : m1 - m2 = 0 := by
    apply Int.eq_zero_of_abs_lt_dvd hd
    rw [abs_lt]
    constructor <;> omega
  omega

/-! ## The look-ahead scan -/

/-- The scan returns the running maximum of the scanned slots; the position it
returns is the one it was given when no slot exceeds `peak`, and otherwise a
scanned slot that holds the maximum. -/
theorem scan_loop_spec (s : AudioEffectPeakLimiter α) (idx : Int) (hd : 0 < s.delayBufferSize)
    (hidx : 0 ≤ idx) :
    ∀ (n : Nat) (i : Int) (peak : α) (pp : Int), 0 ≤ i →
      ∃ pp1, scan_loop s idx n i peak pp
          = some (run_max (fun j => s.peakData ((j + idx) % s.delayBufferSize)) n i peak, pp1) ∧
        ((pp1 = pp ∧
            run_max (fun j => s.peakData ((j + idx) % s.delayBufferSize)) n i peak = peak) ∨
          ∃ j, i ≤ j ∧ j < i + n ∧ pp1 = (j + idx) % s.delayBufferSize ∧
            run_max (fun j => s.peakData ((j + idx) % s.delayBufferSize)) n i peak
              = s.peakData ((j + idx) % s.delayBufferSize)) := by
  intro n
  induction n with
  | zero =>
    intro i peak pp _
    exact ⟨pp, rfl, Or.inl ⟨rfl, rfl⟩⟩
  | succ n ih =>
    intro i peak pp hi
    unfold scan_loop run_max
    rw [DB_IDX_of_nonneg hd (by omega)]
    dsimp only
    split_ifs with h
    · obtain ⟨pp1, e1, e2⟩ := ih (i + 1) (s.peakData ((i + idx) % s.delayBufferSize))
        ((i + idx) % s.delayBufferSize) (by omega)
      refine ⟨pp1, e1, Or.inr ?_⟩
      rcases e2 with ⟨e3, e4⟩ | ⟨j, j1, j2, j3, j4⟩
      · exact ⟨i, le_refl i, by push_cast; omega, e3, e4⟩
      · exact ⟨j, by omega, by push_cast; omega, j3, j4⟩
    · obtain ⟨pp1, e1, e2⟩ := ih (i + 1) peak pp (by omega)
      refine ⟨pp1, e1, ?_⟩
      rcases e2 with ⟨e3, e4⟩ | ⟨j, j1, j2, j3, j4⟩
      · exact Or.inl ⟨e3, e4⟩
      · exact Or.inr ⟨j, by omega, by push_cast; omega, j3, j4⟩

/-! ## The channel loop -/

/-- The channel loop in delay mode: every channel `c` of the range emits the sample
found in slot `j` of its delay line, multiplied by `g`, then stores its input sample
there; `peakMax` becomes the running maximum of the stored magnitudes. -/
theorem channel_loop_spec (inb : Int → α) (fs k idx : Int) (g : α) (j : Int) (hfs : fs ≠ 0) :
    ∀ (n : Nat) (c0 : Int) (s : AudioEffectPeakLimiter α) (ab : Int → α) (pm : α),
      0 < s.delaySize → DB_IDX s idx = some j →
      ∃ (dd : Int → Int → α) (ab1 : Int → α),
        channel_loop inb fs k idx g n c0 s ab pm
          = some ({ s with delayData := dd }, ab1,
              run_max (fun c => |inb (c * fs + k)|) n c0 pm) ∧
        (∀ c i, dd c i = if c0 ≤ c ∧ c < c0 + n ∧ i = j then inb (c * fs + k)
          else s.delayData c i) ∧
        (∀ c, c0 ≤ c → c < c0 + n → ab1 (c * fs + k) = s.delayData c j * g) ∧
        (∀ p, (∀ c, c0 ≤ c → c < c0 + n → p ≠ c * fs + k) → ab1 p = ab p) := by
  intro n
  induction n with
  | zero =>
    intro c0 s ab pm _ _
    refine ⟨s.delayData, ab, rfl, ?_, ?_, ?_⟩
    · intro c i
      rw [if_neg]
      simp only [Nat.cast_zero, add_zero]
      omega
    · intro c h1 h2
      simp only [Nat.cast_zero, add_zero] at h2
      omega
    · intro p _
      rfl
  | succ n ih =>
    intro c0 s ab pm hds hj
    unfold channel_loop run_max
    dsimp only
    rw [if_pos hds, hj]
    dsimp only
    have hval : Function.update s.delayData c0
        (Function.update (s.delayData c0) j (inb (c0 * fs + k))) c0 j = inb (c0 * fs + k) := by
      simp
    rw [hval]
    obtain ⟨dd, ab1, e, hdd, hab, hfr⟩ := ih (c0 + 1)
      { s with delayData := (Function.update s.delayData c0
          (Function.update (s.delayData c0) j (inb (c0 * fs + k)))) }
      (Function.update ab (c0 * fs + k) (s.delayData c0 j * g))
      (if |inb (c0 * fs + k)| > pm then |inb (c0 * fs + k)| else pm)
      hds hj
    dsimp only at e hdd hab
    refine ⟨dd, ab1, e, ?_, ?_, ?_⟩
    · intro c i
      rw [hdd c i]
      by_cases hc : c = c0
      · subst hc
        by_cases hi : i = j
        · subst hi
          rw [if_neg (by omega), if_pos ⟨le_refl _, by push_cast; omega, rfl⟩]
          simp
        · rw [if_neg (by tauto), if_neg (by tauto)]
          simp [Function.update, hi]
      · rw [Function.update_noteq hc]
        by_cases h : c0 + 1 ≤ c ∧ c < c0 + 1 + (n : Int) ∧ i = j
        · rw [if_pos h, if_pos ⟨by omega, by push_cast; omega, h.2.2⟩]
        · rw [if_neg h, if_neg]
          intro h2
          apply h
          exact ⟨by omega, by push_cast at h2; omega, h2.2.2⟩
    · intro c h1 h2
      rcases eq_or_lt_of_le h1 with hc | hc
      · subst hc
        rw [hfr _ (fun c h3 _ => by
          intro h5
          have : (c0 - c) * fs = 0 := by linarith
          rcases mul_eq_zero.mp this with h6 | h6
          · omega
          · exact hfs h6)]
        simp
      · rw [hab c (by omega) (by push_cast at h2; omega)]
        rw [Function.update_noteq (by omega)]
    · intro p hp
      rw [hfr p (fun c h1 h2 => hp c (by omega) (by push_cast; omega))]
      rw [Function.update_noteq (hp c0 (le_refl _) (by push_cast; omega))]

/-! ## One sample of a block -/

/-- `compute_target_gain` neither reads nor writes the buffers, the cached position
and the write cursor. -/
theorem cgt_with_buffers (s : AudioEffectPeakLimiter α) (p : α) (dd : Int → Int → α)
    (pd : Int → α) (pp e : Int) :
    compute_target_gain { s with delayData := dd, peakData := pd, peak_pos := pp, entryIndex := e } p
      = ({ (compute_target_gain s p).1 with
            delayData := dd, peakData := pd, peak_pos := pp, entryIndex := e },
          (compute_target_gain s p).2) := by
  unfold compute_target_gain
  dsimp only
  split_ifs <;> rfl

theorem cgt_with_peak_pos (s : AudioEffectPeakLimiter α) (p : α) (pp : Int) :
    compute_target_gain { s with peak_pos := pp } p
      = ({ (compute_target_gain s p).1 with peak_pos := pp }, (compute_target_gain s p).2) := by
  unfold compute_target_gain
  dsimp only
  split_ifs <;> rfl

/-- The peak found by the look-ahead step of a sample (rescan or cached position) is
the largest peak of the window, and the position it leaves is `-1` only when the
window is silent. -/
theorem lookahead_step_spec (x : Int → Int → α) (s : AudioEffectPeakLimiter α) (n idx : Int)
    (hinv : BufInv x s n) (hidx : 0 ≤ idx) (hmod : idx % s.delaySize = n % s.delaySize) :
    ∃ pp1,
      (if s.peak_pos < 0 then scan_loop s idx s.delaySize.toNat 0 0 s.peak_pos
        else some (s.peakData s.peak_pos, s.peak_pos))
        = some (lookahead_peak x s.numChannels s.delaySize n, pp1) ∧
      ((pp1 = -1 ∧ ∀ m, n - s.delaySize ≤ m → m < n → sample_peak x s.numChannels m ≤ 0) ∨
        ∃ m, n - s.delaySize ≤ m ∧ m < n ∧ pp1 = m % s.delaySize ∧
          ∀ m1, n - s.delaySize ≤ m1 → m1 < n →
            sample_peak x s.numChannels m1 ≤ sample_peak x s.numChannels m) := by
  obtain ⟨hD, hdbs, hpk, _, hpp⟩ := hinv
  have hdbs0 : 0 < s.delayBufferSize := by rw [hdbs]; exact hD
  have hrun : run_max (fun j => s.peakData ((j + idx) % s.delayBufferSize)) s.delaySize.toNat 0 0
      = lookahead_peak x s.numChannels s.delaySize n := by
    unfold lookahead_peak
    apply run_max_congr
    intro j h1 h2
    dsimp only
    rw [hdbs, emod_shift j hmod]
    exact hpk _ (by omega) (by omega)
  by_cases hneg : s.peak_pos < 0
  · rw [if_pos hneg]
    have hm1 : s.peak_pos = -1 := by
      rcases hpp with h | ⟨m, _, _, h, _⟩
      · exact h
      · have := Int.emod_nonneg m (ne_of_gt hD)
        omega
    obtain ⟨pp1, e1, e2⟩ := scan_loop_spec s idx hdbs0 hidx s.delaySize.toNat 0 0 s.peak_pos
      (le_refl 0)
    rw [hrun] at e1 e2
    refine ⟨pp1, e1, ?_⟩
    rcases e2 with ⟨e3, e4⟩ | ⟨j, j1, j2, j3, j4⟩
    · left
      refine ⟨by rw [e3, hm1], fun m h1 h2 => ?_⟩
      rw [← e4]
      exact sample_peak_le_lookahead x _ h1 h2
    · right
      have hslot : (j + idx) % s.delayBufferSize = (n - s.delaySize + j) % s.delaySize := by
        rw [hdbs, emod_shift j hmod]
      refine ⟨n - s.delaySize + j, by omega, by omega, by rw [j3, hslot], fun m1 h1 h2 => ?_⟩
      have e := hpk (n - s.delaySize + j) (by omega) (by omega)
      rw [← e, ← hslot, ← j4]
      exact sample_peak_le_lookahead x _ h1 h2
  · rw [if_neg hneg]
    rcases hpp with h | ⟨m, m1, m2, m3, m4⟩
    · omega
    · refine ⟨s.peak_pos, ?_, Or.inr ⟨m, m1, m2, m3, m4⟩⟩
      rw [m3, hpk m m1 m2]
      congr 2
      symm
      unfold lookahead_peak
      apply run_max_eq_of_max
      · exact sample_peak_nonneg x _ _
      · intro j h1 h2
        exact m4 _ (by omega) (by omega)
      · right
        refine ⟨m - (n - s.delaySize), by omega, by omega, ?_⟩
        dsimp only
        congr 1
        ring

/-- One sample of a block, in delay mode, on a limiter whose buffers hold the window
before sample `n` of the stream: the envelope makes one step with the look-ahead peak
of sample `n`, every channel emits sample `n - delaySize` times the new gain, and the
buffers hold the window before sample `n + 1`. -/
theorem sample_body_spec (x : Int → Int → α) (inb : Int → α) (fs k n : Int)
    (s : AudioEffectPeakLimiter α) (ab : Int → α)
    (hinv : BufInv x s n) (hn : 0 ≤ n) (hk0 : 0 ≤ k) (hkfs : k < fs) (he : 0 ≤ s.entryIndex)
    (hmod : (k + s.entryIndex) % s.delaySize = n % s.delaySize)
    (hin : ∀ c, 0 ≤ c → c < s.numChannels → inb (c * fs + k) = x c n) :
    ∃ (s1 : AudioEffectPeakLimiter α) (ab1 : Int → α),
      sample_body inb fs k s ab = some (s1, ab1) ∧
      s1 = { (compute_target_gain s (lookahead_peak x s.numChannels s.delaySize n)).1 with
              delayData := s1.delayData, peakData := s1.peakData, peak_pos := s1.peak_pos } ∧
      BufInv x s1 (n + 1) ∧
      (∀ c, 0 ≤ c → c < s.numChannels →
        ab1 (c * fs + k) = stream_at x c (n - s.delaySize) * s1.currentGain) ∧
      (∀ p, (∀ c, 0 ≤ c → c < s.numChannels → p ≠ c * fs + k) → ab1 p = ab p) := by
  have hinv0 := hinv
  obtain ⟨hD, hdbs, hpk, hdl, _⟩ := hinv
  have hdbs0 : 0 < s.delayBufferSize := by rw [hdbs]; exact hD
  have hfs : fs ≠ 0 := by omega
  obtain ⟨pp1, hscan, hmid⟩ := lookahead_step_spec x s n (k + s.entryIndex) hinv0 (by omega) hmod
  unfold sample_body
  dsimp only
  rw [hscan]
  dsimp only
  rw [cgt_with_peak_pos]
  dsimp only
  generalize hr : compute_target_gain s (lookahead_peak x s.numChannels s.delaySize n) = r
  have r_ds : r.1.delaySize = s.delaySize := by rw [← hr]; simp
  have r_dbs : r.1.delayBufferSize = s.delayBufferSize := by rw [← hr]; simp
  have r_nc : r.1.numChannels = s.numChannels := by rw [← hr]; simp
  have r_dd : r.1.delayData = s.delayData := by rw [← hr]; simp
  have r_pd : r.1.peakData = s.peakData := by rw [← hr]; simp
  have r_g : r.2 = r.1.currentGain := by rw [← hr]; rfl
  have hj : DB_IDX ({ r.1 with peak_pos := pp1 } : AudioEffectPeakLimiter α) (k + s.entryIndex)
      = some (n % s.delaySize) := by
    have := @DB_IDX_of_nonneg α _ ({ r.1 with peak_pos := pp1 }) (k + s.entryIndex)
      (by show 0 < r.1.delayBufferSize; rw [r_dbs]; exact hdbs0) (by omega)
    rw [this]
    show some ((k + s.entryIndex) % r.1.delayBufferSize) = _
    rw [r_dbs, hdbs, hmod]
  obtain ⟨dd, ab1, hcl, hdd, hab, hfr⟩ := channel_loop_spec inb fs k (k + s.entryIndex) r.2
    (n % s.delaySize) hfs r.1.numChannels.toNat 0 ({ r.1 with peak_pos := pp1 }) ab 0
    (by show 0 < r.1.delaySize; rw [r_ds]; exact hD) hj
  rw [hcl]
  dsimp only
  have hj2 : DB_IDX ({ r.1 with peak_pos := pp1, delayData := dd } : AudioEffectPeakLimiter α)
      (k + s.entryIndex) = some (n % s.delaySize) := hj
  rw [hj2]
  dsimp only
  have hpm : run_max (fun c => |inb (c * fs + k)|) r.1.numChannels.toNat 0 0
      = sample_peak x s.numChannels n := by
    unfold sample_peak
    rw [r_nc]
    apply run_max_congr
    intro c h1 h2
    dsimp only
    rw [hin c h1 (by omega)]
    unfold stream_at
    rw [if_neg (by omega)]
  rw [hpm, r_pd]
  refine ⟨_, _, rfl, rfl, ?_, ?_, ?_⟩
  · -- the buffers hold the window before sample `n + 1`
    refine ⟨by show 0 < r.1.delaySize; rw [r_ds]; exact hD,
      by show r.1.delayBufferSize = r.1.delaySize; rw [r_ds, r_dbs]; exact hdbs, ?_, ?_, ?_⟩
    · intro m h1 h2
      show Function.update s.peakData (n % s.delaySize) (sample_peak x s.numChannels n)
        (m % r.1.delaySize) = sample_peak x r.1.numChannels m
      rw [r_ds, r_nc]
      rw [r_ds] at h1
      rcases eq_or_lt_of_le (Int.lt_add_one_iff.mp h2) with h | h
      · rw [h]; simp
      · have hne : m % s.delaySize ≠ n % s.delaySize := fun hh =>
          absurd (window_slot_inj hh (by omega) (by omega)) (by omega)
        rw [Function.update_noteq hne]
        exact hpk m (by omega) h
    · intro c m hc0 hc1 h1 h2
      show dd c (m % r.1.delaySize) = stream_at x c m
      rw [r_ds]
      rw [r_ds] at h1
      have hc1 : c < s.numChannels := by rw [← r_nc]; exact hc1
      rw [hdd c (m % s.delaySize)]
      rcases eq_or_lt_of_le (Int.lt_add_one_iff.mp h2) with h | h
      · rw [if_pos ⟨hc0, by rw [r_nc]; omega, by rw [h]⟩, hin c hc0 hc1, h]
        unfold stream_at
        rw [if_neg (by omega)]
      · have hne : m % s.delaySize ≠ n % s.delaySize := fun hh =>
          absurd (window_slot_inj hh (by omega) (by omega)) (by omega)
        rw [if_neg (by tauto)]
        show r.1.delayData c (m % s.delaySize) = _
        rw [r_dd]
        exact hdl c m hc0 hc1 (by omega) h
    · show (if pp1 = n % s.delaySize then -1
          else if pp1 < 0 ∨ s.peakData pp1 < sample_peak x s.numChannels n then n % s.delaySize
          else pp1) = -1 ∨ ∃ m, n + 1 - r.1.delaySize ≤ m ∧ m < n + 1 ∧
          (if pp1 = n % s.delaySize then -1
            else if pp1 < 0 ∨ s.peakData pp1 < sample_peak x s.numChannels n then n % s.delaySize
            else pp1) = m % r.1.delaySize ∧
          ∀ m1, n + 1 - r.1.delaySize ≤ m1 → m1 < n + 1 →
            sample_peak x r.1.numChannels m1 ≤ sample_peak x r.1.numChannels m
      rw [r_ds, r_nc]
      by_cases h1 : pp1 = n % s.delaySize
      · left
        rw [if_pos h1]
      · rw [if_neg h1]
        right
        by_cases h2 : pp1 < 0 ∨ s.peakData pp1 < sample_peak x s.numChannels n
        · rw [if_pos h2]
          refine ⟨n, by omega, by omega, rfl, fun m1 a1 a2 => ?_⟩
          rcases eq_or_lt_of_le (Int.lt_add_one_iff.mp a2) with h | h
          · rw [h]
          · rcases hmid with ⟨_, z⟩ | ⟨m, b1, b2, b3, b4⟩
            · exact le_trans (z m1 (by omega) h) (sample_peak_nonneg x _ _)
            · rcases h2 with h2 | h2
              · have := Int.emod_nonneg m (ne_of_gt hD)
                omega
              · rw [b3, hpk m b1 b2] at h2
                exact le_trans (b4 m1 (by omega) h) (le_of_lt h2)
        · rw [if_neg h2]
          push_neg at h2
          rcases hmid with ⟨z, _⟩ | ⟨m, b1, b2, b3, b4⟩
          · omega
          · have hm : m ≠ n - s.delaySize := by
              intro hh
              apply h1
              rw [b3, hh, emod_sub_self_eq]
            refine ⟨m, by omega, by omega, b3, fun m1 a1 a2 => ?_⟩
            rcases eq_or_lt_of_le (Int.lt_add_one_iff.mp a2) with h | h
            · rw [h]
              have := h2.2
              rw [b3, hpk m b1 b2] at this
              exact this
            · exact b4 m1 (by omega) h
  · intro c hc0 hc1
    rw [hab c hc0 (by rw [r_nc]; omega)]
    show r.1.delayData c (n % s.delaySize) * r.2 = _ * r.1.currentGain
    rw [r_dd, r_g, ← emod_sub_self_eq n s.delaySize,
      hdl c (n - s.delaySize) hc0 hc1 (le_refl _) (by omega)]
  · intro p hp
    exact hfr p (fun c h1 h2 => hp c h1 (by rw [r_nc] at h2; omega))

/-! ## The envelope along a stream -/

theorem sameEnv_refl (s : AudioEffectPeakLimiter α) : SameEnv s s := rfl

theorem sameEnv_trans {s t u : AudioEffectPeakLimiter α} (h1 : SameEnv s t) (h2 : SameEnv t u) :
    SameEnv s u := by
  unfold SameEnv at *
  rw [h1, h2]

theorem sameEnv_cgt {s t : AudioEffectPeakLimiter α} (h : SameEnv s t) (p : α) :
    SameEnv (compute_target_gain s p).1 (compute_target_gain t p).1 := by
  unfold SameEnv at *
  rw [h, cgt_with_buffers]

theorem sameEnv_currentGain {s t : AudioEffectPeakLimiter α} (h : SameEnv s t) :
    s.currentGain = t.currentGain := by
  unfold SameEnv at h; rw [h]

theorem sameEnv_currentTC {s t : AudioEffectPeakLimiter α} (h : SameEnv s t) :
    s.currentTC = t.currentTC := by
  unfold SameEnv at h; rw [h]

theorem sameEnv_targetEndGain {s t : AudioEffectPeakLimiter α} (h : SameEnv s t) :
    s.targetEndGain = t.targetEndGain := by
  unfold SameEnv at h; rw [h]

theorem sameEnv_linearThreashold {s t : AudioEffectPeakLimiter α} (h : SameEnv s t) :
    s.linearThreashold = t.linearThreashold := by
  unfold SameEnv at h; rw [h]

theorem sameEnv_numChannels {s t : AudioEffectPeakLimiter α} (h : SameEnv s t) :
    s.numChannels = t.numChannels := by
  unfold SameEnv at h; rw [h]

theorem sameEnv_delaySize {s t : AudioEffectPeakLimiter α} (h : SameEnv s t) :
    s.delaySize = t.delaySize := by
  unfold SameEnv at h; rw [h]

theorem env_run_sameEnv {s t : AudioEffectPeakLimiter α} (h : SameEnv s t) (pk : Int → α) :
    ∀ n : Nat, SameEnv (env_run s pk n) (env_run t pk n) := by
  intro n
  induction n with
  | zero => exact h
  | succ n ih => exact sameEnv_cgt ih _

/-- The first call of a run can be split off. -/
theorem env_run_succ_head (s : AudioEffectPeakLimiter α) (pk : Int → α) :
    ∀ n : Nat, env_run s pk (n + 1)
      = env_run (compute_target_gain s (pk 0)).1 (fun i => pk (i + 1)) n := by
  intro n
  induction n with
  | zero => rfl
  | succ n ih =>
    show (compute_target_gain (env_run s pk (n + 1)) (pk ((n + 1 : Nat) : Int))).1 = _
    rw [ih]
    rfl

theorem env_run_congr (s : AudioEffectPeakLimiter α) (pk pk1 : Int → α) :
    ∀ n : Nat, (∀ i : Int, 0 ≤ i → i < n → pk i = pk1 i) → env_run s pk n = env_run s pk1 n := by
  intro n
  induction n with
  | zero => intro _; rfl
  | succ n ih =>
    intro h
    show (compute_target_gain (env_run s pk n) (pk n)).1
      = (compute_target_gain (env_run s pk1 n) (pk1 n)).1
    rw [ih (fun i h1 h2 => h i h1 (by push_cast; omega)), h n (by omega) (by push_cast; omega)]

/-- A run of `n + m` calls is a run of `n` calls followed by a run of `m` calls. -/
theorem env_run_add (s : AudioEffectPeakLimiter α) (pk : Int → α) (n : Nat) :
    ∀ m : Nat, env_run s pk (n + m) = env_run (env_run s pk n) (fun i => pk (n + i)) m := by
  intro m
  induction m with
  | zero => rfl
  | succ m ih =>
    show (compute_target_gain (env_run s pk (n + m)) (pk ((n + m : Nat) : Int))).1 = _
    rw [ih]
    show _ = (compute_target_gain _ (pk (n + m))).1
    push_cast
    rfl

@[simp] theorem env_run_numChannels (s : AudioEffectPeakLimiter α) (pk : Int → α) (n : Nat) :
    (env_run s pk n).numChannels = s.numChannels := by
  induction n with
  | zero => rfl
  | succ n ih => show (compute_target_gain _ _).1.numChannels = _; rw [cgt_numChannels, ih]

@[simp] theorem env_run_delaySize (s : AudioEffectPeakLimiter α) (pk : Int → α) (n : Nat) :
    (env_run s pk n).delaySize = s.delaySize := by
  induction n with
  | zero => rfl
  | succ n ih => show (compute_target_gain _ _).1.delaySize = _; rw [cgt_delaySize, ih]

@[simp] theorem env_run_linearThreashold (s : AudioEffectPeakLimiter α) (pk : Int → α) (n : Nat) :
    (env_run s pk n).linearThreashold = s.linearThreashold := by
  induction n with
  | zero => rfl
  | succ n ih =>
    show (compute_target_gain _ _).1.linearThreashold = _; rw [cgt_linearThreashold, ih]

@[simp] theorem env_run_attackSec (s : AudioEffectPeakLimiter α) (pk : Int → α) (n : Nat) :
    (env_run s pk n).attackSec = s.attackSec := by
  induction n with
  | zero => rfl
  | succ n ih => show (compute_target_gain _ _).1.attackSec = _; rw [cgt_attackSec, ih]

@[simp] theorem env_run_releaseSec (s : AudioEffectPeakLimiter α) (pk : Int → α) (n : Nat) :
    (env_run s pk n).releaseSec = s.releaseSec := by
  induction n with
  | zero => rfl
  | succ n ih => show (compute_target_gain _ _).1.releaseSec = _; rw [cgt_releaseSec, ih]

@[simp] theorem env_run_incTC (s : AudioEffectPeakLimiter α) (pk : Int → α) (n : Nat) :
    (env_run s pk n).incTC = s.incTC := by
  induction n with
  | zero => rfl
  | succ n ih => show (compute_target_gain _ _).1.incTC = _; rw [cgt_incTC, ih]

/-- Positions of a planar buffer determine the channel and the sample. -/
theorem planar_inj {fs c k c1 k1 : Int} (hk0 : 0 ≤ k) (hk : k < fs) (hk10 : 0 ≤ k1)
    (hk1 : k1 < fs) (h : c * fs + k = c1 * fs + k1) : c = c1 ∧ k = k1 := by
  have hd : fs ∣ k1 - k := ⟨c - c1, by linarith⟩
  have hz : k1 - k = 0 := by
    apply Int.eq_zero_of_abs_lt_dvd hd
    rw [abs_lt]
    constructor <;> omega
  have hkk : k = k1 := by omega
  subst hkk
  have : (c - c1) * fs = 0 := by linarith
  rcases mul_eq_zero.mp this with h6 | h6
  · exact ⟨by omega, rfl⟩
  · omega

/-! ## A block of samples -/

/-- The sample loop, in delay mode, on a limiter whose buffers hold the window before
sample `N + k` of the stream: after `j` samples the envelope has made `j` steps with
the look-ahead peaks of the samples, the buffers hold the window before sample
`N + k + j`, and sample `k1` of the block has emitted sample `N + k1 - D` of every
channel times the gain computed for it. -/
theorem sample_loop_spec (x : Int → Int → α) (inb : Int → α) (fs N C D : Int) (hN : 0 ≤ N) :
    ∀ (j : Nat) (k : Int) (s : AudioEffectPeakLimiter α) (ab : Int → α),
      s.numChannels = C → s.delaySize = D → BufInv x s (N + k) → 0 ≤ k → k + j ≤ fs →
      0 ≤ s.entryIndex → s.entryIndex % D = N % D →
      (∀ c k1, 0 ≤ c → c < C → 0 ≤ k1 → k1 < fs → inb (c * fs + k1) = x c (N + k1)) →
      ∃ (s1 : AudioEffectPeakLimiter α) (ab1 : Int → α),
        sample_loop inb fs j k s ab = some (s1, ab1) ∧
        SameEnv s1 (env_run s (fun i => lookahead_peak x C D (N + k + i)) j) ∧
        s1.entryIndex = s.entryIndex ∧
        BufInv x s1 (N + k + j) ∧
        (∀ c k1, 0 ≤ c → c < C → k ≤ k1 → k1 < k + j →
          ab1 (c * fs + k1) = stream_at x c (N + k1 - D) *
            (env_run s (fun i => lookahead_peak x C D (N + k + i)) (k1 - k + 1).toNat).currentGain) ∧
        (∀ p, (∀ c k1, 0 ≤ c → c < C → k ≤ k1 → k1 < k + j → p ≠ c * fs + k1) → ab1 p = ab p) := by
  intro j
  induction j with
  | zero =>
    intro k s ab _ _ hinv _ _ _ _ _
    refine ⟨s, ab, rfl, sameEnv_refl s, rfl, by simpa using hinv, ?_, fun p _ => rfl⟩
    intro c k1 _ _ h1 h2
    simp only [Nat.cast_zero, add_zero] at h2
    omega
  | succ j ih =>
    intro k s ab hC hDs hinv hk0 hkj he hemod hin
    have hkfs : k < fs := by push_cast at hkj; omega
    have hmod : (k + s.entryIndex) % s.delaySize = (N + k) % s.delaySize := by
      rw [hDs, Int.add_emod, hemod, ← Int.add_emod, add_comm]
    obtain ⟨s', ab', hb, hs', hinv', hout', hfr'⟩ := sample_body_spec x inb fs k (N + k) s ab
      hinv (by omega) hk0 hkfs he hmod (fun c h0 h1 => hin c k h0 (by rw [← hC]; exact h1) hk0 hkfs)
    rw [hC, hDs] at hs' hout'
    rw [hC] at hfr'
    have hse : SameEnv s' (compute_target_gain s (lookahead_peak x C D (N + k))).1 := by
      unfold SameEnv
      rw [hs']
    have hC' : s'.numChannels = C := by rw [sameEnv_numChannels hse, cgt_numChannels, hC]
    have hD' : s'.delaySize = D := by rw [sameEnv_delaySize hse, cgt_delaySize, hDs]
    have he' : s'.entryIndex = s.entryIndex := by rw [hs']; simp
    have hNk : N + k + 1 = N + (k + 1) := by ring
    obtain ⟨s1, ab1, hl, hs1, he1, hinv1, hout1, hfr1⟩ := ih (k + 1) s' ab' hC' hD'
      (by rw [← hNk]; exact hinv') (by omega) (by push_cast at hkj; omega) (by rw [he']; exact he)
      (by rw [he']; exact hemod) hin
    have hrun : ∀ m : Nat,
        env_run s (fun i => lookahead_peak x C D (N + k + i)) (m + 1)
          = env_run (compute_target_gain s (lookahead_peak x C D (N + k))).1
              (fun i => lookahead_peak x C D (N + (k + 1) + i)) m := by
      intro m
      rw [env_run_succ_head]
      simp only [add_zero]
      apply env_run_congr
      intro i _ _
      dsimp only
      congr 1
      ring
    refine ⟨s1, ab1, ?_, ?_, by rw [he1, he'], ?_, ?_, ?_⟩
    · unfold sample_loop
      rw [hb]
      exact hl
    · rw [hrun]
      exact sameEnv_trans hs1 (env_run_sameEnv hse _ j)
    · have : N + k + ((j + 1 : Nat) : Int) = N + (k + 1) + (j : Int) := by push_cast; ring
      rw [this]
      exact hinv1
    · intro c k1 hc0 hc1 h1 h2
      rcases eq_or_lt_of_le h1 with h | h
      · subst h
        rw [hfr1 _ (fun c1 k1 _ _ a1 a2 hh => by
          have := (planar_inj hk0 hkfs (by omega) (by push_cast at hkj; omega) hh).2
          omega)]
        rw [hout' c hc0 hc1]
        have e1 : (k - k + 1).toNat = 0 + 1 := by simp
        rw [e1, hrun 0]
        congr 1
        exact sameEnv_currentGain hse
      · rw [hout1 c k1 hc0 hc1 (by omega) (by push_cast at h2; omega)]
        have e1 : (k1 - k + 1).toNat = (k1 - (k + 1) + 1).toNat + 1 := by omega
        rw [e1, hrun]
        congr 1
        exact sameEnv_currentGain (env_run_sameEnv hse _ _)
    · intro p hp
      rw [hfr1 p (fun c k1 a1 a2 a3 a4 => hp c k1 a1 a2 (by omega) (by push_cast; omega))]
      exact hfr' p (fun c a1 a2 => hp c k a1 a2 (le_refl k) (by push_cast; omega))

/-! ## A call of `process_block` -/

theorem sample_peak_of_neg (x : Int → Int → α) (C : Int) {m : Int} (hm : m < 0) :
    sample_peak x C m = 0 := by
  unfold sample_peak
  apply run_max_eq_of_max
  · exact le_refl 0
  · intro j _ _
    dsimp only
    unfold stream_at
    rw [if_pos hm, abs_zero]
  · exact Or.inl rfl

/-- A call of `process_block`, in delay mode, on a limiter that has been fed `N`
samples: the call returns `frame_size`, the limiter has then been fed
`N + frame_size` samples, and sample `k` of channel `c` of the output is sample
`N + k - delaySize` of the stream times the gain computed for sample `N + k`. -/
theorem process_block_spec (s0 : AudioEffectPeakLimiter α) (x : Int → Int → α) (N : Int)
    (s : AudioEffectPeakLimiter α) (inb outblock : Int → α) (fs : Int)
    (hinv : StreamInv s0 x N s) (hfs : 0 ≤ fs)
    (hin : ∀ c k, 0 ≤ c → c < s.numChannels → 0 ≤ k → k < fs →
      inb (c * fs + k) = x c (N + k)) :
    ∃ (s1 : AudioEffectPeakLimiter α) (out1 : Int → α),
      audio_effect_peak_limiter_process_block s (some inb) outblock fs = some (fs, s1, out1) ∧
      StreamInv s0 x (N + fs) s1 ∧
      (∀ c k, 0 ≤ c → c < s.numChannels → 0 ≤ k → k < fs →
        out1 (c * fs + k) = stream_at x c (N + k - s.delaySize) *
          (env_run s0 (lookahead_peak x s0.numChannels s0.delaySize) (N + k + 1).toNat).currentGain) ∧
      (∀ p, (∀ c k, 0 ≤ c → c < s.numChannels → 0 ≤ k → k < fs → p ≠ c * fs + k) →
        out1 p = outblock p) := by
  obtain ⟨hN, hbuf, he, henv⟩ := hinv
  have hD : 0 < s.delaySize := hbuf.1
  have hdbs : s.delayBufferSize = s.delaySize := hbuf.2.1
  have hC0 : s.numChannels = s0.numChannels := by
    rw [sameEnv_numChannels henv, env_run_numChannels]
  have hD0 : s.delaySize = s0.delaySize := by
    rw [sameEnv_delaySize henv, env_run_delaySize]
  obtain ⟨s1, ab1, hl, hs1, he1, hinv1, hout1, hfr1⟩ := sample_loop_spec x inb fs N
    s.numChannels s.delaySize hN fs.toNat 0 s outblock rfl rfl (by simpa using hbuf)
    (le_refl 0) (by omega) (by rw [he]; exact Int.emod_nonneg _ (ne_of_gt hD))
    (by rw [he, Int.emod_emod]) hin
  have hD1 : s1.delaySize = s.delaySize := by
    rw [sameEnv_delaySize hs1, env_run_delaySize]
  have hC1 : s1.numChannels = s.numChannels := by
    rw [sameEnv_numChannels hs1, env_run_numChannels]
  have hdbs1 : s1.delayBufferSize = s1.delaySize := hinv1.2.1
  have hrun : ∀ m : Nat, env_run s (fun i => lookahead_peak x s.numChannels s.delaySize (N + 0 + i)) m
      = env_run s (fun i => lookahead_peak x s0.numChannels s0.delaySize (N.toNat + i)) m := by
    intro m
    apply env_run_congr
    intro i _ _
    dsimp only
    rw [hC0, hD0, Int.toNat_of_nonneg hN, add_zero]
  have hsame : ∀ m : Nat,
      SameEnv (env_run s (fun i => lookahead_peak x s.numChannels s.delaySize (N + 0 + i)) m)
        (env_run s0 (lookahead_peak x s0.numChannels s0.delaySize) (N.toNat + m)) := by
    intro m
    rw [hrun, env_run_add]
    exact env_run_sameEnv henv _ m
  unfold audio_effect_peak_limiter_process_block
  dsimp only
  rw [hl]
  dsimp only
  rw [if_pos (by rw [hD1]; exact hD)]
  have hidx : DB_IDX s1 (s1.entryIndex + fs) = some ((N + fs) % s.delaySize) := by
    rw [DB_IDX_of_nonneg (by rw [hdbs1, hD1]; exact hD)
      (by rw [he1, he]; have := Int.emod_nonneg N (ne_of_gt hD); omega)]
    rw [hdbs1, hD1, he1, he, Int.emod_add_emod]
  rw [hidx]
  dsimp only
  refine ⟨_, _, rfl, ⟨by omega, ?_, ?_, ?_⟩, ?_, ?_⟩
  · have : N + 0 + ((fs.toNat : Nat) : Int) = N + fs := by
      rw [Int.toNat_of_nonneg hfs]; ring
    rw [this] at hinv1
    exact hinv1
  · show (N + fs) % s.delaySize = (N + fs) % s1.delaySize
    rw [hD1]
  · have e2 : (N + fs).toNat = N.toNat + fs.toNat := Int.toNat_add hN hfs
    rw [e2]
    refine sameEnv_trans ?_ (hsame fs.toNat)
    refine sameEnv_trans ?_ hs1
    unfold SameEnv
    rfl
  · intro c k hc0 hc1 hk0 hk1
    rw [hout1 c k hc0 hc1 hk0 (by omega)]
    have e1 : N + k - s.delaySize = N + k - s.delaySize := rfl
    congr 1
    rw [sameEnv_currentGain (hsame _)]
    congr 2
    omega
  · intro p hp
    exact hfr1 p (fun c k a1 a2 a3 a4 => hp c k a1 a2 a3 (by omega))

/-- The limiter left by `init` with a positive delay has been fed no sample. -/
theorem StreamInv_init (pow : α → α → α) (ths : AudioEffectPeakLimiter α) (db : α)
    (sr nc : Int) (atk rel : α) (d : Int) (hd : 0 < d) (x : Int → Int → α) :
    StreamInv (audio_effect_peak_limiter_init pow ths db sr nc atk rel d) x 0
      (audio_effect_peak_limiter_init pow ths db sr nc atk rel d) := by
  refine ⟨le_refl 0, ⟨hd, rfl, ?_, ?_, Or.inl rfl⟩, ?_, sameEnv_refl _⟩
  · intro m _ h2
    rw [sample_peak_of_neg x _ h2]
    rfl
  · intro c m _ _ _ h2
    unfold stream_at
    rw [if_pos h2]
    rfl
  · show (0 : Int) = 0 % d
    simp

/-- Every limiter that has been fed `N` samples of the stream satisfies the stream
invariant. -/
theorem StreamInv_of_fed {s0 s : AudioEffectPeakLimiter α} {x : Int → Int → α} {N : Int}
    (h0 : StreamInv s0 x 0 s0) (h : Fed s0 x N s) : StreamInv s0 x N s := by
  induction h with
  | start => exact h0
  | block _ hfs hin hb ih =>
    obtain ⟨s2, out2, e, hinv, _, _⟩ := process_block_spec s0 x _ _ _ _ _ ih hfs hin
    rw [hb] at e
    simp only [Option.some.injEq, Prod.mk.injEq] at e
    rw [e.2.1]
    exact hinv

/-! ## Calls that complete and calls that do not -/

theorem scan_loop_total (s : AudioEffectPeakLimiter α) (idx : Int) (hd : s.delayBufferSize ≠ 0) :
    ∀ (n : Nat) (i : Int) (peak : α) (pp : Int), ∃ r, scan_loop s idx n i peak pp = some r := by
  intro n
  induction n with
  | zero => intro i peak pp; exact ⟨_, rfl⟩
  | succ n ih =>
    intro i peak pp
    unfold scan_loop DB_IDX
    rw [if_neg hd]
    dsimp only
    split_ifs
    · exact ih _ _ _
    · exact ih _ _ _

theorem channel_loop_total (inb : Int → α) (fs k idx : Int) (g : α) :
    ∀ (n : Nat) (c : Int) (s : AudioEffectPeakLimiter α) (ab : Int → α) (pm : α),
      s.delayBufferSize ≠ 0 → ∃ r, channel_loop inb fs k idx g n c s ab pm = some r := by
  intro n
  induction n with
  | zero => intro c s ab pm _; exact ⟨_, rfl⟩
  | succ n ih =>
    intro c s ab pm hd
    unfold channel_loop DB_IDX
    rw [if_neg hd]
    dsimp only
    split_ifs
    all_goals exact ih _ _ _ _ hd

theorem sample_body_delayBufferSize {inb : Int → α} {fs k : Int} {s s1 : AudioEffectPeakLimiter α}
    {ab ab1 : Int → α} (h : sample_body inb fs k s ab = some (s1, ab1)) :
    s1.delayBufferSize = s.delayBufferSize := by
  obtain ⟨pk, pp, e⟩ := sample_body_frame h
  rw [e]
  show (compute_target_gain _ pk).1.delayBufferSize = _
  rw [cgt_delayBufferSize]

theorem sample_body_delaySize {inb : Int → α} {fs k : Int} {s s1 : AudioEffectPeakLimiter α}
    {ab ab1 : Int → α} (h : sample_body inb fs k s ab = some (s1, ab1)) :
    s1.delaySize = s.delaySize := by
  obtain ⟨pk, pp, e⟩ := sample_body_frame h
  rw [e]
  show (compute_target_gain _ pk).1.delaySize = _
  rw [cgt_delaySize]

theorem sample_body_total (inb : Int → α) (fs k : Int) (s : AudioEffectPeakLimiter α)
    (ab : Int → α) (hd : s.delayBufferSize ≠ 0) :
    ∃ s1 ab1, sample_body inb fs k s ab = some (s1, ab1) := by
  unfold sample_body
  dsimp only
  have hsc : ∃ r, (if s.peak_pos < 0 then scan_loop s (k + s.entryIndex) s.delaySize.toNat 0 0 s.peak_pos
      else some (s.peakData s.peak_pos, s.peak_pos)) = some r := by
    split_ifs
    · exact scan_loop_total s _ hd _ _ _ _
    · exact ⟨_, rfl⟩
  obtain ⟨⟨peak, pp⟩, e⟩ := hsc
  rw [e]
  dsimp only
  have hd2 : (compute_target_gain { s with peak_pos := pp } peak).1.delayBufferSize ≠ 0 := by
    rw [cgt_delayBufferSize]; exact hd
  obtain ⟨⟨s3, ab3, pm⟩, e3⟩ := channel_loop_total inb fs k (k + s.entryIndex)
    (compute_target_gain { s with peak_pos := pp } peak).2
    (compute_target_gain { s with peak_pos := pp } peak).1.numChannels.toNat 0
    (compute_target_gain { s with peak_pos := pp } peak).1 ab 0 hd2
  rw [e3]
  dsimp only
  have h3 := channel_loop_frame _ _ _ _ _ _ _ _ _ _ _ _ _ e3
  have hd3 : s3.delayBufferSize ≠ 0 := by rw [h3]; exact hd2
  unfold DB_IDX
  rw [if_neg hd3]
  exact ⟨_, _, rfl⟩

theorem sample_loop_total (inb : Int → α) (fs : Int) :
    ∀ (n : Nat) (k : Int) (s : AudioEffectPeakLimiter α) (ab : Int → α),
      s.delayBufferSize ≠ 0 →
      ∃ s1 ab1, sample_loop inb fs n k s ab = some (s1, ab1) ∧
        s1.delayBufferSize = s.delayBufferSize := by
  intro n
  induction n with
  | zero => intro k s ab _; exact ⟨s, ab, rfl, rfl⟩
  | succ n ih =>
    intro k s ab hd
    obtain ⟨s2, ab2, e⟩ := sample_body_total inb fs k s ab hd
    have hd2 := sample_body_delayBufferSize e
    obtain ⟨s1, ab1, e1, h1⟩ := ih (k + 1) s2 ab2 (by rw [hd2]; exact hd)
    refine ⟨s1, ab1, ?_, by rw [h1, hd2]⟩
    unfold sample_loop
    rw [e]
    exact e1

/-- With a non-zero ring-buffer size every call on a present input completes and
returns `frame_size`. -/
theorem process_block_total (s : AudioEffectPeakLimiter α) (inb outblock : Int → α) (fs : Int)
    (hd : s.delayBufferSize ≠ 0) :
    ∃ s1 out1,
      audio_effect_peak_limiter_process_block s (some inb) outblock fs = some (fs, s1, out1) := by
  obtain ⟨s1, ab1, e1, h1⟩ := sample_loop_total inb fs fs.toNat 0 s outblock hd
  unfold audio_effect_peak_limiter_process_block
  dsimp only
  rw [e1]
  dsimp only
  split_ifs
  · unfold DB_IDX
    rw [if_neg (by rw [h1]; exact hd)]
    exact ⟨_, _, rfl⟩
  · exact ⟨_, _, rfl⟩

/-- With a ring-buffer size of zero no sample can be processed: the remainder of
line 154 has a zero divisor (and so have those of lines 98, 124 and 147 when they are
reached). -/
theorem sample_body_zero_divisor (inb : Int → α) (fs k : Int) (s : AudioEffectPeakLimiter α)
    (ab : Int → α) (hd : s.delayBufferSize = 0) : sample_body inb fs k s ab = none := by
  cases h : sample_body inb fs k s ab with
  | none => rfl
  | some r =>
    exfalso
    obtain ⟨s1, ab1⟩ := r
    unfold sample_body at h
    dsimp only at h
    split at h
    · exact absurd h (by simp)
    · rename_i peak pp hsc
      split at h
      · exact absurd h (by simp)
      · rename_i s3 ab3 pm hcl
        have h3 := channel_loop_frame _ _ _ _ _ _ _ _ _ _ _ _ _ hcl
        have hd3 : s3.delayBufferSize = 0 := by
          rw [h3]
          show (compute_target_gain _ peak).1.delayBufferSize = 0
          rw [cgt_delayBufferSize]
          exact hd
        rw [DB_IDX_of_zero _ hd3] at h
        exact absurd h (by simp)

theorem process_block_zero_divisor (s : AudioEffectPeakLimiter α) (inb outblock : Int → α)
    (fs : Int) (hd : s.delayBufferSize = 0) (hfs : 0 < fs) :
    audio_effect_peak_limiter_process_block s (some inb) outblock fs = none := by
  unfold audio_effect_peak_limiter_process_block
  dsimp only
  obtain ⟨n, hn⟩ : ∃ n : Nat, fs.toNat = n + 1 := ⟨fs.toNat - 1, by omega⟩
  rw [hn]
  unfold sample_loop
  rw [sample_body_zero_divisor inb fs 0 s outblock hd]

theorem StreamInv_numChannels {s0 s : AudioEffectPeakLimiter α} {x : Int → Int → α} {N : Int}
    (h : StreamInv s0 x N s) : s.numChannels = s0.numChannels := by
  rw [sameEnv_numChannels h.2.2.2, env_run_numChannels]

theorem StreamInv_delaySize {s0 s : AudioEffectPeakLimiter α} {x : Int → Int → α} {N : Int}
    (h : StreamInv s0 x N s) : s.delaySize = s0.delaySize := by
  rw [sameEnv_delaySize h.2.2.2, env_run_delaySize]

/-- The limiter after the first `j` samples of a call of `process_block` made on a
limiter that has been fed `N` samples: its buffers hold the window before sample
`N + j`, its envelope is the one of the stream after `N + j` samples, and the samples
emitted so far are the delayed samples times their gains. -/
theorem block_prefix_spec (s0 : AudioEffectPeakLimiter α) (x : Int → Int → α) (N : Int)
    (s : AudioEffectPeakLimiter α) (inb outblock : Int → α) (fs : Int)
    (hinv : StreamInv s0 x N s)
    (hin : ∀ c k, 0 ≤ c → c < s.numChannels → 0 ≤ k → k < fs →
      inb (c * fs + k) = x c (N + k))
    (j : Nat) (hj : (j : Int) ≤ fs) :
    ∃ (sj : AudioEffectPeakLimiter α) (abj : Int → α),
      sample_loop inb fs j 0 s outblock = some (sj, abj) ∧
      BufInv x sj (N + j) ∧ sj.entryIndex = s.entryIndex ∧
      SameEnv sj (env_run s0 (lookahead_peak x s0.numChannels s0.delaySize) (N + j).toNat) ∧
      (∀ c k : Int, 0 ≤ c → c < s.numChannels → 0 ≤ k → k < (j : Int) →
        abj (c * fs + k) = stream_at x c (N + k - s.delaySize) *
          (env_run s0 (lookahead_peak x s0.numChannels s0.delaySize) (N + k + 1).toNat).currentGain) := by
  have hC0 := StreamInv_numChannels hinv
  have hD0 := StreamInv_delaySize hinv
  obtain ⟨hN, hbuf, he, henv⟩ := hinv
  have hD : 0 < s.delaySize := hbuf.1
  obtain ⟨s1, ab1, hl, hs1, he1, hinv1, hout1, _⟩ := sample_loop_spec x inb fs N
    s.numChannels s.delaySize hN j 0 s outblock rfl rfl (by simpa using hbuf)
    (le_refl 0) (by omega) (by rw [he]; exact Int.emod_nonneg _ (ne_of_gt hD))
    (by rw [he, Int.emod_emod]) hin
  have hrun : ∀ m : Nat, env_run s (fun i => lookahead_peak x s.numChannels s.delaySize (N + 0 + i)) m
      = env_run s (fun i => lookahead_peak x s0.numChannels s0.delaySize (N.toNat + i)) m := by
    intro m
    apply env_run_congr
    intro i _ _
    dsimp only
    rw [hC0, hD0, Int.toNat_of_nonneg hN, add_zero]
  have hsame : ∀ m : Nat,
      SameEnv (env_run s (fun i => lookahead_peak x s.numChannels s.delaySize (N + 0 + i)) m)
        (env_run s0 (lookahead_peak x s0.numChannels s0.delaySize) (N.toNat + m)) := by
    intro m
    rw [hrun, env_run_add]
    exact env_run_sameEnv henv _ m
  refine ⟨s1, ab1, hl, by simpa using hinv1, he1, ?_, ?_⟩
  · have e2 : (N + (j : Int)).toNat = N.toNat + j := Int.toNat_add_nat hN j
    rw [e2]
    exact sameEnv_trans hs1 (hsame j)
  · intro c k hc0 hc1 hk0 hk1
    rw [hout1 c k hc0 hc1 hk0 (by omega)]
    congr 1
    rw [sameEnv_currentGain (hsame _)]
    congr 2
    omega

/-! ## The return contract and the no-delay mode (C3, C4, C7) -/

/-- C3. A call of `process_block` with a null input returns 0 and leaves the limiter
and the output buffer as they were; a call with a present input never returns
anything but `frame_size`, and does return it whenever the ring-buffer size
`delayBufferSize` is not zero. With `delayBufferSize = 0` (the limiter `init` leaves
for `delay_size = 0`) and a non-empty block the call does not return: it executes a
remainder by zero. -/
theorem process_block_return_contract (s : AudioEffectPeakLimiter α) (outblock : Int → α)
    (N : Int) :
    audio_effect_peak_limiter_process_block s none outblock N = some (0, s, outblock) ∧
    (∀ (inb : Int → α) (r : Int) (s1 : AudioEffectPeakLimiter α) (out1 : Int → α),
      audio_effect_peak_limiter_process_block s (some inb) outblock N = some (r, s1, out1) →
        r = N) ∧
    (∀ inb : Int → α, s.delayBufferSize ≠ 0 →
      ∃ s1 out1,
        audio_effect_peak_limiter_process_block s (some inb) outblock N = some (N, s1, out1)) ∧
    (∀ inb : Int → α, s.delayBufferSize = 0 → 0 < N →
      audio_effect_peak_limiter_process_block s (some inb) outblock N = none) := by
  refine ⟨rfl, ?_, ?_, ?_⟩
  · intro inb r s1 out1 h
    unfold audio_effect_peak_limiter_process_block at h
    dsimp only at h
    split at h
    · exact absurd h (by simp)
    · split_ifs at h
      · split at h
        · exact absurd h (by simp)
        · simp only [Option.some.injEq, Prod.mk.injEq] at h
          exact h.1.symm
      · simp only [Option.some.injEq, Prod.mk.injEq] at h
        exact h.1.symm
  · intro inb hd
    exact process_block_total s inb outblock N hd
  · intro inb hd hN
    exact process_block_zero_divisor s inb outblock N hd hN

/-- Witness for C3 over the rationals: on the limiter left by `init` with
`delay_size = 3` a call on a block of 4 samples returns 4, and on the limiter left
by `init` with `delay_size = 0` a call on a block of one sample does not return. -/
theorem process_block_return_contract_witness :
    (∃ s1 out1, audio_effect_peak_limiter_process_block
      (audio_effect_peak_limiter_init pow_one blank_limiter 0 1 1 1 4 3)
      (some (fun _ => 0)) (fun _ => 0) 4 = some (4, s1, out1)) ∧
    audio_effect_peak_limiter_process_block
      (audio_effect_peak_limiter_init pow_one blank_limiter 0 1 1 1 4 0)
      (some (fun _ => 0)) (fun _ => 0) 1 = none :=
  ⟨(process_block_return_contract _ _ 4).2.2.1 _ (by decide),
   (process_block_return_contract _ _ 1).2.2.2 _ rfl (by decide)⟩

/-- C7. In no-delay mode (`delay_size = 0` at `init`) a call of `process_block` on a
non-empty block never produces its output: the first sample already computes
`DB_IDX(idx)` with `delayBufferSize = 0` (lines 147, 154, 160), a remainder by zero. -/
theorem no_delay_mode_zero_divisor (pow : α → α → α) (ths : AudioEffectPeakLimiter α) (db : α)
    (sr nc : Int) (atk rel : α) (inb outblock : Int → α) (fs : Int) (hfs : 0 < fs) :
    audio_effect_peak_limiter_process_block
      (audio_effect_peak_limiter_init pow ths db sr nc atk rel 0) (some inb) outblock fs
      = none ∧
    sample_body inb fs 0 (audio_effect_peak_limiter_init pow ths db sr nc atk rel 0) outblock
      = none :=
  ⟨process_block_zero_divisor _ inb outblock fs rfl hfs,
   sample_body_zero_divisor inb fs 0 _ outblock rfl⟩

/-- Witness for C7: one channel, a block of one sample of amplitude 2. -/
theorem no_delay_mode_zero_divisor_witness :
    audio_effect_peak_limiter_process_block
      (audio_effect_peak_limiter_init pow_one blank_limiter 0 48000 1 1 4 0)
      (some (fun _ => 2)) (fun _ => 0) 1 = none ∧
    sample_body (fun _ => 2) 1 0
      (audio_effect_peak_limiter_init pow_one blank_limiter 0 48000 1 1 4 0) (fun _ => 0)
      = none :=
  no_delay_mode_zero_divisor pow_one blank_limiter 0 48000 1 1 4 (fun _ => 2) (fun _ => 0) 1
    (by decide)

/-- C4. After `init` with `delay_size = 0` the macro `DB_IDX` has a zero divisor for
every index. After `init` with a positive `delay_size`, in every limiter reached by
feeding blocks of any sizes, and after any number of samples of a further block, the
write cursor and the cached position (unless it is `-1`) lie in
`[0, delayBufferSize)`, and `DB_IDX` of every non-negative index is defined and lies
in `[0, delayBufferSize)`. -/
theorem ring_buffer_index_bound (pow : α → α → α) (ths : AudioEffectPeakLimiter α) (db : α)
    (sr nc : Int) (atk rel : α) :
    (∀ i : Int, DB_IDX (audio_effect_peak_limiter_init pow ths db sr nc atk rel 0) i = none) ∧
    (∀ (d : Int) (x : Int → Int → α) (N : Int) (s : AudioEffectPeakLimiter α), 0 < d →
      Fed (audio_effect_peak_limiter_init pow ths db sr nc atk rel d) x N s →
      ∀ (inb outblock : Int → α) (fs : Int),
        (∀ c k, 0 ≤ c → c < s.numChannels → 0 ≤ k → k < fs → inb (c * fs + k) = x c (N + k)) →
        ∀ j : Nat, (j : Int) ≤ fs →
          ∃ sj abj, sample_loop inb fs j 0 s outblock = some (sj, abj) ∧
            sj.delayBufferSize = d ∧
            (0 ≤ sj.entryIndex ∧ sj.entryIndex < sj.delayBufferSize) ∧
            (sj.peak_pos = -1 ∨ (0 ≤ sj.peak_pos ∧ sj.peak_pos < sj.delayBufferSize)) ∧
            ∀ i : Int, 0 ≤ i →
              ∃ m, DB_IDX sj i = some m ∧ 0 ≤ m ∧ m < sj.delayBufferSize) := by
  refine ⟨fun i => DB_IDX_of_zero i rfl, ?_⟩
  intro d x N s hd hfed inb outblock fs hin j hj
  have hinv := StreamInv_of_fed (StreamInv_init pow ths db sr nc atk rel d hd x) hfed
  have hD0 : s.delaySize = d := StreamInv_delaySize hinv
  obtain ⟨sj, abj, hl, hbuf, he, hse, _⟩ :=
    block_prefix_spec _ x N s inb outblock fs hinv hin j hj
  have hDj : sj.delaySize = d := by rw [sameEnv_delaySize hse, env_run_delaySize]; rfl
  have hdbs : sj.delayBufferSize = d := by rw [hbuf.2.1, hDj]
  refine ⟨sj, abj, hl, hdbs, ?_, ?_, ?_⟩
  · rw [he, hinv.2.2.1, hD0, hdbs]
    exact ⟨Int.emod_nonneg _ (ne_of_gt hd), Int.emod_lt_of_pos _ hd⟩
  · rcases hbuf.2.2.2.2 with h | ⟨m, _, _, h, _⟩
    · exact Or.inl h
    · right
      rw [h, hDj, hdbs]
      exact ⟨Int.emod_nonneg _ (ne_of_gt hd), Int.emod_lt_of_pos _ hd⟩
  · intro i hi
    refine ⟨i % sj.delayBufferSize, DB_IDX_of_nonneg (by rw [hdbs]; exact hd) hi, ?_, ?_⟩
    · exact Int.emod_nonneg _ (by rw [hdbs]; exact ne_of_gt hd)
    · exact Int.emod_lt_of_pos _ (by rw [hdbs]; exact hd)

/-- Witness for C4 over the rationals: `delay_size = 3`, one channel, the first
two samples of a block of 4 samples holding an impulse. -/
theorem ring_buffer_index_bound_witness :
    ∃ sj abj, sample_loop (fun p => impulse 0 (2 : ℚ) 0 p) 4 2 0
        (audio_effect_peak_limiter_init pow_one blank_limiter 0 1 1 1 4 3) (fun _ => 0)
        = some (sj, abj) ∧
      sj.delayBufferSize = 3 ∧
      (0 ≤ sj.entryIndex ∧ sj.entryIndex < sj.delayBufferSize) ∧
      (sj.peak_pos = -1 ∨ (0 ≤ sj.peak_pos ∧ sj.peak_pos < sj.delayBufferSize)) ∧
      ∀ i : Int, 0 ≤ i → ∃ m, DB_IDX sj i = some m ∧ 0 ≤ m ∧ m < sj.delayBufferSize :=
  (ring_buffer_index_bound pow_one blank_limiter 0 1 1 1 4).2 3 (impulse 0 2) 0 _ (by decide)
    Fed.start (fun p => impulse 0 (2 : ℚ) 0 p) (fun _ => 0) 4
    (fun c k h0 h1 _ _ => by
      have hc : c = 0 := by
        change c < 1 at h1
        omega
      subst hc
      simp [impulse]) 2 (by decide)

/-! ## The gain range (C5) -/

/-- C5. After `init` with a positive linear threshold, in every state the limiter
passes through (between calls of `process_block` and between the samples of a call)
`currentGain` lies in `[0, 1]`, and so does the gain `compute_target_gain` returns
from such a state, whatever the peak. -/
theorem gain_range_invariant (pow : α → α → α) (ths : AudioEffectPeakLimiter α) (db : α)
    (sr nc : Int) (atk rel : α) (d : Int) (hT : 0 < pow 10 (db / 20))
    (s : AudioEffectPeakLimiter α)
    (h : Reachable (audio_effect_peak_limiter_init pow ths db sr nc atk rel d) s) :
    (0 ≤ s.currentGain ∧ s.currentGain ≤ 1) ∧
    ∀ peak : α, 0 ≤ (compute_target_gain s peak).2 ∧ (compute_target_gain s peak).2 ≤ 1 := by
  have hs : EnvInv s :=
    EnvInv_of_reachable (EnvInv_init pow ths db sr nc atk rel d hT) h
  refine ⟨⟨hs.2.1, hs.2.2.1⟩, fun peak => ?_⟩
  have h1 := EnvInv_cgt hs peak
  exact ⟨h1.2.1, h1.2.2.1⟩

/-! ## The look-ahead delay line (C6) -/

/-- C6. After `init` with `delay_size = d > 0`, on a limiter that has been fed the
first `N` samples of a stream `x` in blocks of any sizes, a call of `process_block`
on the next `fs` samples returns `fs`, and sample `k` of channel `c` of its output is
`0` when `N + k < d` and otherwise `g * x c (N + k - d)`, where `g` is the gain
computed for that sample (the `currentGain` of the limiter after sample `k` of the
call); after that sample the delay slot `(N + k) % d` of channel `c` holds the raw
input sample `x c (N + k)`. -/
theorem lookahead_delay_line (pow : α → α → α) (ths : AudioEffectPeakLimiter α) (db : α)
    (sr nc : Int) (atk rel : α) (d : Int) (hd : 0 < d) (x : Int → Int → α) (N : Int)
    (s : AudioEffectPeakLimiter α)
    (hfed : Fed (audio_effect_peak_limiter_init pow ths db sr nc atk rel d) x N s)
    (inb outblock : Int → α) (fs : Int) (hfs : 0 ≤ fs)
    (hin : ∀ c k, 0 ≤ c → c < nc → 0 ≤ k → k < fs → inb (c * fs + k) = x c (N + k)) :
    ∃ (s1 : AudioEffectPeakLimiter α) (out1 : Int → α),
      audio_effect_peak_limiter_process_block s (some inb) outblock fs = some (fs, s1, out1) ∧
      Fed (audio_effect_peak_limiter_init pow ths db sr nc atk rel d) x (N + fs) s1 ∧
      ∀ k, 0 ≤ k → k < fs →
        ∃ (sk : AudioEffectPeakLimiter α) (abk : Int → α),
          sample_loop inb fs (k + 1).toNat 0 s outblock = some (sk, abk) ∧
          ∀ c, 0 ≤ c → c < nc →
            out1 (c * fs + k)
              = (if N + k < d then 0 else sk.currentGain * x c (N + k - d)) ∧
            sk.delayData c ((N + k) % d) = x c (N + k) := by
  have hinv := StreamInv_of_fed (StreamInv_init pow ths db sr nc atk rel d hd x) hfed
  have hC : s.numChannels = nc := StreamInv_numChannels hinv
  have hD : s.delaySize = d := StreamInv_delaySize hinv
  have hN : 0 ≤ N := hinv.1
  have hin' : ∀ c k, 0 ≤ c → c < s.numChannels → 0 ≤ k → k < fs →
      inb (c * fs + k) = x c (N + k) := by
    rw [hC]; exact hin
  obtain ⟨s1, out1, e, _, hout, _⟩ := process_block_spec _ x N s inb outblock fs hinv hfs hin'
  refine ⟨s1, out1, e, Fed.block hfed hfs hin' e, ?_⟩
  intro k hk0 hk1
  obtain ⟨sk, abk, hl, hbuf, _, hse, _⟩ :=
    block_prefix_spec _ x N s inb outblock fs hinv hin' (k + 1).toNat (by omega)
  refine ⟨sk, abk, hl, ?_⟩
  intro c hc0 hc1
  have hDk : sk.delaySize = d := by rw [sameEnv_delaySize hse, env_run_delaySize]; rfl
  have hCk : sk.numChannels = nc := by rw [sameEnv_numChannels hse, env_run_numChannels]; rfl
  have hcast : N + (((k + 1).toNat : Nat) : Int) = N + k + 1 := by omega
  constructor
  · rw [hout c k hc0 (by rw [hC]; exact hc1) hk0 hk1, hD]
    rw [hcast] at hse
    rw [sameEnv_currentGain hse]
    unfold stream_at
    by_cases h : N + k < d
    · rw [if_pos h, if_pos (by omega), zero_mul]
    · rw [if_neg h, if_neg (by omega), mul_comm]
  · rw [hcast] at hbuf
    have := hbuf.2.2.2.1 c (N + k) hc0 (by rw [hCk]; exact hc1) (by rw [hDk]; omega) (by omega)
    rw [hDk] at this
    rw [this]
    unfold stream_at
    rw [if_neg (by omega)]

/-- Witness for C6 over the rationals: `delay_size = 3`, one channel, the first
block of 4 samples of the stream with an impulse of amplitude 2 at sample 0. -/
theorem lookahead_delay_line_witness :
    ∃ (s1 : AudioEffectPeakLimiter ℚ) (out1 : Int → ℚ),
      audio_effect_peak_limiter_process_block
        (audio_effect_peak_limiter_init pow_one blank_limiter 0 1 1 1 4 3)
        (some (fun p => impulse 0 (2 : ℚ) 0 p)) (fun _ => 0) 4 = some (4, s1, out1) ∧
      Fed (audio_effect_peak_limiter_init pow_one blank_limiter 0 1 1 1 4 3)
        (impulse 0 (2 : ℚ)) (0 + 4) s1 ∧
      ∀ k, 0 ≤ k → k < 4 →
        ∃ (sk : AudioEffectPeakLimiter ℚ) (abk : Int → ℚ),
          sample_loop (fun p => impulse 0 (2 : ℚ) 0 p) 4 (k + 1).toNat 0
            (audio_effect_peak_limiter_init pow_one blank_limiter 0 1 1 1 4 3) (fun _ => 0)
            = some (sk, abk) ∧
          ∀ c, 0 ≤ c → c < 1 →
            out1 (c * 4 + k)
              = (if 0 + k < 3 then 0 else sk.currentGain * impulse 0 (2 : ℚ) c (0 + k - 3)) ∧
            sk.delayData c ((0 + k) % 3) = impulse 0 (2 : ℚ) c (0 + k) :=
  lookahead_delay_line pow_one blank_limiter 0 1 1 1 4 3 (by decide) (impulse 0 2) 0 _
    Fed.start (fun p => impulse 0 (2 : ℚ) 0 p) (fun _ => 0) 4 (by decide)
    (fun c k h0 h1 _ _ => by
      have hc : c = 0 := by omega
      subst hc
      simp [impulse])

/-! ## The stream with one impulse -/

theorem stream_at_impulse {n0 : Int} (h0 : 0 ≤ n0) (A : α) (c m : Int) :
    stream_at (impulse n0 A) c m = if m = n0 then A else 0 := by
  unfold stream_at impulse
  by_cases h : m < 0
  · rw [if_pos h, if_neg (by omega)]
  · rw [if_neg h]

theorem sample_peak_impulse {n0 nc : Int} (h0 : 0 ≤ n0) (hnc : 1 ≤ nc) (A : α) (m : Int) :
    sample_peak (impulse n0 A) nc m = if m = n0 then |A| else 0 := by
  unfold sample_peak
  apply run_max_eq_of_max
  · split_ifs
    · exact abs_nonneg A
    · exact le_refl 0
  · intro j _ _
    dsimp only
    rw [stream_at_impulse h0]
    split_ifs
    · exact le_refl _
    · rw [abs_zero]
  · right
    refine ⟨0, le_refl 0, by omega, ?_⟩
    dsimp only
    rw [stream_at_impulse h0]
    split_ifs
    · rfl
    · rw [abs_zero]

theorem lookahead_peak_impulse {n0 nc D : Int} (h0 : 0 ≤ n0) (hnc : 1 ≤ nc) (A : α) (n : Int) :
    lookahead_peak (impulse n0 A) nc D n = if n0 < n ∧ n ≤ n0 + D then |A| else 0 := by
  unfold lookahead_peak
  apply run_max_eq_of_max
  · split_ifs
    · exact abs_nonneg A
    · exact le_refl 0
  · intro j h1 h2
    dsimp only
    rw [sample_peak_impulse h0 hnc]
    by_cases h : n - D + j = n0
    · rw [if_pos h, if_pos ⟨by omega, by omega⟩]
    · rw [if_neg h]
      split_ifs
      · exact abs_nonneg A
      · exact le_refl 0
  · by_cases h : n0 < n ∧ n ≤ n0 + D
    · right
      refine ⟨n0 - (n - D), by omega, by omega, ?_⟩
      dsimp only
      rw [sample_peak_impulse h0 hnc, if_pos h, if_pos (by ring)]
    · left
      rw [if_neg h]

/-! ## The envelope on silence and on a held peak -/

theorem cgt_idle {s : AudioEffectPeakLimiter α} {p : α} (h : s.currentTC = -1)
    (hg : s.currentGain = 1) (hp : p ≤ s.linearThreashold) :
    compute_target_gain s p = (s, 1) := by
  have h1 : ¬(s.currentTC ≠ -1 ∧ s.currentTC < s.attackSec) := fun hh => hh.1 h
  have h2 : ¬(s.currentTC ≠ -1 ∧ s.currentTC < s.releaseSec + s.attackSec) := fun hh => hh.1 h
  have h3 : ¬(p * 1 > s.linearThreashold) := by rw [mul_one]; exact not_lt.mpr hp
  unfold compute_target_gain
  dsimp only
  rw [if_neg h1, if_neg h2]
  dsimp only
  rw [if_neg h3, ← hg]

theorem env_run_idle {s : AudioEffectPeakLimiter α} {pk : Int → α} (h : s.currentTC = -1)
    (hg : s.currentGain = 1) :
    ∀ n : Nat, (∀ i : Int, 0 ≤ i → i < n → pk i ≤ s.linearThreashold) → env_run s pk n = s := by
  intro n
  induction n with
  | zero => intro _; rfl
  | succ n ih =>
    intro hp
    show (compute_target_gain (env_run s pk n) (pk n)).1 = s
    rw [ih (fun i h1 h2 => hp i h1 (by push_cast; omega)),
      cgt_idle h hg (hp n (by omega) (by push_cast; omega))]

theorem cgt_idle_trigger {s : AudioEffectPeakLimiter α} {p : α} (h : s.currentTC = -1)
    (hp : s.linearThreashold < p) :
    compute_target_gain s p
      = ({ s with currentGain := 1, targetStartGain := 1,
                  targetEndGain := s.linearThreashold / p, currentTC := 0 }, 1) := by
  have h1 : ¬(s.currentTC ≠ -1 ∧ s.currentTC < s.attackSec) := fun hh => hh.1 h
  have h2 : ¬(s.currentTC ≠ -1 ∧ s.currentTC < s.releaseSec + s.attackSec) := fun hh => hh.1 h
  have h3 : p * 1 > s.linearThreashold := by rw [mul_one]; exact hp
  unfold compute_target_gain
  dsimp only
  rw [if_neg h1, if_neg h2]
  dsimp only
  rw [if_pos h3]

/-- A call in a freshly triggered envelope (`currentTC = 0`) with a peak that the
new gain does not bring below the threshold: the gain moves from `currentGain`
towards `targetEndGain` and the envelope is triggered again. -/
theorem cgt_hold {s : AudioEffectPeakLimiter α} {p : α} (hTC : s.currentTC = 0)
    (hatk : 0 < s.attackSec) (hS : s.targetStartGain = s.currentGain)
    (hE : s.targetEndGain = s.linearThreashold / p)
    (hp : s.linearThreashold <
      p * (s.currentGain - curve_accel (s.incTC / s.attackSec) *
        (s.currentGain - s.linearThreashold / p))) :
    compute_target_gain s p
      = ({ s with
            currentGain := s.currentGain - curve_accel (s.incTC / s.attackSec) *
              (s.currentGain - s.linearThreashold / p)
            targetStartGain := s.currentGain - curve_accel (s.incTC / s.attackSec) *
              (s.currentGain - s.linearThreashold / p)
            targetEndGain := s.linearThreashold / p
            currentTC := 0 },
          s.currentGain - curve_accel (s.incTC / s.attackSec) *
            (s.currentGain - s.linearThreashold / p)) := by
  have h1 : s.currentTC ≠ -1 ∧ s.currentTC < s.attackSec :=
    ⟨by rw [hTC]; norm_num, by rw [hTC]; exact hatk⟩
  unfold compute_target_gain
  dsimp only
  rw [if_pos h1]
  dsimp only
  rw [hTC, zero_add, hS, hE, if_pos hp]

theorem held_gain_closed (T p a : α) :
    ∀ m : Nat, held_gain T p a m = T / p + (1 - a) ^ m * (1 - T / p) := by
  intro m
  induction m with
  | zero => simp [held_gain]
  | succ m ih =>
    unfold held_gain
    rw [ih, pow_succ]
    ring

theorem held_gain_gt {T p a : α} (hTp : T / p < 1) (ha : a < 1) (m : Nat) :
    T / p < held_gain T p a m := by
  rw [held_gain_closed]
  have h1 : 0 < (1 - a) ^ m := pow_pos (by linarith) m
  have h2 : 0 < 1 - T / p := by linarith
  have := mul_pos h1 h2
  linarith

theorem curve_accel_lt_one {y : α} (hy : y < 1) : curve_accel y < 1 := by
  unfold curve_accel
  rw [if_neg (by linarith)]
  split_ifs
  · exact zero_lt_one
  · have : 0 < (y - 1) ^ 2 := by
      have h1 : y - 1 < 0 := by linarith
      nlinarith
    linarith

/-- While one peak `p` above the threshold is held, every call re-triggers the
envelope and the gains follow `held_gain`. -/
theorem env_run_hold {s : AudioEffectPeakLimiter α} {p : α} {pk : Int → α}
    (hTC : s.currentTC = 0) (hatk : 0 < s.attackSec) (hinc : s.incTC / s.attackSec < 1)
    (hT : 0 < s.linearThreashold) (hp : s.linearThreashold < p)
    (hS : s.targetStartGain = 1) (hG : s.currentGain = 1)
    (hE : s.targetEndGain = s.linearThreashold / p) :
    ∀ m : Nat, (∀ i : Int, 0 ≤ i → i < m → pk i = p) →
      env_run s pk m
        = { s with
            currentGain :=
              held_gain s.linearThreashold p (curve_accel (s.incTC / s.attackSec)) m
            targetStartGain :=
              held_gain s.linearThreashold p (curve_accel (s.incTC / s.attackSec)) m } := by
  have hp0 : 0 < p := lt_trans hT hp
  have hTp : s.linearThreashold / p < 1 := by
    rw [div_lt_one hp0]; exact hp
  have ha := curve_accel_lt_one hinc
  intro m
  induction m with
  | zero =>
    intro _
    show s = _
    cases s
    simp only [held_gain] at *
    simp [hS, hG]
  | succ m ih =>
    intro hpk
    show (compute_target_gain (env_run s pk m) (pk m)).1 = _
    rw [ih (fun i h1 h2 => hpk i h1 (by push_cast; omega)), hpk m (by omega) (by push_cast; omega)]
    have hgt := held_gain_gt hTp ha (m + 1)
    rw [cgt_hold (by exact hTC) (by exact hatk) rfl (by exact hE) (by
      show s.linearThreashold < p * held_gain s.linearThreashold p _ (m + 1)
      rw [div_lt_iff₀ hp0] at hgt
      linarith)]
    dsimp only
    cases s
    simp only [held_gain] at *
    simp [hTC, hE]

/-- The envelope of an idle limiter along a run of `n1` peaks that do not exceed the
threshold followed by `1 + m` equal peaks `p` above it: the first of these triggers
the envelope, each further one re-triggers it. -/
theorem env_run_silence_then_hold {s : AudioEffectPeakLimiter α} {p : α} {pk : Int → α}
    (hTC : s.currentTC = -1) (hG : s.currentGain = 1) (hatk : 0 < s.attackSec)
    (hinc : s.incTC / s.attackSec < 1) (hT : 0 < s.linearThreashold)
    (hp : s.linearThreashold < p) (n1 m : Nat)
    (h1 : ∀ i : Int, 0 ≤ i → i < n1 → pk i ≤ s.linearThreashold)
    (h2 : ∀ i : Int, (n1 : Int) ≤ i → i ≤ n1 + m → pk i = p) :
    env_run s pk (n1 + 1 + m)
      = { s with
          currentGain :=
            held_gain s.linearThreashold p (curve_accel (s.incTC / s.attackSec)) m
          targetStartGain :=
            held_gain s.linearThreashold p (curve_accel (s.incTC / s.attackSec)) m
          targetEndGain := s.linearThreashold / p
          currentTC := 0 } := by
  have e : n1 + 1 + m = n1 + (m + 1) := by omega
  rw [e, env_run_add, env_run_idle hTC hG n1 h1, env_run_succ_head]
  rw [h2 (n1 + 0) (by omega) (by omega), cgt_idle_trigger hTC hp]
  dsimp only
  exact @env_run_hold α _
    { s with currentGain := 1, targetStartGain := 1,
             targetEndGain := s.linearThreashold / p, currentTC := 0 }
    p (fun i => pk (n1 + (i + 1))) rfl hatk hinc hT hp rfl rfl rfl m
    (fun i a1 a2 => h2 _ (by omega) (by omega))

/-! ## Recovery of the envelope on silence -/

/-- The time counter of the envelope is `-1` or non-negative, as long as the time
increment is non-negative. -/
theorem cgt_currentTC_nonneg {s : AudioEffectPeakLimiter α} (hinc : 0 ≤ s.incTC)
    (h : s.currentTC = -1 ∨ 0 ≤ s.currentTC) (p : α) :
    (compute_target_gain s p).1.currentTC = -1 ∨ 0 ≤ (compute_target_gain s p).1.currentTC := by
  unfold compute_target_gain
  dsimp only
  split_ifs with h1 h2 h3 h4 h5
  · exact Or.inr (le_refl 0)
  · right
    dsimp only
    rcases h with h | h
    · exact absurd h h1.1
    · linarith
  · exact Or.inr (le_refl 0)
  · right
    dsimp only
    rcases h with h | h
    · exact absurd h h3.1
    · linarith
  · exact Or.inr (le_refl 0)
  · exact h

theorem env_run_currentTC_nonneg {s : AudioEffectPeakLimiter α} (hinc : 0 ≤ s.incTC)
    (h : s.currentTC = -1 ∨ 0 ≤ s.currentTC) (pk : Int → α) :
    ∀ n : Nat, (env_run s pk n).currentTC = -1 ∨ 0 ≤ (env_run s pk n).currentTC := by
  intro n
  induction n with
  | zero => exact h
  | succ n ih =>
    exact cgt_currentTC_nonneg (by rw [env_run_incTC]; exact hinc) ih _

/-- One call on silence: when the envelope is idle or its time counter has reached
`attackSec + releaseSec` the gain is 1, and the number of calls still needed to get
there decreases by one. -/
theorem cgt_silence_step {s : AudioEffectPeakLimiter α} (hT : 0 ≤ s.linearThreashold)
    (hinc : 0 ≤ s.incTC) (m : Nat)
    (h : s.currentTC = -1 ∨ s.releaseSec + s.attackSec ≤ s.currentTC + (m + 1 : Nat) * s.incTC) :
    (compute_target_gain s 0).1.currentTC = -1 ∨
      s.releaseSec + s.attackSec ≤ (compute_target_gain s 0).1.currentTC + m * s.incTC := by
  have hm : 0 ≤ (m : α) * s.incTC := mul_nonneg (Nat.cast_nonneg m) hinc
  unfold compute_target_gain
  dsimp only
  split_ifs with h1 h2 h4 h5 h6
  · exact absurd h2 (by dsimp only; rw [zero_mul]; exact not_lt.mpr hT)
  · right
    dsimp only
    rcases h with h | h
    · exact absurd h h1.1
    · push_cast at h; linarith
  · exact absurd h5 (by dsimp only; rw [zero_mul]; exact not_lt.mpr hT)
  · right
    dsimp only
    rcases h with h | h
    · exact absurd h h4.1
    · push_cast at h; linarith
  · exact absurd h6 (by dsimp only; rw [zero_mul]; exact not_lt.mpr hT)
  · dsimp only
    rcases h with h | h
    · exact Or.inl h
    · by_cases hne : s.currentTC = -1
      · exact Or.inl hne
      · right
        have : ¬ s.currentTC < s.releaseSec + s.attackSec := fun hh => h4 ⟨hne, hh⟩
        linarith

theorem cgt_silence_done {s : AudioEffectPeakLimiter α} (hT : 0 ≤ s.linearThreashold)
    (hrel : 0 ≤ s.releaseSec)
    (h : s.currentTC = -1 ∨ s.releaseSec + s.attackSec ≤ s.currentTC) :
    (compute_target_gain s 0).1.currentGain = 1 := by
  have h1 : ¬(s.currentTC ≠ -1 ∧ s.currentTC < s.attackSec) := by
    rintro ⟨a1, a2⟩
    rcases h with h | h
    · exact a1 h
    · linarith
  have h2 : ¬(s.currentTC ≠ -1 ∧ s.currentTC < s.releaseSec + s.attackSec) := by
    rintro ⟨a1, a2⟩
    rcases h with h | h
    · exact a1 h
    · linarith
  have h3 : ¬((0 : α) * 1 > s.linearThreashold) := by
    rw [zero_mul]; exact not_lt.mpr hT
  unfold compute_target_gain
  dsimp only
  rw [if_neg h1, if_neg h2]
  dsimp only
  rw [if_neg h3]

/-- On silence the gain is back at 1 as soon as the time counter has had the time to
reach `attackSec + releaseSec`: at call number `m + 1` when
`currentTC + m * incTC ≥ attackSec + releaseSec` (or the envelope is idle). -/
theorem env_run_silence_recover :
    ∀ (m : Nat) (s : AudioEffectPeakLimiter α) (pk : Int → α),
      0 ≤ s.linearThreashold → 0 ≤ s.incTC → 0 ≤ s.releaseSec →
      (s.currentTC = -1 ∨ s.releaseSec + s.attackSec ≤ s.currentTC + m * s.incTC) →
      (∀ i : Int, 0 ≤ i → i ≤ m → pk i = 0) →
      (env_run s pk (m + 1)).currentGain = 1 := by
  intro m
  induction m with
  | zero =>
    intro s pk hT _ hrel h hpk
    show (compute_target_gain s (pk 0)).1.currentGain = 1
    rw [hpk 0 (le_refl 0) (by simp)]
    apply cgt_silence_done hT hrel
    simpa using h
  | succ m ih =>
    intro s pk hT hinc hrel h hpk
    rw [env_run_succ_head, hpk 0 (le_refl 0) (by push_cast; omega)]
    apply ih
    · rw [cgt_linearThreashold]; exact hT
    · rw [cgt_incTC]; exact hinc
    · rw [cgt_releaseSec]; exact hrel
    · rw [cgt_releaseSec, cgt_attackSec, cgt_incTC]
      exact cgt_silence_step hT hinc m h
    · intro i h1 h2
      exact hpk (i + 1) (by omega) (by push_cast; omega)

/-! ## Envelope recovery after an isolated impulse (C8) -/

/-- The gain of the stream with one impulse at sample `n0` is 1 at every sample
`n ≥ n0 + d + 1` for which `(n - (n0 + d + 1)) * incTC ≥ attackSec + releaseSec`. -/
theorem impulse_recovery_gain (s0 : AudioEffectPeakLimiter α) (hT : 0 ≤ s0.linearThreashold)
    (hinc : 0 ≤ s0.incTC) (hrel : 0 ≤ s0.releaseSec) (hTC : s0.currentTC = -1)
    (hnc : 1 ≤ s0.numChannels) {n0 : Int} (hn0 : 0 ≤ n0) (hd : 0 < s0.delaySize) (A : α)
    (n : Int) (hn : n0 + s0.delaySize + 1 ≤ n)
    (hlate : s0.attackSec + s0.releaseSec
      ≤ ((n - (n0 + s0.delaySize + 1) : Int) : α) * s0.incTC) :
    (env_run s0 (lookahead_peak (impulse n0 A) s0.numChannels s0.delaySize)
      (n + 1).toNat).currentGain = 1 := by
  obtain ⟨a, ha⟩ : ∃ a : Nat, (a : Int) = n0 + s0.delaySize + 1 :=
    ⟨(n0 + s0.delaySize + 1).toNat, by omega⟩
  obtain ⟨m, hm⟩ : ∃ m : Nat, (m : Int) = n - (n0 + s0.delaySize + 1) :=
    ⟨(n - (n0 + s0.delaySize + 1)).toNat, by omega⟩
  have e : (n + 1).toNat = a + (m + 1) := by omega
  rw [e, env_run_add]
  apply env_run_silence_recover
  · rw [env_run_linearThreashold]; exact hT
  · rw [env_run_incTC]; exact hinc
  · rw [env_run_releaseSec]; exact hrel
  · rw [env_run_releaseSec, env_run_attackSec, env_run_incTC]
    rcases env_run_currentTC_nonneg hinc (Or.inl hTC) _ a with h | h
    · exact Or.inl h
    · right
      rw [← hm] at hlate
      simp only [Int.cast_natCast] at hlate
      linarith
  · intro i h1 _
    dsimp only
    rw [lookahead_peak_impulse hn0 hnc, if_neg (by omega)]

theorem sameEnv_attackSec {s t : AudioEffectPeakLimiter α} (h : SameEnv s t) :
    s.attackSec = t.attackSec := by
  unfold SameEnv at h; rw [h]

theorem sameEnv_releaseSec {s t : AudioEffectPeakLimiter α} (h : SameEnv s t) :
    s.releaseSec = t.releaseSec := by
  unfold SameEnv at h; rw [h]

theorem sameEnv_incTC {s t : AudioEffectPeakLimiter α} (h : SameEnv s t) :
    s.incTC = t.incTC := by
  unfold SameEnv at h; rw [h]

/-- One call on silence, as the code executes it: while the envelope is active and
its counter is below `releaseSec + attackSec` the call adds `incTC` to the counter;
otherwise it leaves the counter as it is and returns the gain 1. It never
re-triggers. -/
theorem cgt_silence_counter {s : AudioEffectPeakLimiter α} (hT : 0 ≤ s.linearThreashold)
    (hrel : 0 ≤ s.releaseSec) :
    ((s.currentTC ≠ -1 ∧ s.currentTC < s.releaseSec + s.attackSec) →
      (compute_target_gain s 0).1.currentTC = s.currentTC + s.incTC) ∧
    ((s.currentTC = -1 ∨ s.releaseSec + s.attackSec ≤ s.currentTC) →
      (compute_target_gain s 0).1.currentTC = s.currentTC ∧
      (compute_target_gain s 0).1.currentGain = 1) := by
  constructor
  · rintro ⟨a1, a2⟩
    unfold compute_target_gain
    dsimp only
    split_ifs with h1 h2 h4 h5 h6
    · exact absurd h2 (by dsimp only; rw [zero_mul]; exact not_lt.mpr hT)
    · rfl
    · exact absurd h5 (by dsimp only; rw [zero_mul]; exact not_lt.mpr hT)
    · rfl
    · exact absurd h6 (by dsimp only; rw [zero_mul]; exact not_lt.mpr hT)
    · exact absurd ⟨a1, a2⟩ h4
  · intro h
    have c1 : ¬(s.currentTC ≠ -1 ∧ s.currentTC < s.attackSec) := by
      rintro ⟨a1, a2⟩
      rcases h with h | h
      · exact a1 h
      · linarith
    have c2 : ¬(s.currentTC ≠ -1 ∧ s.currentTC < s.releaseSec + s.attackSec) := by
      rintro ⟨a1, a2⟩
      rcases h with h | h
      · exact a1 h
      · linarith
    have c3 : ¬((0 : α) * 1 > s.linearThreashold) := by
      rw [zero_mul]; exact not_lt.mpr hT
    unfold compute_target_gain
    dsimp only
    rw [if_neg c1, if_neg c2]
    dsimp only
    rw [if_neg c3]
    exact ⟨rfl, rfl⟩

theorem env_run_succ (s : AudioEffectPeakLimiter α) (pk : Int → α) (n : Nat) :
    env_run s pk (n + 1) = (compute_target_gain (env_run s pk n) (pk n)).1 := rfl

/-- C8, as amended. After `init` with a positive threshold, a positive sample rate, a
non-negative release time and `delay_size = d > 0`, fed (in blocks of any sizes) the
stream whose only non-zero sample is an impulse of any amplitude `A` at sample `n0`,
at every sample `n = N + k ≥ n0 + d + 1` (the impulse has left the look-ahead window):
the call of the sample reads the peak 0, so it does not re-trigger the envelope;
while the envelope is active with its counter below `releaseSec + attackSec` the call
adds `incTC = 1 / sample_rate` to the counter; as soon as a call finds the counter at
or above `releaseSec + attackSec` (or the envelope idle) the gain is exactly 1 and
the counter no longer changes. In the exact arithmetic of the embedding this is the
case at every sample `n ≥ n0 + d + 1` with
`(n - (n0 + d + 1)) * incTC ≥ attackSec + releaseSec`: the recovery time counts from
the sample after the impulse has left the look-ahead window, not from the impulse. -/
theorem envelope_recovery (pow : α → α → α) (ths : AudioEffectPeakLimiter α) (db : α)
    (sr nc : Int) (atk rel : α) (d : Int) (hT : 0 < pow 10 (db / 20)) (hsr : 0 < sr)
    (hrel : 0 ≤ rel) (hnc : 1 ≤ nc) (hd : 0 < d) (n0 : Int) (hn0 : 0 ≤ n0) (A : α) (N : Int)
    (s : AudioEffectPeakLimiter α)
    (hfed : Fed (audio_effect_peak_limiter_init pow ths db sr nc atk rel d) (impulse n0 A) N s)
    (inb outblock : Int → α) (fs : Int)
    (hin : ∀ c k, 0 ≤ c → c < nc → 0 ≤ k → k < fs → inb (c * fs + k) = impulse n0 A c (N + k))
    (k : Int) (hk0 : 0 ≤ k) (hk1 : k < fs) (hn : n0 + d + 1 ≤ N + k) :
    ∃ (sp : AudioEffectPeakLimiter α) (abp : Int → α) (sk : AudioEffectPeakLimiter α)
      (abk : Int → α),
      sample_loop inb fs k.toNat 0 s outblock = some (sp, abp) ∧
      sample_loop inb fs (k + 1).toNat 0 s outblock = some (sk, abk) ∧
      sk.currentGain = (compute_target_gain sp 0).2 ∧
      sk.currentTC = (compute_target_gain sp 0).1.currentTC ∧
      (sp.currentTC = -1 ∨ 0 ≤ sp.currentTC) ∧
      ((sp.currentTC ≠ -1 ∧ sp.currentTC < rel + atk) →
        sk.currentTC = sp.currentTC + 1 / (sr : α)) ∧
      ((sp.currentTC = -1 ∨ rel + atk ≤ sp.currentTC) →
        sk.currentTC = sp.currentTC ∧ sk.currentGain = 1) ∧
      (atk + rel ≤ ((N + k - (n0 + d + 1) : Int) : α) * (1 / (sr : α)) →
        sk.currentGain = 1) := by
  have hinv := StreamInv_of_fed (StreamInv_init pow ths db sr nc atk rel d hd (impulse n0 A)) hfed
  have hC : s.numChannels = nc := StreamInv_numChannels hinv
  have hN : 0 ≤ N := hinv.1
  have hinc : (0 : α) ≤ 1 / (sr : α) := by
    apply div_nonneg zero_le_one
    exact_mod_cast le_of_lt hsr
  obtain ⟨sp, abp, hlp, _, _, hsp, _⟩ :=
    block_prefix_spec _ (impulse n0 A) N s inb outblock fs hinv (by rw [hC]; exact hin)
      k.toNat (by omega)
  obtain ⟨sk, abk, hl, _, _, hse, _⟩ :=
    block_prefix_spec _ (impulse n0 A) N s inb outblock fs hinv (by rw [hC]; exact hin)
      (k + 1).toNat (by omega)
  have hcast : N + (((k + 1).toNat : Nat) : Int) = N + k + 1 := by omega
  have hcastp : N + ((k.toNat : Nat) : Int) = N + k := by omega
  rw [hcast] at hse
  rw [hcastp] at hsp
  have e1 : (N + k + 1).toNat = (N + k).toNat + 1 := by omega
  have hpk : lookahead_peak (impulse n0 A)
      (audio_effect_peak_limiter_init pow ths db sr nc atk rel d).numChannels
      (audio_effect_peak_limiter_init pow ths db sr nc atk rel d).delaySize
      (((N + k).toNat : Nat) : Int) = 0 := by
    show lookahead_peak (impulse n0 A) nc d _ = 0
    rw [lookahead_peak_impulse hn0 hnc, if_neg (by omega)]
  rw [e1, env_run_succ, hpk] at hse
  have hstep : SameEnv sk (compute_target_gain sp 0).1 :=
    sameEnv_trans hse (by
      have := sameEnv_cgt hsp (0 : α)
      unfold SameEnv at this ⊢
      rw [this])
  have a_atk : sp.attackSec = atk := by
    rw [sameEnv_attackSec hsp, env_run_attackSec]; rfl
  have a_rel : sp.releaseSec = rel := by
    rw [sameEnv_releaseSec hsp, env_run_releaseSec]; rfl
  have a_inc : sp.incTC = 1 / (sr : α) := by
    rw [sameEnv_incTC hsp, env_run_incTC]; rfl
  have a_T : sp.linearThreashold = pow 10 (db / 20) := by
    rw [sameEnv_linearThreashold hsp, env_run_linearThreashold]; rfl
  obtain ⟨c1, c2⟩ := @cgt_silence_counter α _ sp (by rw [a_T]; exact le_of_lt hT)
    (by rw [a_rel]; exact hrel)
  rw [a_atk, a_rel, a_inc] at c1
  rw [a_atk, a_rel] at c2
  have hTCk : sk.currentTC = (compute_target_gain sp 0).1.currentTC := sameEnv_currentTC hstep
  have hGk : sk.currentGain = (compute_target_gain sp 0).1.currentGain :=
    sameEnv_currentGain hstep
  refine ⟨sp, abp, sk, abk, hlp, hl, hGk, hTCk, ?_, ?_, ?_, ?_⟩
  · rw [sameEnv_currentTC hsp]
    exact env_run_currentTC_nonneg hinc (Or.inl rfl) _ _
  · intro h
    rw [hTCk]
    exact c1 h
  · intro h
    rw [hTCk, hGk]
    exact c2 h
  · intro hlate
    rw [sameEnv_currentGain hse]
    have := impulse_recovery_gain (audio_effect_peak_limiter_init pow ths db sr nc atk rel d)
      (le_of_lt hT) hinc hrel rfl hnc hn0 hd A (N + k) hn hlate
    rw [e1, env_run_succ, hpk] at this
    exact this

/-- Witness for C8 over the rationals: threshold 0 dB, sample rate 1, attack and
release of 2 samples, a delay of 3 samples, an impulse of amplitude 2 at sample 0;
sample 8 of the first block, the first one with the gain back at 1
(`(8 - 4) * 1 ≥ 2 + 2`). -/
theorem envelope_recovery_witness :
    ∃ (sk : AudioEffectPeakLimiter ℚ) (abk : Int → ℚ),
      sample_loop (fun p => impulse 0 (2 : ℚ) 0 p) 10 ((8 : Int) + 1).toNat 0
        (audio_effect_peak_limiter_init pow_one blank_limiter 0 1 1 2 2 3) (fun _ => 0)
        = some (sk, abk) ∧ sk.currentGain = 1 := by
  obtain ⟨_, _, sk, abk, _, hl, _, _, _, _, _, hex⟩ :=
    envelope_recovery pow_one blank_limiter 0 1 1 2 2 3 (by norm_num [pow_one]) (by decide)
      (by norm_num) (by decide) (by decide) 0 (by decide) 2 0 _ Fed.start
      (fun p => impulse 0 (2 : ℚ) 0 p) (fun _ => 0) 10
      (fun c k h0 h1 _ _ => by
        have hc : c = 0 := by omega
        subst hc
        simp [impulse])
      8 (by decide) (by decide) (by decide)
  exact ⟨sk, abk, hl, hex (by norm_num)⟩

/-- The envelope of the example of C8 after the samples 0 to 5: the impulse of
amplitude 2 at sample 0 is held for the samples 1 to 3, and at sample 5 the attack
phase ends with the gain at `targetEndGain = 1/2`. -/
theorem recovery_example_env :
    (env_run (audio_effect_peak_limiter_init pow_one blank_limiter 0 1 1 2 2 3)
      (lookahead_peak (impulse 0 (2 : ℚ)) 1 3) 6).currentGain = 1 / 2 := by
  have h4 := @env_run_silence_then_hold ℚ _
    (audio_effect_peak_limiter_init pow_one blank_limiter 0 1 1 2 2 3) 2
    (lookahead_peak (impulse 0 (2 : ℚ)) 1 3) rfl rfl
    (by norm_num [audio_effect_peak_limiter_init])
    (by norm_num [audio_effect_peak_limiter_init])
    (by norm_num [audio_effect_peak_limiter_init, pow_one])
    (by norm_num [audio_effect_peak_limiter_init, pow_one]) 1 2
    (by
      intro i h1 h2
      rw [lookahead_peak_impulse (le_refl 0) (le_refl 1), if_neg (by omega)]
      norm_num [audio_effect_peak_limiter_init, pow_one])
    (by
      intro i h1 h2
      rw [lookahead_peak_impulse (le_refl 0) (le_refl 1), if_pos (by omega)]
      norm_num)
  have e4 : lookahead_peak (impulse 0 (2 : ℚ)) 1 3 ((1 + 1 + 2 : Nat) : Int) = 0 := by
    rw [lookahead_peak_impulse (le_refl 0) (le_refl 1), if_neg (by omega)]
  have e5 : lookahead_peak (impulse 0 (2 : ℚ)) 1 3 ((1 + 1 + 2 + 1 : Nat) : Int) = 0 := by
    rw [lookahead_peak_impulse (le_refl 0) (le_refl 1), if_neg (by omega)]
  have e6 : (6 : Nat) = 1 + 1 + 2 + 1 + 1 := rfl
  rw [e6, env_run_succ, env_run_succ, e4, e5, h4]
  simp only [compute_target_gain, audio_effect_peak_limiter_init, init_default, pow_one,
    held_gain, curve_accel]
  norm_num

/-- C8, counterexample. Threshold 0 dB (linear 1), sample rate 1, attack and release
of 2 samples each, a delay of 3 samples, one channel, an impulse of amplitude 2 (twice
the threshold) at sample 0 of an otherwise silent block of 8 samples:
`(attackSec + releaseSec) / incTC = 4`, yet the gain computed for sample 5 (the
`currentGain` after the samples 0 to 5) is `1/2`, not 1. -/
theorem envelope_recovery_counterexample :
    ∃ (sk : AudioEffectPeakLimiter ℚ) (abk : Int → ℚ),
      sample_loop (fun p => impulse 0 (2 : ℚ) 0 p) 8 6 0
        (audio_effect_peak_limiter_init pow_one blank_limiter 0 1 1 2 2 3) (fun _ => 0)
        = some (sk, abk) ∧
      sk.linearThreashold = 1 ∧ (sk.attackSec + sk.releaseSec) / sk.incTC = 4 ∧
      sk.currentGain = 1 / 2 ∧ sk.currentGain ≠ 1 := by
  obtain ⟨sk, abk, hl, _, _, hse, _⟩ :=
    block_prefix_spec _ (impulse 0 (2 : ℚ)) 0
      (audio_effect_peak_limiter_init pow_one blank_limiter 0 1 1 2 2 3)
      (fun p => impulse 0 (2 : ℚ) 0 p) (fun _ => 0) 8
      (StreamInv_init pow_one blank_limiter 0 1 1 2 2 3 (by decide) _)
      (fun c k h0 h1 _ _ => by
        have hc : c = 0 := by
          change c < 1 at h1
          omega
        subst hc
        simp [impulse])
      6 (by decide)
  have hg : sk.currentGain = 1 / 2 := by
    rw [sameEnv_currentGain hse]
    exact recovery_example_env
  have e : sk = { env_run (audio_effect_peak_limiter_init pow_one blank_limiter 0 1 1 2 2 3)
        (lookahead_peak (impulse 0 (2 : ℚ)) 1 3) 6 with
      delayData := sk.delayData, peakData := sk.peakData, peak_pos := sk.peak_pos,
      entryIndex := sk.entryIndex } := hse
  refine ⟨sk, abk, hl, ?_, ?_, hg, by rw [hg]; norm_num⟩
  · rw [e]
    show (env_run _ _ 6).linearThreashold = 1
    rw [env_run_linearThreashold]
    rfl
  · rw [e]
    show ((env_run _ _ 6).attackSec + (env_run _ _ 6).releaseSec) / (env_run _ _ 6).incTC = 4
    rw [env_run_attackSec, env_run_releaseSec, env_run_incTC]
    norm_num [audio_effect_peak_limiter_init]

/-! ## An isolated impulse above the threshold (C2) -/

/-- The gains of the stream with one impulse above the threshold, while the impulse
is in the look-ahead window: sample `n0 + 1 + m` gets the gain `held_gain .. m`. -/
theorem impulse_hold_gain (s0 : AudioEffectPeakLimiter α) (hTC : s0.currentTC = -1)
    (hG : s0.currentGain = 1) (hatk : 0 < s0.attackSec) (hinc : s0.incTC / s0.attackSec < 1)
    (hT : 0 < s0.linearThreashold) (hnc : 1 ≤ s0.numChannels) {n0 : Int} (hn0 : 0 ≤ n0)
    (A : α) (hA : s0.linearThreashold < |A|) (m : Nat) (hm : (m : Int) < s0.delaySize) :
    env_run s0 (lookahead_peak (impulse n0 A) s0.numChannels s0.delaySize) (n0 + 1 + m + 1).toNat
      = { s0 with
          currentGain :=
            held_gain s0.linearThreashold |A| (curve_accel (s0.incTC / s0.attackSec)) m
          targetStartGain :=
            held_gain s0.linearThreashold |A| (curve_accel (s0.incTC / s0.attackSec)) m
          targetEndGain := s0.linearThreashold / |A|
          currentTC := 0 } := by
  have e : (n0 + 1 + m + 1).toNat = (n0 + 1).toNat + 1 + m := by omega
  rw [e]
  apply env_run_silence_then_hold hTC hG hatk hinc hT hA
  · intro i h1 h2
    rw [lookahead_peak_impulse hn0 hnc, if_neg (by omega)]
    exact le_of_lt hT
  · intro i h1 h2
    rw [lookahead_peak_impulse hn0 hnc, if_pos ⟨by omega, by omega⟩]

/-- The output of the limiter for the stream with one impulse of magnitude above the
threshold at sample `n0`, when the time increment is shorter than the attack time:
the impulse leaves the delay line at sample `n0 + d` with the gain
`held_gain T |A| a (d - 1)`, which is above `T / |A|`, so that the output sample
exceeds the threshold; every other output sample is zero. -/
theorem impulse_output (pow : α → α → α) (ths : AudioEffectPeakLimiter α) (db : α)
    (sr nc : Int) (atk rel : α) (d : Int) (hT : 0 < pow 10 (db / 20)) (hatk : 0 < atk)
    (hinc : 1 / (sr : α) / atk < 1) (hnc : 1 ≤ nc) (hd : 0 < d) (n0 : Int) (hn0 : 0 ≤ n0)
    (A : α) (hA : pow 10 (db / 20) < |A|) (N : Int) (s : AudioEffectPeakLimiter α)
    (hfed : Fed (audio_effect_peak_limiter_init pow ths db sr nc atk rel d) (impulse n0 A) N s)
    (inb outblock : Int → α) (fs : Int) (hfs : 0 ≤ fs)
    (hin : ∀ c k, 0 ≤ c → c < nc → 0 ≤ k → k < fs → inb (c * fs + k) = impulse n0 A c (N + k)) :
    ∃ (s1 : AudioEffectPeakLimiter α) (out1 : Int → α),
      audio_effect_peak_limiter_process_block s (some inb) outblock fs = some (fs, s1, out1) ∧
      ∀ c k, 0 ≤ c → c < nc → 0 ≤ k → k < fs →
        (N + k = n0 + d →
          out1 (c * fs + k)
            = A * held_gain (pow 10 (db / 20)) |A| (curve_accel (1 / (sr : α) / atk)) (d - 1).toNat ∧
          pow 10 (db / 20) < |out1 (c * fs + k)|) ∧
        (N + k ≠ n0 + d → out1 (c * fs + k) = 0) := by
  have hinv := StreamInv_of_fed (StreamInv_init pow ths db sr nc atk rel d hd (impulse n0 A)) hfed
  have hC : s.numChannels = nc := StreamInv_numChannels hinv
  have hD : s.delaySize = d := StreamInv_delaySize hinv
  have hN : 0 ≤ N := hinv.1
  have hin' : ∀ c k, 0 ≤ c → c < s.numChannels → 0 ≤ k → k < fs →
      inb (c * fs + k) = impulse n0 A c (N + k) := by
    rw [hC]; exact hin
  obtain ⟨s1, out1, e, _, hout, _⟩ :=
    process_block_spec _ (impulse n0 A) N s inb outblock fs hinv hfs hin'
  refine ⟨s1, out1, e, ?_⟩
  intro c k hc0 hc1 hk0 hk1
  rw [hout c k hc0 (by rw [hC]; exact hc1) hk0 hk1, hD, stream_at_impulse hn0]
  constructor
  · intro hk
    rw [if_pos (by omega)]
    have e1 : N + k + 1 = n0 + 1 + ((d - 1).toNat : Nat) + 1 := by omega
    have hrun := impulse_hold_gain (audio_effect_peak_limiter_init pow ths db sr nc atk rel d)
      rfl rfl hatk hinc hT hnc hn0 A hA (d - 1).toNat (by show ((d - 1).toNat : Int) < d; omega)
    rw [e1, hrun]
    refine ⟨rfl, ?_⟩
    show pow 10 (db / 20) < |A * held_gain (pow 10 (db / 20)) |A|
      (curve_accel (1 / (sr : α) / atk)) (d - 1).toNat|
    have hA0 : 0 < |A| := lt_trans hT hA
    have hgt := @held_gain_gt α _ (pow 10 (db / 20)) |A| (curve_accel (1 / (sr : α) / atk))
      (by rw [div_lt_one hA0]; exact hA) (curve_accel_lt_one hinc) (d - 1).toNat
    have hpos : 0 < held_gain (pow 10 (db / 20)) |A| (curve_accel (1 / (sr : α) / atk))
        (d - 1).toNat := lt_trans (div_pos hT hA0) hgt
    rw [abs_mul, abs_of_pos hpos]
    rw [div_lt_iff₀ hA0] at hgt
    linarith
  · intro hk
    rw [if_neg (by omega), zero_mul]

/-- The value of the sample that leaves the delay line in the end-to-end scenario:
`1.5` times the gain after 9 re-triggers with the attack step `1/240`. -/
theorem scenario_output_value (T : α) :
    3 / 2 * held_gain T |(3 / 2 : α)| (curve_accel (1 / ((48000 : Int) : α) / (1 / 200)))
        ((10 : Int) - 1).toNat
      = T + (239 / 240) ^ 18 * (3 / 2 - T) := by
  have h32 : |(3 / 2 : α)| = 3 / 2 := abs_of_pos (by norm_num)
  have ha : curve_accel (1 / ((48000 : Int) : α) / (1 / 200)) = 1 - (239 / 240) ^ 2 := by
    rw [curve_accel_of_mem (by norm_num) (by norm_num)]
    norm_num
  have h9 : ((10 : Int) - 1).toNat = 9 := by decide
  have hr : (1 - (1 - (239 / 240 : α) ^ 2)) ^ 9 = (239 / 240) ^ 18 := by
    rw [sub_sub_cancel, ← pow_mul]
  rw [held_gain_closed, h32, ha, h9, hr]
  field_simp
  ring

theorem scenario_output_bounds {T : α} (hT0 : 0 < T) (hT1 : T < 3 / 2) :
    T < T + (239 / 240) ^ 18 * (3 / 2 - T) ∧
      138 / 100 < T + (239 / 240) ^ 18 * (3 / 2 - T) := by
  have hr0 : (0 : α) < (239 / 240) ^ 18 := by positivity
  have hr1 : (92 / 100 : α) < (239 / 240) ^ 18 := by norm_num
  have hr2 : ((239 / 240 : α)) ^ 18 < 1 := by norm_num
  constructor
  · have := mul_pos hr0 (by linarith : (0 : α) < 3 / 2 - T)
    linarith
  · nlinarith

/-- C2 (amended). In the end-to-end scenario (threshold -1 dB with linear value `T`,
`0 < T < 3/2`, sample rate 48000, one channel, attack 0.005 s, release 0.050 s, a
delay of 10 samples, 480 zero samples, one sample of amplitude 1.5, then zeros), fed
in blocks of any sizes, the output sample 490, at which the impulse leaves the delay
line, is `T + (239/240)^18 * (1.5 - T)`: it exceeds the threshold and is above 1.38;
every other output sample is zero. -/
theorem impulse_scenario_output (pow : α → α → α) (ths : AudioEffectPeakLimiter α)
    (hT0 : 0 < pow 10 (-1 / 20)) (hT1 : pow 10 (-1 / 20) < 3 / 2) (N : Int)
    (s : AudioEffectPeakLimiter α)
    (hfed : Fed (audio_effect_peak_limiter_init pow ths (-1) 48000 1 (1 / 200) (1 / 20) 10)
      (impulse 480 (3 / 2)) N s)
    (inb outblock : Int → α) (fs : Int) (hfs : 0 ≤ fs)
    (hin : ∀ c k, 0 ≤ c → c < 1 → 0 ≤ k → k < fs →
      inb (c * fs + k) = impulse 480 (3 / 2 : α) c (N + k)) :
    ∃ (s1 : AudioEffectPeakLimiter α) (out1 : Int → α),
      audio_effect_peak_limiter_process_block s (some inb) outblock fs = some (fs, s1, out1) ∧
      ∀ k, 0 ≤ k → k < fs →
        (N + k = 490 →
          out1 k = pow 10 (-1 / 20) + (239 / 240) ^ 18 * (3 / 2 - pow 10 (-1 / 20)) ∧
          pow 10 (-1 / 20) < out1 k ∧ 138 / 100 < out1 k) ∧
        (N + k ≠ 490 → out1 k = 0) := by
  have h32 : |(3 / 2 : α)| = 3 / 2 := abs_of_pos (by norm_num)
  obtain ⟨s1, out1, e, hout⟩ := impulse_output pow ths (-1) 48000 1 (1 / 200) (1 / 20) 10 hT0
    (by norm_num) (by norm_num) (le_refl 1) (by decide) 480 (by decide) (3 / 2)
    (by rw [h32]; exact hT1) N s hfed inb outblock fs hfs hin
  refine ⟨s1, out1, e, ?_⟩
  intro k hk0 hk1
  have hk := hout 0 k (le_refl 0) (by decide) hk0 hk1
  rw [zero_mul, zero_add] at hk
  refine ⟨fun h490 => ?_, fun h490 => hk.2 (by omega)⟩
  have hv : out1 k = pow 10 (-1 / 20) + (239 / 240) ^ 18 * (3 / 2 - pow 10 (-1 / 20)) := by
    rw [(hk.1 (by omega)).1]
    exact scenario_output_value (pow 10 (-1 / 20))
  have hb := scenario_output_bounds hT0 hT1
  rw [← hv] at hb
  exact ⟨hv, hb.1, hb.2⟩

/-- Witness for C2 over the rationals, with `891/1000` for the linear threshold: the
whole scenario in one block of 491 samples. -/
theorem impulse_scenario_output_witness :
    ∃ (s1 : AudioEffectPeakLimiter ℚ) (out1 : Int → ℚ),
      audio_effect_peak_limiter_process_block
        (audio_effect_peak_limiter_init (fun _ _ => 891 / 1000) blank_limiter (-1) 48000 1
          (1 / 200) (1 / 20) 10)
        (some (fun p => impulse 480 (3 / 2 : ℚ) 0 p)) (fun _ => 0) 491 = some (491, s1, out1) ∧
      ∀ k, 0 ≤ k → k < 491 →
        (0 + k = 490 →
          out1 k = 891 / 1000 + (239 / 240) ^ 18 * (3 / 2 - 891 / 1000) ∧
          891 / 1000 < out1 k ∧ 138 / 100 < out1 k) ∧
        (0 + k ≠ 490 → out1 k = 0) :=
  impulse_scenario_output (fun _ _ => 891 / 1000) blank_limiter (by norm_num) (by norm_num) 0 _
    Fed.start (fun p => impulse 480 (3 / 2 : ℚ) 0 p) (fun _ => 0) 491 (by decide)
    (fun c k h0 h1 _ _ => by
      have hc : c = 0 := by omega
      subst hc
      simp [impulse])

/-- C2, counterexample. The end-to-end scenario over the reals, with the threshold
`10 ^ (-1/20)` of `init`, fed as one block of 491 samples: the linear threshold is at
most 1 and the output sample 490 is above 1.38. -/
theorem impulse_scenario_counterexample :
    ∃ (s1 : AudioEffectPeakLimiter ℝ) (out1 : Int → ℝ),
      audio_effect_peak_limiter_process_block
        (audio_effect_peak_limiter_init (fun b e : ℝ => b ^ e) blank_limiter (-1) 48000 1
          (1 / 200) (1 / 20) 10)
        (some (fun p => impulse 480 (3 / 2 : ℝ) 0 p)) (fun _ => 0) 491 = some (491, s1, out1) ∧
      (audio_effect_peak_limiter_init (fun b e : ℝ => b ^ e) blank_limiter (-1) 48000 1
          (1 / 200) (1 / 20) 10).linearThreashold ≤ 1 ∧
      138 / 100 < |out1 490| := by
  have hT0 : (0 : ℝ) < (10 : ℝ) ^ ((-1 : ℝ) / 20) := Real.rpow_pos_of_pos (by norm_num) _
  have hT1 : (10 : ℝ) ^ ((-1 : ℝ) / 20) ≤ 1 :=
    Real.rpow_le_one_of_one_le_of_nonpos (by norm_num) (by norm_num)
  have h32 : |(3 / 2 : ℝ)| = 3 / 2 := abs_of_pos (by norm_num)
  obtain ⟨s1, out1, e, hout⟩ := impulse_output (fun b e : ℝ => b ^ e) blank_limiter (-1) 48000 1
    (1 / 200) (1 / 20) 10 hT0 (by norm_num) (by norm_num) (le_refl 1) (by decide) 480
    (by decide) (3 / 2) (by rw [h32]; linarith) 0 _ Fed.start
    (fun p => impulse 480 (3 / 2 : ℝ) 0 p) (fun _ => 0) 491 (by decide)
    (fun c k h0 h1 _ _ => by
      have hc : c = 0 := by omega
      subst hc
      simp [impulse])
  refine ⟨s1, out1, e, hT1, ?_⟩
  have hk := ((hout 0 490 (le_refl 0) (by decide) (by decide) (by decide)).1 (by decide)).1
  rw [zero_mul, zero_add] at hk
  rw [hk, scenario_output_value]
  exact lt_of_lt_of_le (scenario_output_bounds hT0 (by linarith)).2 (le_abs_self _)

/-! ## The gain bound (C1) -/

theorem EnvInv_env_run {s : AudioEffectPeakLimiter α} (h : EnvInv s) (pk : Int → α) :
    ∀ n : Nat, EnvInv (env_run s pk n) := by
  intro n
  induction n with
  | zero => exact h
  | succ n ih => exact EnvInv_cgt ih _

theorem cgt_attack_no_trigger {s : AudioEffectPeakLimiter α} {p : α} (h1 : s.currentTC ≠ -1)
    (h2 : s.currentTC < s.attackSec)
    (h3 : p * (s.targetStartGain - curve_accel ((s.currentTC + s.incTC) / s.attackSec) *
      (s.targetStartGain - s.targetEndGain)) ≤ s.linearThreashold) :
    (compute_target_gain s p).1
      = { s with
          currentTC := s.currentTC + s.incTC
          currentGain := s.targetStartGain -
            curve_accel ((s.currentTC + s.incTC) / s.attackSec) *
              (s.targetStartGain - s.targetEndGain) } := by
  have c1 : s.currentTC ≠ -1 ∧ s.currentTC < s.attackSec := ⟨h1, h2⟩
  unfold compute_target_gain
  dsimp only
  rw [if_pos c1]
  dsimp only
  rw [if_neg (not_lt.mpr h3)]

theorem cgt_release_gain {s : AudioEffectPeakLimiter α} (p : α) (h1 : s.currentTC ≠ -1)
    (h2 : s.attackSec ≤ s.currentTC) (h3 : s.currentTC < s.releaseSec + s.attackSec) :
    (compute_target_gain s p).1.currentGain
      = s.targetEndGain +
          curve_accel ((s.currentTC + s.incTC - s.attackSec) / s.releaseSec) *
            (1 - s.targetEndGain) := by
  have c1 : ¬(s.currentTC ≠ -1 ∧ s.currentTC < s.attackSec) := fun hh => absurd hh.2 (not_lt.mpr h2)
  have c2 : s.currentTC ≠ -1 ∧ s.currentTC < s.releaseSec + s.attackSec := ⟨h1, h3⟩
  unfold compute_target_gain
  dsimp only
  rw [if_neg c1, if_pos c2]
  dsimp only
  split_ifs <;> rfl

/-- The envelope of the example of C1 (threshold 1, attack of one sample, release of
4 samples, a delay of 3 samples, an impulse of amplitude `A > 1` at sample 0): after
the samples 0 to 2 the attack phase triggered at sample 1 is over (`currentTC = 1 =
attackSec`), and the gain computed for sample 3 is `1/A + 7/16 * (1 - 1/A)`. -/
theorem attack_example_env (A : ℚ) (hA : 1 < A) :
    (env_run (audio_effect_peak_limiter_init pow_one blank_limiter 0 1 1 1 4 3)
      (lookahead_peak (impulse 0 A) 1 3) 3).currentTC = 1 ∧
    (env_run (audio_effect_peak_limiter_init pow_one blank_limiter 0 1 1 1 4 3)
      (lookahead_peak (impulse 0 A) 1 3) 4).currentGain = 1 / A + 7 / 16 * (1 - 1 / A) := by
  have hA0 : 0 < A := by linarith
  have habs : |A| = A := abs_of_pos hA0
  have p0 : lookahead_peak (impulse 0 A) 1 3 ((0 : Nat) : Int) = 0 := by
    rw [lookahead_peak_impulse (le_refl 0) (le_refl 1), if_neg (by omega)]
  have p1 : lookahead_peak (impulse 0 A) 1 3 ((0 + 1 : Nat) : Int) = A := by
    rw [lookahead_peak_impulse (le_refl 0) (le_refl 1), if_pos (by omega), habs]
  have p2 : lookahead_peak (impulse 0 A) 1 3 ((0 + 1 + 1 : Nat) : Int) = A := by
    rw [lookahead_peak_impulse (le_refl 0) (le_refl 1), if_pos (by omega), habs]
  have p3 : lookahead_peak (impulse 0 A) 1 3 ((0 + 1 + 1 + 1 : Nat) : Int) = A := by
    rw [lookahead_peak_impulse (le_refl 0) (le_refl 1), if_pos (by omega), habs]
  have e2 : env_run (audio_effect_peak_limiter_init pow_one blank_limiter 0 1 1 1 4 3)
      (lookahead_peak (impulse 0 A) 1 3) (0 + 1 + 1)
      = { audio_effect_peak_limiter_init pow_one blank_limiter 0 1 1 1 4 3 with
          currentGain := 1, targetStartGain := 1, targetEndGain := 1 / A, currentTC := 0 } := by
    rw [env_run_succ, env_run_succ, p0, p1]
    show (compute_target_gain (compute_target_gain
      (audio_effect_peak_limiter_init pow_one blank_limiter 0 1 1 1 4 3) 0).1 A).1 = _
    rw [@cgt_idle ℚ _ (audio_effect_peak_limiter_init pow_one blank_limiter 0 1 1 1 4 3) 0
      rfl rfl (by norm_num [audio_effect_peak_limiter_init, pow_one])]
    rw [@cgt_idle_trigger ℚ _ (audio_effect_peak_limiter_init pow_one blank_limiter 0 1 1 1 4 3)
      A rfl (by
        show pow_one 10 (0 / 20) < A
        exact hA)]
    rfl
  have e3 : env_run (audio_effect_peak_limiter_init pow_one blank_limiter 0 1 1 1 4 3)
      (lookahead_peak (impulse 0 A) 1 3) (0 + 1 + 1 + 1)
      = { audio_effect_peak_limiter_init pow_one blank_limiter 0 1 1 1 4 3 with
          currentGain := 1 / A, targetStartGain := 1, targetEndGain := 1 / A, currentTC := 1 } := by
    rw [env_run_succ, e2, p2]
    have hacc : curve_accel (((0 : ℚ) + 1 / ((1 : Int) : ℚ)) / 1) = 1 := by
      rw [curve_accel_of_one_le (by norm_num)]
    rw [cgt_attack_no_trigger (by norm_num) (by norm_num [audio_effect_peak_limiter_init]) (by
      show A * (1 - curve_accel (((0 : ℚ) + 1 / ((1 : Int) : ℚ)) / 1) * (1 - 1 / A)) ≤ 1
      rw [hacc]
      field_simp)]
    show _ = _
    simp only [audio_effect_peak_limiter_init, init_default]
    rw [hacc]
    norm_num
  constructor
  · have e : (3 : Nat) = 0 + 1 + 1 + 1 := rfl
    rw [e, e3]
  · have e : (4 : Nat) = 0 + 1 + 1 + 1 + 1 := rfl
    rw [e, env_run_succ, e3, p3]
    rw [cgt_release_gain A (by norm_num) (by norm_num [audio_effect_peak_limiter_init])
      (by norm_num [audio_effect_peak_limiter_init])]
    simp only [audio_effect_peak_limiter_init, init_default]
    rw [curve_accel_of_mem (by norm_num) (by norm_num)]
    norm_num

/-- Witness for C5 over the rationals, threshold 0 dB (linear 1), one channel, a
delay of 3 samples, an impulse of amplitude 2 at sample 0. First state (attack and
release of 2 samples): the limiter after a block of 2 samples, whose envelope has
just been triggered, so that the next call computes the attack formula. Second state
(attack of 1 sample, release of 4): the limiter after 3 samples of a block of 4,
whose attack phase is over, so that the next call computes the release formula; for
the peak 2 it returns `23/32`. -/
theorem gain_range_invariant_witness :
    (∃ s : AudioEffectPeakLimiter ℚ,
      Reachable (audio_effect_peak_limiter_init pow_one blank_limiter 0 1 1 2 2 3) s ∧
      (s.currentTC ≠ -1 ∧ s.currentTC < s.attackSec) ∧
      (0 ≤ s.currentGain ∧ s.currentGain ≤ 1) ∧
      ∀ peak : ℚ, 0 ≤ (compute_target_gain s peak).2 ∧ (compute_target_gain s peak).2 ≤ 1) ∧
    (∃ s : AudioEffectPeakLimiter ℚ,
      Reachable (audio_effect_peak_limiter_init pow_one blank_limiter 0 1 1 1 4 3) s ∧
      (s.currentTC ≠ -1 ∧ s.attackSec ≤ s.currentTC ∧
        s.currentTC < s.releaseSec + s.attackSec) ∧
      (compute_target_gain s 2).2 = 23 / 32 ∧
      (0 ≤ s.currentGain ∧ s.currentGain ≤ 1) ∧
      ∀ peak : ℚ, 0 ≤ (compute_target_gain s peak).2 ∧ (compute_target_gain s peak).2 ≤ 1) := by
  constructor
  · have hin : ∀ c k, 0 ≤ c →
        c < (audio_effect_peak_limiter_init pow_one blank_limiter 0 1 1 2 2 3).numChannels →
        0 ≤ k → k < 2 →
        (fun p => impulse 0 (2 : ℚ) 0 p) (c * 2 + k) = impulse 0 2 c (0 + k) := by
      intro c k h0 h1 _ _
      have hc : c = 0 := by
        change c < 1 at h1
        omega
      subst hc
      simp [impulse]
    obtain ⟨s1, out1, e, hinv, _, _⟩ := process_block_spec
      (audio_effect_peak_limiter_init pow_one blank_limiter 0 1 1 2 2 3) (impulse 0 (2 : ℚ)) 0
      _ (fun p => impulse 0 (2 : ℚ) 0 p) (fun _ => 0) 2
      (StreamInv_init pow_one blank_limiter 0 1 1 2 2 3 (by decide) (impulse 0 2)) (by decide)
      hin
    have hr : Reachable (audio_effect_peak_limiter_init pow_one blank_limiter 0 1 1 2 2 3) s1 :=
      Reachable.block Reachable.start e
    have h2 := @env_run_silence_then_hold ℚ _
      (audio_effect_peak_limiter_init pow_one blank_limiter 0 1 1 2 2 3) 2
      (lookahead_peak (impulse 0 (2 : ℚ)) 1 3) rfl rfl
      (by norm_num [audio_effect_peak_limiter_init])
      (by norm_num [audio_effect_peak_limiter_init])
      (by norm_num [audio_effect_peak_limiter_init, pow_one])
      (by norm_num [audio_effect_peak_limiter_init, pow_one]) 1 0
      (by
        intro i h1 h2
        rw [lookahead_peak_impulse (le_refl 0) (le_refl 1), if_neg (by omega)]
        norm_num [audio_effect_peak_limiter_init, pow_one])
      (by
        intro i h1 h2
        rw [lookahead_peak_impulse (le_refl 0) (le_refl 1), if_pos (by omega)]
        norm_num)
    have hse := hinv.2.2.2
    have e2 : ((0 : Int) + 2).toNat = 1 + 1 + 0 := rfl
    rw [e2] at hse
    have hTC : s1.currentTC = 0 := by
      rw [sameEnv_currentTC hse]
      show (env_run _ (lookahead_peak (impulse 0 (2 : ℚ)) 1 3) (1 + 1 + 0)).currentTC = 0
      rw [h2]
    have hatk : s1.attackSec = 2 := by
      have e3 : s1.attackSec = (env_run
          (audio_effect_peak_limiter_init pow_one blank_limiter 0 1 1 2 2 3)
          (lookahead_peak (impulse 0 (2 : ℚ))
            (audio_effect_peak_limiter_init pow_one blank_limiter 0 1 1 2 2 3).numChannels
            (audio_effect_peak_limiter_init pow_one blank_limiter 0 1 1 2 2 3).delaySize)
          (1 + 1 + 0)).attackSec := by
        unfold SameEnv at hse
        rw [hse]
      rw [e3, env_run_attackSec]
      rfl
    have hb := gain_range_invariant pow_one blank_limiter 0 1 1 2 2 3 (by norm_num [pow_one])
      s1 hr
    exact ⟨s1, hr, ⟨by rw [hTC]; norm_num, by rw [hTC, hatk]; norm_num⟩, hb.1, hb.2⟩
  · have hin : ∀ c k, 0 ≤ c →
        c < (audio_effect_peak_limiter_init pow_one blank_limiter 0 1 1 1 4 3).numChannels →
        0 ≤ k → k < 4 →
        (fun p => impulse 0 (2 : ℚ) 0 p) (c * 4 + k) = impulse 0 2 c (0 + k) := by
      intro c k h0 h1 _ _
      have hc : c = 0 := by
        change c < 1 at h1
        omega
      subst hc
      simp [impulse]
    have hinv := StreamInv_init pow_one blank_limiter 0 1 1 1 4 3 (by decide) (impulse 0 (2 : ℚ))
    obtain ⟨s3, ab3, hl, _, _, hse, _⟩ :=
      block_prefix_spec _ (impulse 0 (2 : ℚ)) 0 _ (fun p => impulse 0 (2 : ℚ) 0 p) (fun _ => 0) 4
        hinv hin 3 (by decide)
    have hr : Reachable (audio_effect_peak_limiter_init pow_one blank_limiter 0 1 1 1 4 3) s3 :=
      Reachable.samples Reachable.start (by decide) hl
    obtain ⟨h3, h4⟩ := attack_example_env 2 (by norm_num)
    have hse3 : SameEnv s3 (env_run (audio_effect_peak_limiter_init pow_one blank_limiter 0 1 1 1 4 3)
        (lookahead_peak (impulse 0 (2 : ℚ)) 1 3) 3) := hse
    have hTC : s3.currentTC = 1 := by rw [sameEnv_currentTC hse3]; exact h3
    have hatk : s3.attackSec = 1 := by
      have e3 : s3.attackSec = (env_run
          (audio_effect_peak_limiter_init pow_one blank_limiter 0 1 1 1 4 3)
          (lookahead_peak (impulse 0 (2 : ℚ)) 1 3) 3).attackSec := by
        unfold SameEnv at hse3
        rw [hse3]
      rw [e3, env_run_attackSec]
      rfl
    have hrel : s3.releaseSec = 4 := by
      have e3 : s3.releaseSec = (env_run
          (audio_effect_peak_limiter_init pow_one blank_limiter 0 1 1 1 4 3)
          (lookahead_peak (impulse 0 (2 : ℚ)) 1 3) 3).releaseSec := by
        unfold SameEnv at hse3
        rw [hse3]
      rw [e3, env_run_releaseSec]
      rfl
    have hg : (compute_target_gain s3 2).2 = 23 / 32 := by
      rw [cgt_snd, sameEnv_currentGain (sameEnv_cgt hse3 2)]
      have p3 : lookahead_peak (impulse 0 (2 : ℚ)) 1 3 ((3 : Nat) : Int) = 2 := by
        rw [lookahead_peak_impulse (le_refl 0) (le_refl 1), if_pos (by omega)]
        norm_num
      have e4 : env_run (audio_effect_peak_limiter_init pow_one blank_limiter 0 1 1 1 4 3)
          (lookahead_peak (impulse 0 (2 : ℚ)) 1 3) (3 + 1)
          = (compute_target_gain
              (env_run (audio_effect_peak_limiter_init pow_one blank_limiter 0 1 1 1 4 3)
                (lookahead_peak (impulse 0 (2 : ℚ)) 1 3) 3) 2).1 := by
        rw [env_run_succ, p3]
      rw [← e4]
      have h4b : (env_run (audio_effect_peak_limiter_init pow_one blank_limiter 0 1 1 1 4 3)
          (lookahead_peak (impulse 0 (2 : ℚ)) 1 3) (3 + 1)).currentGain
          = 1 / 2 + 7 / 16 * (1 - 1 / 2) := h4
      rw [h4b]
      norm_num
    have hb := gain_range_invariant pow_one blank_limiter 0 1 1 1 4 3 (by norm_num [pow_one])
      s3 hr
    exact ⟨s3, hr, ⟨by rw [hTC]; norm_num, by rw [hTC, hatk], by rw [hTC, hatk, hrel]; norm_num⟩,
      hg, hb.1, hb.2⟩

/-! ## No undershoot (C9) -/

/-- With peaks that do not exceed `p`, the gain and the target of an active envelope
stay at or above `T / p`. -/
theorem floor_cgt {s : AudioEffectPeakLimiter α} {p q : α} (hs : EnvInv s)
    (hT : 0 < s.linearThreashold) (hp : s.linearThreashold ≤ p) (hq : q ≤ p)
    (hE : s.currentTC ≠ -1 → s.linearThreashold / p ≤ s.targetEndGain) :
    s.linearThreashold / p ≤ (compute_target_gain s q).1.currentGain ∧
    ((compute_target_gain s q).1.currentTC ≠ -1 →
      s.linearThreashold / p ≤ (compute_target_gain s q).1.targetEndGain) := by
  obtain ⟨hT0, hg0, hg1, hact⟩ := hs
  have hp0 : 0 < p := lt_of_lt_of_le hT hp
  have hL1 : s.linearThreashold / p ≤ 1 := by
    rw [div_le_one hp0]; exact hp
  have htrig : ∀ g : α, 0 ≤ g → q * g > s.linearThreashold →
      s.linearThreashold / p ≤ s.linearThreashold / q := by
    intro g h0 h1
    obtain ⟨hq0, _, _⟩ := trigger_bounds hT0 h0 h1
    exact div_le_div_of_nonneg_left hT0 hq0 hq
  unfold compute_target_gain
  dsimp only
  split_ifs with h1 h2 h3 h4 h5
  · dsimp only at h2 ⊢
    obtain ⟨e0, e1, e2, _⟩ := hact h1.1
    obtain ⟨b1, _⟩ := attack_gain_bounds
      (curve_accel_nonneg ((s.currentTC + s.incTC) / s.attackSec)) (curve_accel_le_one _) e1
    exact ⟨le_trans (hE h1.1) b1, fun _ => htrig _ (le_trans e0 b1) h2⟩
  · dsimp only
    obtain ⟨e0, e1, e2, _⟩ := hact h1.1
    obtain ⟨b1, _⟩ := attack_gain_bounds
      (curve_accel_nonneg ((s.currentTC + s.incTC) / s.attackSec)) (curve_accel_le_one _) e1
    exact ⟨le_trans (hE h1.1) b1, fun _ => hE h1.1⟩
  · dsimp only at h4 ⊢
    obtain ⟨e0, e1, e2, _⟩ := hact h3.1
    obtain ⟨b1, _⟩ := release_gain_bounds
      (curve_accel_nonneg ((s.currentTC + s.incTC - s.attackSec) / s.releaseSec))
      (curve_accel_le_one _) (le_trans e1 e2)
    exact ⟨le_trans (hE h3.1) b1, fun _ => htrig _ (le_trans e0 b1) h4⟩
  · dsimp only
    obtain ⟨e0, e1, e2, _⟩ := hact h3.1
    obtain ⟨b1, _⟩ := release_gain_bounds
      (curve_accel_nonneg ((s.currentTC + s.incTC - s.attackSec) / s.releaseSec))
      (curve_accel_le_one _) (le_trans e1 e2)
    exact ⟨le_trans (hE h3.1) b1, fun _ => hE h3.1⟩
  · dsimp only at h5 ⊢
    exact ⟨hL1, fun _ => htrig _ zero_le_one h5⟩
  · dsimp only
    exact ⟨hL1, hE⟩

theorem lookahead_peak_le (x : Int → Int → α) {p : α} (hp : 0 ≤ p)
    (hx : ∀ c m, |x c m| ≤ p) (C D n : Int) : lookahead_peak x C D n ≤ p := by
  have hs : ∀ m, sample_peak x C m ≤ p := by
    intro m
    unfold sample_peak
    rcases run_max_attained (fun c => |stream_at x c m|) C.toNat 0 0 with h | ⟨j, _, _, h⟩
    · rw [h]; exact hp
    · rw [h]
      unfold stream_at
      split_ifs
      · rw [abs_zero]; exact hp
      · exact hx j m
  unfold lookahead_peak
  rcases run_max_attained (fun i => sample_peak x C (n - D + i)) D.toNat 0 0 with h | ⟨j, _, _, h⟩
  · rw [h]; exact hp
  · rw [h]; exact hs _

theorem floor_env_run {s : AudioEffectPeakLimiter α} {p : α} {pk : Int → α} (hs : EnvInv s)
    (hT : 0 < s.linearThreashold) (hp : s.linearThreashold ≤ p) (hpk : ∀ i, pk i ≤ p)
    (hg : s.linearThreashold / p ≤ s.currentGain)
    (hE : s.currentTC ≠ -1 → s.linearThreashold / p ≤ s.targetEndGain) :
    ∀ n : Nat, s.linearThreashold / p ≤ (env_run s pk n).currentGain ∧
      ((env_run s pk n).currentTC ≠ -1 →
        s.linearThreashold / p ≤ (env_run s pk n).targetEndGain) := by
  intro n
  induction n with
  | zero => exact ⟨hg, hE⟩
  | succ n ih =>
    have h := @floor_cgt α _ (env_run s pk n) p (pk n) (EnvInv_env_run hs pk n)
      (by rw [env_run_linearThreashold]; exact hT)
      (by rw [env_run_linearThreashold]; exact hp) (hpk n)
      (by rw [env_run_linearThreashold]; exact ih.2)
    rw [env_run_linearThreashold] at h
    exact h

/-- C9. After `init` with a positive threshold `T`: in every state the limiter passes
through in which the envelope is active (`currentTC ≠ -1`),
`targetEndGain ≤ currentGain ≤ 1`; and when no input sample exceeds `p` in magnitude
(`p ≥ T`; `p = 2 T` for an isolated impulse at twice the threshold), the gain never
goes below `T / p`, the `targetEndGain` computed at such a peak, nor does the
`targetEndGain` of an active envelope. -/
theorem no_undershoot (pow : α → α → α) (ths : AudioEffectPeakLimiter α) (db : α)
    (sr nc : Int) (atk rel : α) (d : Int) (hT : 0 < pow 10 (db / 20)) :
    (∀ s : AudioEffectPeakLimiter α,
      Reachable (audio_effect_peak_limiter_init pow ths db sr nc atk rel d) s →
      s.currentTC ≠ -1 → s.targetEndGain ≤ s.currentGain ∧ s.currentGain ≤ 1) ∧
    (∀ (x : Int → Int → α) (p : α) (N : Int) (s : AudioEffectPeakLimiter α), 0 < d →
      pow 10 (db / 20) ≤ p → (∀ c m, |x c m| ≤ p) →
      Fed (audio_effect_peak_limiter_init pow ths db sr nc atk rel d) x N s →
      pow 10 (db / 20) / p ≤ s.currentGain ∧
      (s.currentTC ≠ -1 → pow 10 (db / 20) / p ≤ s.targetEndGain)) := by
  have h0 := EnvInv_init pow ths db sr nc atk rel d hT
  constructor
  · intro s hr hact
    have hs := EnvInv_of_reachable h0 hr
    exact ⟨(hs.2.2.2 hact).2.2.2, hs.2.2.1⟩
  · intro x p N s hd hp hx hfed
    have hinv := StreamInv_of_fed (StreamInv_init pow ths db sr nc atk rel d hd x) hfed
    have hp0 : 0 < p := lt_of_lt_of_le hT hp
    have hfl := @floor_env_run α _ (audio_effect_peak_limiter_init pow ths db sr nc atk rel d) p
      (lookahead_peak x nc d) h0 hT hp
      (fun i => lookahead_peak_le x (le_of_lt hp0) hx nc d i)
      (by
        show pow 10 (db / 20) / p ≤ 1
        rw [div_le_one hp0]; exact hp)
      (fun h => absurd rfl h) N.toNat
    have hse := hinv.2.2.2
    rw [sameEnv_currentGain hse, sameEnv_currentTC hse, sameEnv_targetEndGain hse]
    exact hfl

/-- Witness for C9 over the rationals: threshold 0 dB (linear 1), attack and release
of 2 samples, a delay of 3 samples, one channel; after a block of 2 samples that
starts with an impulse of amplitude 2 the envelope is active, and the gain is between
`targetEndGain` and 1 and at least `1/2`. -/
theorem no_undershoot_witness :
    ∃ s : AudioEffectPeakLimiter ℚ,
      Reachable (audio_effect_peak_limiter_init pow_one blank_limiter 0 1 1 2 2 3) s ∧
      s.currentTC ≠ -1 ∧ (s.targetEndGain ≤ s.currentGain ∧ s.currentGain ≤ 1) ∧
      pow_one 10 (0 / 20) / 2 ≤ s.currentGain := by
  have hin : ∀ c k, 0 ≤ c →
      c < (audio_effect_peak_limiter_init pow_one blank_limiter 0 1 1 2 2 3).numChannels →
      0 ≤ k → k < 2 → (fun p => impulse 0 (2 : ℚ) 0 p) (c * 2 + k) = impulse 0 2 c (0 + k) := by
    intro c k h0 h1 _ _
    have hc : c = 0 := by
      change c < 1 at h1
      omega
    subst hc
    simp [impulse]
  obtain ⟨s1, out1, e, hinv, _, _⟩ := process_block_spec
    (audio_effect_peak_limiter_init pow_one blank_limiter 0 1 1 2 2 3) (impulse 0 (2 : ℚ)) 0
    _ (fun p => impulse 0 (2 : ℚ) 0 p) (fun _ => 0) 2
    (StreamInv_init pow_one blank_limiter 0 1 1 2 2 3 (by decide) (impulse 0 2)) (by decide) hin
  have hr : Reachable (audio_effect_peak_limiter_init pow_one blank_limiter 0 1 1 2 2 3) s1 :=
    Reachable.block Reachable.start e
  have hf : Fed (audio_effect_peak_limiter_init pow_one blank_limiter 0 1 1 2 2 3)
      (impulse 0 (2 : ℚ)) (0 + 2) s1 := Fed.block Fed.start (by decide) hin e
  have h2 := @env_run_silence_then_hold ℚ _
    (audio_effect_peak_limiter_init pow_one blank_limiter 0 1 1 2 2 3) 2
    (lookahead_peak (impulse 0 (2 : ℚ)) 1 3) rfl rfl
    (by norm_num [audio_effect_peak_limiter_init])
    (by norm_num [audio_effect_peak_limiter_init])
    (by norm_num [audio_effect_peak_limiter_init, pow_one])
    (by norm_num [audio_effect_peak_limiter_init, pow_one]) 1 0
    (by
      intro i h1 h2
      rw [lookahead_peak_impulse (le_refl 0) (le_refl 1), if_neg (by omega)]
      norm_num [audio_effect_peak_limiter_init, pow_one])
    (by
      intro i h1 h2
      rw [lookahead_peak_impulse (le_refl 0) (le_refl 1), if_pos (by omega)]
      norm_num)
  have hTC : s1.currentTC ≠ -1 := by
    rw [sameEnv_currentTC hinv.2.2.2]
    have e2 : ((0 : Int) + 2).toNat = 1 + 1 + 0 := rfl
    rw [e2]
    show (env_run (audio_effect_peak_limiter_init pow_one blank_limiter 0 1 1 2 2 3)
      (lookahead_peak (impulse 0 (2 : ℚ)) 1 3) (1 + 1 + 0)).currentTC ≠ -1
    rw [h2]
    norm_num
  have hT : (0 : ℚ) < pow_one 10 (0 / 20) := by norm_num [pow_one]
  exact ⟨s1, hr, hTC,
    (no_undershoot pow_one blank_limiter 0 1 1 2 2 3 hT).1 s1 hr hTC,
    ((no_undershoot pow_one blank_limiter 0 1 1 2 2 3 hT).2 (impulse 0 2) 2 _ s1 (by decide)
      (by norm_num [pow_one])
      (fun c m => by
        unfold impulse
        split_ifs <;> norm_num)
      hf).1⟩

/-! ## Initialisation (C11, C12) -/

/-- C11. The limiter `init` leaves does not depend on the limiter it is given, and it
has `currentGain = 1`, an idle envelope (`currentTC = -1`), the write cursor 0, no
cached position (`peak_pos = -1`), all of `peakData` and of the delay lines zero,
`linearThreashold = pow 10 (threashold_db / 20)`, `incTC = 1 / sample_rate`, the
attack time, release time and channel count it is given, and
`delaySize = delayBufferSize = delay_size`. -/
theorem init_resets_all_state (pow : α → α → α) (s1 s2 : AudioEffectPeakLimiter α) (db : α)
    (sr nc : Int) (atk rel : α) (d : Int) :
    audio_effect_peak_limiter_init pow s1 db sr nc atk rel d
      = audio_effect_peak_limiter_init pow s2 db sr nc atk rel d ∧
    (audio_effect_peak_limiter_init pow s1 db sr nc atk rel d).currentGain = 1 ∧
    (audio_effect_peak_limiter_init pow s1 db sr nc atk rel d).currentTC = -1 ∧
    (audio_effect_peak_limiter_init pow s1 db sr nc atk rel d).entryIndex = 0 ∧
    (audio_effect_peak_limiter_init pow s1 db sr nc atk rel d).peak_pos = -1 ∧
    (∀ i, (audio_effect_peak_limiter_init pow s1 db sr nc atk rel d).peakData i = 0) ∧
    (∀ c i, (audio_effect_peak_limiter_init pow s1 db sr nc atk rel d).delayData c i = 0) ∧
    (audio_effect_peak_limiter_init pow s1 db sr nc atk rel d).linearThreashold
      = pow 10 (db / 20) ∧
    (audio_effect_peak_limiter_init pow s1 db sr nc atk rel d).incTC = 1 / (sr : α) ∧
    (audio_effect_peak_limiter_init pow s1 db sr nc atk rel d).attackSec = atk ∧
    (audio_effect_peak_limiter_init pow s1 db sr nc atk rel d).releaseSec = rel ∧
    (audio_effect_peak_limiter_init pow s1 db sr nc atk rel d).numChannels = nc ∧
    (audio_effect_peak_limiter_init pow s1 db sr nc atk rel d).delaySize = d ∧
    (audio_effect_peak_limiter_init pow s1 db sr nc atk rel d).delayBufferSize = d :=
  ⟨rfl, rfl, rfl, rfl, rfl, fun _ => rfl, fun _ _ => rfl, rfl, rfl, rfl, rfl, rfl, rfl, rfl⟩

theorem sample_body_numChannels {inb : Int → α} {fs k : Int} {s s1 : AudioEffectPeakLimiter α}
    {ab ab1 : Int → α} (h : sample_body inb fs k s ab = some (s1, ab1)) :
    s1.numChannels = s.numChannels := by
  obtain ⟨pk, pp, e⟩ := sample_body_frame h
  rw [e]
  show (compute_target_gain _ pk).1.numChannels = _
  rw [cgt_numChannels]

/-- The sample loop keeps the configuration of the limiter. -/
theorem sample_loop_config (inb : Int → α) (fs : Int) :
    ∀ (n : Nat) (k : Int) (s s1 : AudioEffectPeakLimiter α) (ab ab1 : Int → α),
      sample_loop inb fs n k s ab = some (s1, ab1) →
      s1.numChannels = s.numChannels ∧ s1.delaySize = s.delaySize ∧
        s1.delayBufferSize = s.delayBufferSize := by
  intro n
  induction n with
  | zero =>
    intro k s s1 ab ab1 h
    simp only [sample_loop, Option.some.injEq, Prod.mk.injEq] at h
    rw [← h.1]
    exact ⟨rfl, rfl, rfl⟩
  | succ n ih =>
    intro k s s1 ab ab1 h
    unfold sample_loop at h
    split at h
    · exact absurd h (by simp)
    · rename_i s2 ab2 hb
      obtain ⟨h1, h2, h3⟩ := ih _ _ _ _ _ h
      rw [h1, h2, h3, sample_body_numChannels hb, sample_body_delaySize hb,
        sample_body_delayBufferSize hb]
      exact ⟨rfl, rfl, rfl⟩

theorem process_block_config {s s1 : AudioEffectPeakLimiter α} {inblock : Option (Int → α)}
    {outblock out1 : Int → α} {fs r : Int}
    (h : audio_effect_peak_limiter_process_block s inblock outblock fs = some (r, s1, out1)) :
    s1.numChannels = s.numChannels ∧ s1.delaySize = s.delaySize ∧
      s1.delayBufferSize = s.delayBufferSize := by
  unfold audio_effect_peak_limiter_process_block at h
  split at h
  · simp only [Option.some.injEq, Prod.mk.injEq] at h
    rw [← h.2.1]
    exact ⟨rfl, rfl, rfl⟩
  · split at h
    · exact absurd h (by simp)
    · rename_i s2 ab2 hl
      have h2 := sample_loop_config _ _ _ _ _ _ _ _ hl
      split_ifs at h
      · split at h
        · exact absurd h (by simp)
        · simp only [Option.some.injEq, Prod.mk.injEq] at h
          rw [← h.2.1]
          exact h2
      · simp only [Option.some.injEq, Prod.mk.injEq] at h
        rw [← h.2.1]
        exact h2

theorem config_of_reachable {s0 s : AudioEffectPeakLimiter α} (h : Reachable s0 s) :
    s.numChannels = s0.numChannels ∧ s.delaySize = s0.delaySize ∧
      s.delayBufferSize = s0.delayBufferSize := by
  induction h with
  | start => exact ⟨rfl, rfl, rfl⟩
  | block _ hb ih =>
    obtain ⟨h1, h2, h3⟩ := process_block_config hb
    rw [h1, h2, h3]
    exact ih
  | samples _ _ hl ih =>
    obtain ⟨h1, h2, h3⟩ := sample_loop_config _ _ _ _ _ _ _ _ hl
    rw [h1, h2, h3]
    exact ih

/-- The channel count and the two sizes of a limiter that has been fed blocks are
those of the limiter it started from. -/
theorem config_of_fed {s0 s : AudioEffectPeakLimiter α} {x : Int → Int → α} {N : Int}
    (h : Fed s0 x N s) :
    s.numChannels = s0.numChannels ∧ s.delaySize = s0.delaySize ∧
      s.delayBufferSize = s0.delayBufferSize := by
  induction h with
  | start => exact ⟨rfl, rfl, rfl⟩
  | block _ _ _ hb ih =>
    obtain ⟨h1, h2, h3⟩ := process_block_config hb
    rw [h1, h2, h3]
    exact ih

/-- C12, as amended. The function `init` has no test of its configuration against
the static maxima `MAX_CHANNELS` and `MAX_DELAYSIZE` (parameters here, their header
is not among the sources). For a configuration the caller keeps within them
(`0 ≤ num_channels ≤ MAX_CHANNELS`, `0 ≤ delay_size ≤ MAX_DELAYSIZE`), `init` stores
the channel count and the delay depth as given, and no call of `process_block` on a
block of non-negative size changes them: after `init` and after any number of such
calls, `numChannels = num_channels ≤ MAX_CHANNELS` and
`delaySize = delayBufferSize = delay_size ≤ MAX_DELAYSIZE`, and every ring-buffer
index `DB_IDX` computes for a non-negative argument lies in `[0, MAX_DELAYSIZE]`. -/
theorem init_stores_configuration (pow : α → α → α) (ths : AudioEffectPeakLimiter α) (db : α)
    (sr nc : Int) (atk rel : α) (d MAX_CHANNELS MAX_DELAYSIZE : Int)
    (hnc0 : 0 ≤ nc) (hnc : nc ≤ MAX_CHANNELS) (hd0 : 0 ≤ d) (hd : d ≤ MAX_DELAYSIZE)
    (x : Int → Int → α) (N : Int) (s : AudioEffectPeakLimiter α)
    (h : Fed (audio_effect_peak_limiter_init pow ths db sr nc atk rel d) x N s) :
    ((audio_effect_peak_limiter_init pow ths db sr nc atk rel d).numChannels = nc ∧
      (audio_effect_peak_limiter_init pow ths db sr nc atk rel d).delaySize = d ∧
      (audio_effect_peak_limiter_init pow ths db sr nc atk rel d).delayBufferSize = d) ∧
    (s.numChannels = nc ∧ s.delaySize = d ∧ s.delayBufferSize = d) ∧
    (0 ≤ s.numChannels ∧ s.numChannels ≤ MAX_CHANNELS) ∧
    (0 ≤ s.delaySize ∧ s.delaySize ≤ MAX_DELAYSIZE) ∧
    (0 ≤ s.delayBufferSize ∧ s.delayBufferSize ≤ MAX_DELAYSIZE) ∧
    ∀ i j : Int, 0 ≤ i → DB_IDX s i = some j → 0 ≤ j ∧ j < MAX_DELAYSIZE + 1 := by
  obtain ⟨h1, h2, h3⟩ := config_of_fed h
  have e1 : s.numChannels = nc := h1
  have e2 : s.delaySize = d := h2
  have e3 : s.delayBufferSize = d := h3
  refine ⟨⟨rfl, rfl, rfl⟩, ⟨e1, e2, e3⟩, ?_, ?_, ?_, ?_⟩
  · rw [e1]; exact ⟨hnc0, hnc⟩
  · rw [e2]; exact ⟨hd0, hd⟩
  · rw [e3]; exact ⟨hd0, hd⟩
  · intro i j hi hj
    by_cases hz : s.delayBufferSize = 0
    · rw [DB_IDX_of_zero i hz] at hj
      exact absurd hj (by simp)
    · have hpos : 0 < s.delayBufferSize := by
        rw [e3] at hz ⊢
        omega
      rw [DB_IDX_of_nonneg hpos hi] at hj
      simp only [Option.some.injEq] at hj
      have a1 := Int.emod_nonneg i (ne_of_gt hpos)
      have a2 := Int.emod_lt_of_pos i hpos
      rw [hj] at a1 a2
      rw [e3] at a2
      exact ⟨a1, by omega⟩

/-- Witness for C12 over the rationals: one channel and a delay of 3 samples, within
maxima of (for instance) 12 channels and 4096 samples; the limiter after a block of 4
samples with an impulse still has this configuration. -/
theorem init_stores_configuration_witness :
    ∃ (s1 : AudioEffectPeakLimiter ℚ) (out1 : Int → ℚ),
      audio_effect_peak_limiter_process_block
        (audio_effect_peak_limiter_init pow_one blank_limiter 0 1 1 1 4 3)
        (some (fun p => impulse 0 (2 : ℚ) 0 p)) (fun _ => 0) 4 = some (4, s1, out1) ∧
      (s1.numChannels = 1 ∧ s1.delaySize = 3 ∧ s1.delayBufferSize = 3) ∧
      (0 ≤ s1.numChannels ∧ s1.numChannels ≤ 12) ∧
      (0 ≤ s1.delaySize ∧ s1.delaySize ≤ 4096) ∧
      (0 ≤ s1.delayBufferSize ∧ s1.delayBufferSize ≤ 4096) ∧
      ∀ i j : Int, 0 ≤ i → DB_IDX s1 i = some j → 0 ≤ j ∧ j < 4096 + 1 := by
  have hin : ∀ c k, 0 ≤ c →
      c < (audio_effect_peak_limiter_init pow_one blank_limiter 0 1 1 1 4 3).numChannels →
      0 ≤ k → k < 4 →
      (fun p => impulse 0 (2 : ℚ) 0 p) (c * 4 + k) = impulse 0 2 c (0 + k) := by
    intro c k h0 h1 _ _
    have hc : c = 0 := by
      change c < 1 at h1
      omega
    subst hc
    simp [impulse]
  obtain ⟨s1, out1, e, _, _, _⟩ := process_block_spec
    (audio_effect_peak_limiter_init pow_one blank_limiter 0 1 1 1 4 3) (impulse 0 (2 : ℚ)) 0
    _ (fun p => impulse 0 (2 : ℚ) 0 p) (fun _ => 0) 4
    (StreamInv_init pow_one blank_limiter 0 1 1 1 4 3 (by decide) (impulse 0 2)) (by decide) hin
  have hf : Fed (audio_effect_peak_limiter_init pow_one blank_limiter 0 1 1 1 4 3)
      (impulse 0 (2 : ℚ)) (0 + 4) s1 := Fed.block Fed.start (by decide) hin e
  exact ⟨s1, out1, e,
    (init_stores_configuration pow_one blank_limiter 0 1 1 1 4 3 12 4096 (by decide) (by decide)
      (by decide) (by decide) (impulse 0 2) (0 + 4) s1 hf).2⟩

/-- C12, counterexample. Whatever the static maxima are, `init` accepts a delay depth
above the maximum: called with one channel and `delay_size = MAX_DELAYSIZE + 1` it
leaves a limiter with `delaySize = MAX_DELAYSIZE + 1`. -/
theorem init_validates_counterexample :
    ¬ ∃ MAX_CHANNELS MAX_DELAYSIZE : Int, ∀ nc d : Int,
      (audio_effect_peak_limiter_init pow_one blank_limiter 0 48000 nc 1 4 d).delaySize
        ≤ MAX_DELAYSIZE ∧
      (audio_effect_peak_limiter_init pow_one blank_limiter 0 48000 nc 1 4 d).numChannels
        ≤ MAX_CHANNELS := by
  rintro ⟨mc, md, h⟩
  have h1 := (h 1 (md + 1)).1
  have h2 : md + 1 ≤ md := h1
  omega

/-! ## The two halves of `compute_target_gain` (C14, C15) -/

/-- The function `compute_target_gain` is the phase update followed by the peak
test, and it returns the gain of the phase update. -/
theorem cgt_eq_peak_detect (s : AudioEffectPeakLimiter α) (peak : α) :
    compute_target_gain s peak
      = (peak_detect (phase_update s) peak, (phase_update s).currentGain) := by
  unfold compute_target_gain peak_detect phase_update
  dsimp only
  split_ifs <;> rfl

theorem peak_detect_currentGain (s : AudioEffectPeakLimiter α) (peak : α) :
    (peak_detect s peak).currentGain = s.currentGain := by
  unfold peak_detect
  split_ifs <;> rfl

/-- C14. For every state and every peak: when, after the phase update,
`peak * currentGain > linearThreashold`, the call of `compute_target_gain` leaves
`targetStartGain = currentGain` (the gain it returns),
`targetEndGain = linearThreashold / peak` and `currentTC = 0`, whatever the phase of
the envelope; when `peak * currentGain ≤ linearThreashold` it leaves
`targetStartGain` and `targetEndGain` unchanged. -/
theorem retrigger_rule (s : AudioEffectPeakLimiter α) (peak : α) :
    (compute_target_gain s peak).2 = (phase_update s).currentGain ∧
    (compute_target_gain s peak).1.currentGain = (phase_update s).currentGain ∧
    (peak * (phase_update s).currentGain > s.linearThreashold →
      (compute_target_gain s peak).1.targetStartGain = (phase_update s).currentGain ∧
      (compute_target_gain s peak).1.targetEndGain = s.linearThreashold / peak ∧
      (compute_target_gain s peak).1.currentTC = 0) ∧
    (peak * (phase_update s).currentGain ≤ s.linearThreashold →
      (compute_target_gain s peak).1.targetStartGain = s.targetStartGain ∧
      (compute_target_gain s peak).1.targetEndGain = s.targetEndGain) := by
  have hT : (phase_update s).linearThreashold = s.linearThreashold := by
    unfold phase_update
    split_ifs <;> rfl
  have hS : (phase_update s).targetStartGain = s.targetStartGain := by
    unfold phase_update
    split_ifs <;> rfl
  have hE : (phase_update s).targetEndGain = s.targetEndGain := by
    unfold phase_update
    split_ifs <;> rfl
  rw [cgt_eq_peak_detect]
  refine ⟨rfl, peak_detect_currentGain _ _, ?_, ?_⟩
  · intro h
    have h1 : peak * (phase_update s).currentGain > (phase_update s).linearThreashold := by
      rw [hT]; exact h
    show (peak_detect (phase_update s) peak).targetStartGain = _ ∧
      (peak_detect (phase_update s) peak).targetEndGain = _ ∧
      (peak_detect (phase_update s) peak).currentTC = 0
    unfold peak_detect
    rw [if_pos h1]
    exact ⟨rfl, by rw [← hT], rfl⟩
  · intro h
    have h1 : ¬ peak * (phase_update s).currentGain > (phase_update s).linearThreashold := by
      rw [hT]; exact not_lt.mpr h
    show (peak_detect (phase_update s) peak).targetStartGain = _ ∧
      (peak_detect (phase_update s) peak).targetEndGain = _
    unfold peak_detect
    rw [if_neg h1]
    exact ⟨hS, hE⟩

/-- Witness for C14 over the rationals: the idle limiter left by `init` (threshold 1)
and the peak 2, which triggers the envelope. -/
theorem retrigger_rule_witness :
    (compute_target_gain (audio_effect_peak_limiter_init pow_one blank_limiter 0 1 1 1 4 3)
      2).1.targetStartGain
      = (phase_update (audio_effect_peak_limiter_init pow_one blank_limiter 0 1 1 1 4 3)).currentGain ∧
    (compute_target_gain (audio_effect_peak_limiter_init pow_one blank_limiter 0 1 1 1 4 3)
      2).1.targetEndGain
      = (audio_effect_peak_limiter_init pow_one blank_limiter 0 1 1 1 4 3).linearThreashold / 2 ∧
    (compute_target_gain (audio_effect_peak_limiter_init pow_one blank_limiter 0 1 1 1 4 3)
      2).1.currentTC = 0 :=
  (retrigger_rule (audio_effect_peak_limiter_init pow_one blank_limiter 0 1 1 1 4 3) 2).2.2.1
    (by norm_num [phase_update, audio_effect_peak_limiter_init, init_default, pow_one])

/-- C15. For every state and every peak the gain `compute_target_gain` returns is
(a) `targetStartGain - accel(t / attackSec) * (targetStartGain - targetEndGain)` when
the envelope is active and `currentTC < attackSec`, (b)
`targetEndGain + accel((t - attackSec) / releaseSec) * (1 - targetEndGain)` when it is
active and `attackSec ≤ currentTC < attackSec + releaseSec`, and (c) 1 otherwise,
where `t = currentTC + incTC`; in the cases (a) and (b) the phase update (lines 210
and 217) stores the counter `t`, advanced by exactly `incTC`, and in case (c) it
leaves the counter as it is. The counter the whole call leaves is the one of the
phase update unless the peak test of lines 226-230 re-triggers the envelope and
stores 0. -/
theorem two_phase_envelope (s : AudioEffectPeakLimiter α) (peak : α) :
    ((s.currentTC ≠ -1 ∧ s.currentTC < s.attackSec) →
      (compute_target_gain s peak).2
        = s.targetStartGain - curve_accel ((s.currentTC + s.incTC) / s.attackSec) *
            (s.targetStartGain - s.targetEndGain) ∧
      (phase_update s).currentTC = s.currentTC + s.incTC ∧
      (compute_target_gain s peak).1.currentTC
        = (if peak * (compute_target_gain s peak).2 > s.linearThreashold then 0
            else s.currentTC + s.incTC)) ∧
    ((s.currentTC ≠ -1 ∧ s.attackSec ≤ s.currentTC ∧
        s.currentTC < s.attackSec + s.releaseSec) →
      (compute_target_gain s peak).2
        = s.targetEndGain + curve_accel ((s.currentTC + s.incTC - s.attackSec) / s.releaseSec) *
            (1 - s.targetEndGain) ∧
      (phase_update s).currentTC = s.currentTC + s.incTC ∧
      (compute_target_gain s peak).1.currentTC
        = (if peak * (compute_target_gain s peak).2 > s.linearThreashold then 0
            else s.currentTC + s.incTC)) ∧
    ((¬(s.currentTC ≠ -1 ∧ s.currentTC < s.attackSec) ∧
        ¬(s.currentTC ≠ -1 ∧ s.attackSec ≤ s.currentTC ∧
          s.currentTC < s.attackSec + s.releaseSec)) →
      (compute_target_gain s peak).2 = 1 ∧ (phase_update s).currentTC = s.currentTC) ∧
    (compute_target_gain s peak).1.currentTC
      = (if peak * (compute_target_gain s peak).2 > s.linearThreashold then 0
          else (phase_update s).currentTC) := by
  have hT : (phase_update s).linearThreashold = s.linearThreashold := by
    unfold phase_update
    split_ifs <;> rfl
  have hfin : (compute_target_gain s peak).1.currentTC
      = (if peak * (compute_target_gain s peak).2 > s.linearThreashold then 0
          else (phase_update s).currentTC) := by
    rw [cgt_eq_peak_detect]
    dsimp only
    unfold peak_detect
    rw [hT]
    split_ifs <;> rfl
  have hg : (compute_target_gain s peak).2 = (phase_update s).currentGain := by
    rw [cgt_eq_peak_detect]
  refine ⟨?_, ?_, ?_, hfin⟩
  · intro h
    have e : phase_update s
        = { s with
            currentTC := s.currentTC + s.incTC
            currentGain := s.targetStartGain -
              curve_accel ((s.currentTC + s.incTC) / s.attackSec) *
                (s.targetStartGain - s.targetEndGain) } := by
      unfold phase_update
      rw [if_pos h]
    have e1 : (phase_update s).currentTC = s.currentTC + s.incTC := by rw [e]
    refine ⟨by rw [hg, e], e1, ?_⟩
    rw [hfin, e1]
  · rintro ⟨h1, h2, h3⟩
    have c1 : ¬(s.currentTC ≠ -1 ∧ s.currentTC < s.attackSec) :=
      fun hh => absurd hh.2 (not_lt.mpr h2)
    have c2 : s.currentTC ≠ -1 ∧ s.currentTC < s.releaseSec + s.attackSec :=
      ⟨h1, by rw [add_comm]; exact h3⟩
    have e : phase_update s
        = { s with
            currentTC := s.currentTC + s.incTC
            currentGain := s.targetEndGain +
              curve_accel ((s.currentTC + s.incTC - s.attackSec) / s.releaseSec) *
                (1 - s.targetEndGain) } := by
      unfold phase_update
      rw [if_neg c1, if_pos c2]
    have e1 : (phase_update s).currentTC = s.currentTC + s.incTC := by rw [e]
    refine ⟨by rw [hg, e], e1, ?_⟩
    rw [hfin, e1]
  · rintro ⟨h1, h2⟩
    have c2 : ¬(s.currentTC ≠ -1 ∧ s.currentTC < s.releaseSec + s.attackSec) := by
      rintro ⟨a1, a2⟩
      apply h2
      refine ⟨a1, ?_, by rw [add_comm]; exact a2⟩
      by_contra hlt
      exact h1 ⟨a1, not_le.mp hlt⟩
    have e : phase_update s = { s with currentGain := 1 } := by
      unfold phase_update
      rw [if_neg h1, if_neg c2]
    exact ⟨by rw [hg, e], by rw [e]⟩

/-- Witness for C15 over the rationals: an envelope in its attack phase
(`currentTC = 0`, attack of 2 samples) and one in its release phase
(`currentTC = 2`), each called with the peak 0, which does not re-trigger. -/
theorem two_phase_envelope_witness :
    ((compute_target_gain
        { audio_effect_peak_limiter_init pow_one blank_limiter 0 1 1 2 2 3 with
          currentTC := 0, targetStartGain := 1, targetEndGain := 1 / 2 } (0 : ℚ)).2
      = 1 - curve_accel ((0 + 1 / ((1 : Int) : ℚ)) / 2) * (1 - 1 / 2) ∧
      (compute_target_gain
        { audio_effect_peak_limiter_init pow_one blank_limiter 0 1 1 2 2 3 with
          currentTC := 0, targetStartGain := 1, targetEndGain := 1 / 2 } (0 : ℚ)).1.currentTC
      = 0 + 1 / ((1 : Int) : ℚ)) ∧
    ((compute_target_gain
        { audio_effect_peak_limiter_init pow_one blank_limiter 0 1 1 2 2 3 with
          currentTC := 2, targetStartGain := 1, targetEndGain := 1 / 2 } (0 : ℚ)).2
      = 1 / 2 + curve_accel ((2 + 1 / ((1 : Int) : ℚ) - 2) / 2) * (1 - 1 / 2) ∧
      (compute_target_gain
        { audio_effect_peak_limiter_init pow_one blank_limiter 0 1 1 2 2 3 with
          currentTC := 2, targetStartGain := 1, targetEndGain := 1 / 2 } (0 : ℚ)).1.currentTC
      = 2 + 1 / ((1 : Int) : ℚ)) := by
  obtain ⟨a1, _, a3⟩ := (two_phase_envelope
      { audio_effect_peak_limiter_init pow_one blank_limiter 0 1 1 2 2 3 with
        currentTC := 0, targetStartGain := 1, targetEndGain := 1 / 2 } 0).1
      ⟨by norm_num, by norm_num [audio_effect_peak_limiter_init]⟩
  obtain ⟨b1, _, b3⟩ := (two_phase_envelope
      { audio_effect_peak_limiter_init pow_one blank_limiter 0 1 1 2 2 3 with
        currentTC := 2, targetStartGain := 1, targetEndGain := 1 / 2 } 0).2.1
      ⟨by norm_num, by norm_num [audio_effect_peak_limiter_init],
        by norm_num [audio_effect_peak_limiter_init]⟩
  refine ⟨⟨a1, ?_⟩, ⟨b1, ?_⟩⟩
  · rw [a3, if_neg]
    · rfl
    · rw [zero_mul]
      norm_num [audio_effect_peak_limiter_init, pow_one]
  · rw [b3, if_neg]
    · rfl
    · rw [zero_mul]
      norm_num [audio_effect_peak_limiter_init, pow_one]

/-! ## A held peak re-triggers the envelope on every call (C18) -/

/-- The ease curve is positive strictly inside the unit interval. -/
theorem curve_accel_pos {y : α} (h0 : 0 < y) (h1 : y < 1) : 0 < curve_accel y := by
  unfold curve_accel
  rw [if_neg (by linarith)]
  split_ifs with h
  · exact absurd h0 (not_lt.mpr (le_of_lt h))
  · have : (y - 1) ^ 2 < 1 := by nlinarith
    linarith

/-- A call that triggers leaves a freshly triggered envelope. -/
theorem cgt_trigger {s : AudioEffectPeakLimiter α} {p : α}
    (h : p * (compute_target_gain s p).2 > s.linearThreashold) :
    (compute_target_gain s p).1.currentTC = 0 ∧
    (compute_target_gain s p).1.targetStartGain = (compute_target_gain s p).1.currentGain ∧
    (compute_target_gain s p).1.targetEndGain = s.linearThreashold / p := by
  have hT : (phase_update s).linearThreashold = s.linearThreashold := by
    unfold phase_update
    split_ifs <;> rfl
  rw [cgt_eq_peak_detect] at h ⊢
  dsimp only at h ⊢
  have h1 : p * (phase_update s).currentGain > (phase_update s).linearThreashold := by
    rw [hT]; exact h
  unfold peak_detect
  rw [if_pos h1]
  exact ⟨rfl, rfl, by rw [← hT]⟩

/-- The state after `m + 1` calls with a held peak `p` whose first call triggers:
the envelope is freshly triggered towards `linearThreashold / p` and the gain is
still above the threshold for `p`. -/
theorem env_run_retrigger {s : AudioEffectPeakLimiter α} {p : α}
    (hT : 0 < s.linearThreashold) (hinc : 0 < s.incTC) (hlt : s.incTC < s.attackSec)
    (hfirst : p * (compute_target_gain s p).2 > s.linearThreashold) :
    ∀ m : Nat,
      (env_run s (fun _ => p) (m + 1)).currentTC = 0 ∧
      (env_run s (fun _ => p) (m + 1)).targetStartGain
        = (env_run s (fun _ => p) (m + 1)).currentGain ∧
      (env_run s (fun _ => p) (m + 1)).targetEndGain = s.linearThreashold / p ∧
      s.linearThreashold < p * (env_run s (fun _ => p) (m + 1)).currentGain ∧
      (m ≠ 0 →
        (env_run s (fun _ => p) (m + 1)).currentGain
          = (env_run s (fun _ => p) m).currentGain -
              curve_accel (s.incTC / s.attackSec) *
                ((env_run s (fun _ => p) m).currentGain - s.linearThreashold / p)) := by
  have hatk : 0 < s.attackSec := lt_trans hinc hlt
  have hy0 : 0 < s.incTC / s.attackSec := div_pos hinc hatk
  have hy1 : s.incTC / s.attackSec < 1 := by rw [div_lt_one hatk]; exact hlt
  have ha0 := curve_accel_pos hy0 hy1
  have ha1 := curve_accel_lt_one hy1
  have hp0 : p ≠ 0 := by
    intro h0
    rw [h0, zero_mul] at hfirst
    exact absurd hfirst (not_lt.mpr (le_of_lt hT))
  intro m
  induction m with
  | zero =>
    obtain ⟨a, b, c⟩ := cgt_trigger hfirst
    exact ⟨a, b, c, hfirst, fun h => absurd rfl h⟩
  | succ m ih =>
    obtain ⟨a, b, c, d, _⟩ := ih
    have e1 : (env_run s (fun _ => p) (m + 1)).linearThreashold = s.linearThreashold :=
      env_run_linearThreashold _ _ _
    have e2 : (env_run s (fun _ => p) (m + 1)).incTC = s.incTC := env_run_incTC _ _ _
    have e3 : (env_run s (fun _ => p) (m + 1)).attackSec = s.attackSec := env_run_attackSec _ _ _
    have key : p * ((env_run s (fun _ => p) (m + 1)).currentGain -
        curve_accel (s.incTC / s.attackSec) *
          ((env_run s (fun _ => p) (m + 1)).currentGain - s.linearThreashold / p))
        = s.linearThreashold + (1 - curve_accel (s.incTC / s.attackSec)) *
            (p * (env_run s (fun _ => p) (m + 1)).currentGain - s.linearThreashold) := by
      field_simp
      ring
    have hgt : s.linearThreashold < p * ((env_run s (fun _ => p) (m + 1)).currentGain -
        curve_accel (s.incTC / s.attackSec) *
          ((env_run s (fun _ => p) (m + 1)).currentGain - s.linearThreashold / p)) := by
      rw [key]
      have : 0 < (1 - curve_accel (s.incTC / s.attackSec)) *
            (p * (env_run s (fun _ => p) (m + 1)).currentGain - s.linearThreashold) :=
        mul_pos (by linarith) (by linarith)
      linarith
    have step := @cgt_hold α _ (env_run s (fun _ => p) (m + 1)) p a (by rw [e3]; exact hatk) b
      (by rw [c, e1]) (by rw [e1, e2, e3]; exact hgt)
    rw [e1, e2, e3] at step
    have hs : env_run s (fun _ => p) (m + 1 + 1)
        = (compute_target_gain (env_run s (fun _ => p) (m + 1)) p).1 := rfl
    rw [hs, step]
    exact ⟨rfl, rfl, rfl, hgt, fun _ => rfl⟩

/-- C18. With `linearThreashold = T > 0` and `0 < incTC < attackSec`, when
`compute_target_gain` is called repeatedly with one peak `p` from any state and the
first call triggers (`p * g 0 > T` for the gain `g 0` it returns), then for the gain
`g m` returned by call number `m`: every call leaves `currentTC = 0` (it re-triggers,
so the attack phase never completes), `p * g m > T`,
`g (m + 1) - T / p = (1 - accel (incTC / attackSec)) * (g m - T / p)` with
`0 < accel (incTC / attackSec) < 1`, and `g m` differs from the target `T / p` that
every call stores in `targetEndGain`. -/
theorem perpetual_retrigger (s : AudioEffectPeakLimiter α) (p : α)
    (hT : 0 < s.linearThreashold) (hinc : 0 < s.incTC) (hlt : s.incTC < s.attackSec)
    (hfirst : p * (compute_target_gain s p).2 > s.linearThreashold) (m : Nat) :
    (env_run s (fun _ => p) (m + 1)).currentTC = 0 ∧
    (env_run s (fun _ => p) (m + 1)).currentTC < s.attackSec ∧
    p * (compute_target_gain (env_run s (fun _ => p) m) p).2 > s.linearThreashold ∧
    (compute_target_gain (env_run s (fun _ => p) (m + 1)) p).2 - s.linearThreashold / p
      = (1 - curve_accel (s.incTC / s.attackSec)) *
          ((compute_target_gain (env_run s (fun _ => p) m) p).2 - s.linearThreashold / p) ∧
    0 < curve_accel (s.incTC / s.attackSec) ∧ curve_accel (s.incTC / s.attackSec) < 1 ∧
    (env_run s (fun _ => p) (m + 1)).targetEndGain = s.linearThreashold / p ∧
    (compute_target_gain (env_run s (fun _ => p) m) p).2
      ≠ (env_run s (fun _ => p) (m + 1)).targetEndGain := by
  have hatk : 0 < s.attackSec := lt_trans hinc hlt
  have hy0 : 0 < s.incTC / s.attackSec := div_pos hinc hatk
  have hy1 : s.incTC / s.attackSec < 1 := by rw [div_lt_one hatk]; exact hlt
  have hp0 : p ≠ 0 := by
    intro h0
    rw [h0, zero_mul] at hfirst
    exact absurd hfirst (not_lt.mpr (le_of_lt hT))
  obtain ⟨a, _, c, d, _⟩ := env_run_retrigger hT hinc hlt hfirst m
  obtain ⟨_, _, _, _, r⟩ := env_run_retrigger hT hinc hlt hfirst (m + 1)
  have g0 : (compute_target_gain (env_run s (fun _ => p) m) p).2
      = (env_run s (fun _ => p) (m + 1)).currentGain := rfl
  have g1 : (compute_target_gain (env_run s (fun _ => p) (m + 1)) p).2
      = (env_run s (fun _ => p) (m + 1 + 1)).currentGain := rfl
  refine ⟨a, by rw [a]; exact hatk, by rw [g0]; exact d, ?_, curve_accel_pos hy0 hy1,
    curve_accel_lt_one hy1, c, ?_⟩
  · rw [g1, g0, r (Nat.succ_ne_zero m)]
    ring
  · rw [g0, c]
    intro h
    rw [h, mul_div_cancel₀ _ hp0] at d
    exact lt_irrefl _ d

/-- Witness for C18 over the rationals: the idle limiter left by `init` (threshold 1,
sample rate 1, attack of 4 samples) and the held peak 2; calls 3 and 4. -/
theorem perpetual_retrigger_witness :
    (env_run (audio_effect_peak_limiter_init pow_one blank_limiter 0 1 1 4 4 3)
      (fun _ => (2 : ℚ)) (3 + 1)).currentTC = 0 ∧
    (2 : ℚ) * (compute_target_gain
      (env_run (audio_effect_peak_limiter_init pow_one blank_limiter 0 1 1 4 4 3)
        (fun _ => (2 : ℚ)) 3) 2).2
      > (audio_effect_peak_limiter_init pow_one blank_limiter 0 1 1 4 4 3).linearThreashold :=
  ⟨(perpetual_retrigger (audio_effect_peak_limiter_init pow_one blank_limiter 0 1 1 4 4 3) 2
      (by norm_num [audio_effect_peak_limiter_init, pow_one])
      (by norm_num [audio_effect_peak_limiter_init, init_default])
      (by norm_num [audio_effect_peak_limiter_init, init_default])
      (by norm_num [compute_target_gain, audio_effect_peak_limiter_init, init_default, pow_one])
      3).1,
   (perpetual_retrigger (audio_effect_peak_limiter_init pow_one blank_limiter 0 1 1 4 4 3) 2
      (by norm_num [audio_effect_peak_limiter_init, pow_one])
      (by norm_num [audio_effect_peak_limiter_init, init_default])
      (by norm_num [audio_effect_peak_limiter_init, init_default])
      (by norm_num [compute_target_gain, audio_effect_peak_limiter_init, init_default, pow_one])
      3).2.2.1⟩

/-! ## The output bound in each phase of the envelope (C1) -/

/-- The look-ahead peaks of the example with a delay of one sample: the stream
with the samples `2` at index 0 and `4` at index 2. -/
theorem delay_one_peaks :
    lookahead_peak (fun _ m => if m = 0 then (2 : ℚ) else if m = 2 then 4 else 0) 1 1
      ((0 : Nat) : Int) = 0 ∧
    lookahead_peak (fun _ m => if m = 0 then (2 : ℚ) else if m = 2 then 4 else 0) 1 1
      ((0 + 1 : Nat) : Int) = 2 ∧
    lookahead_peak (fun _ m => if m = 0 then (2 : ℚ) else if m = 2 then 4 else 0) 1 1
      ((0 + 1 + 1 : Nat) : Int) = 0 ∧
    lookahead_peak (fun _ m => if m = 0 then (2 : ℚ) else if m = 2 then 4 else 0) 1 1
      ((0 + 1 + 1 + 1 : Nat) : Int) = 4 := by
  refine ⟨?_, ?_, ?_, ?_⟩ <;>
    norm_num [lookahead_peak, sample_peak, run_max, stream_at]

/-- The envelope of the example with a delay of one sample (threshold 1, attack of
one sample, release of 4 samples): after the samples 0 to 2 the attack phase is over
(`currentTC = 1 = attackSec`), and the gain computed for sample 3 is `23/32`. -/
theorem delay_one_env :
    (env_run (audio_effect_peak_limiter_init pow_one blank_limiter 0 1 1 1 4 1)
      (lookahead_peak (fun _ m => if m = 0 then (2 : ℚ) else if m = 2 then 4 else 0) 1 1)
      3).currentTC = 1 ∧
    (env_run (audio_effect_peak_limiter_init pow_one blank_limiter 0 1 1 1 4 1)
      (lookahead_peak (fun _ m => if m = 0 then (2 : ℚ) else if m = 2 then 4 else 0) 1 1)
      4).currentGain = 23 / 32 := by
  obtain ⟨p0, p1, p2, p3⟩ := delay_one_peaks
  have e2 : env_run (audio_effect_peak_limiter_init pow_one blank_limiter 0 1 1 1 4 1)
      (lookahead_peak (fun _ m => if m = 0 then (2 : ℚ) else if m = 2 then 4 else 0) 1 1)
      (0 + 1 + 1)
      = { audio_effect_peak_limiter_init pow_one blank_limiter 0 1 1 1 4 1 with
          currentGain := 1, targetStartGain := 1, targetEndGain := 1 / 2, currentTC := 0 } := by
    rw [env_run_succ, env_run_succ, p0, p1]
    show (compute_target_gain (compute_target_gain
      (audio_effect_peak_limiter_init pow_one blank_limiter 0 1 1 1 4 1) 0).1 2).1 = _
    rw [@cgt_idle ℚ _ (audio_effect_peak_limiter_init pow_one blank_limiter 0 1 1 1 4 1) 0
      rfl rfl (by norm_num [audio_effect_peak_limiter_init, pow_one])]
    rw [@cgt_idle_trigger ℚ _ (audio_effect_peak_limiter_init pow_one blank_limiter 0 1 1 1 4 1)
      2 rfl (by norm_num [audio_effect_peak_limiter_init, pow_one])]
    rfl
  have e3 : env_run (audio_effect_peak_limiter_init pow_one blank_limiter 0 1 1 1 4 1)
      (lookahead_peak (fun _ m => if m = 0 then (2 : ℚ) else if m = 2 then 4 else 0) 1 1)
      (0 + 1 + 1 + 1)
      = { audio_effect_peak_limiter_init pow_one blank_limiter 0 1 1 1 4 1 with
          currentGain := 1 / 2, targetStartGain := 1, targetEndGain := 1 / 2,
          currentTC := 1 } := by
    rw [env_run_succ, e2, p2]
    norm_num [compute_target_gain, audio_effect_peak_limiter_init, init_default, pow_one,
      curve_accel]
  constructor
  · show (env_run _ _ (0 + 1 + 1 + 1)).currentTC = 1
    rw [e3]
  · show (env_run _ _ (0 + 1 + 1 + 1 + 1)).currentGain = 23 / 32
    rw [env_run_succ, e3, p3]
    norm_num [compute_target_gain, audio_effect_peak_limiter_init, init_default, pow_one,
      curve_accel]

/-- With a delay of one sample the emitted sample enters the look-ahead window at the
very call that emits it. Threshold 1, attack of one sample, release of 4 samples, one
channel, the block `2, 0, 4, 0`: sample 3 is processed in the release phase
(`currentTC = 1 = attackSec` before it) and emits the sample `4` as `23/8`, above
`(1 - 7/16) * 1 + 7/16 * 4 = 37/16`. -/
theorem delay_one_example :
    ∃ (s3 : AudioEffectPeakLimiter ℚ) (ab3 : Int → ℚ) (s1 : AudioEffectPeakLimiter ℚ)
      (out1 : Int → ℚ),
      sample_loop (fun p => if p = 0 then (2 : ℚ) else if p = 2 then 4 else 0) 4 3 0
        (audio_effect_peak_limiter_init pow_one blank_limiter 0 1 1 1 4 1) (fun _ => 0)
        = some (s3, ab3) ∧
      s3.currentTC = 1 ∧
      audio_effect_peak_limiter_process_block
        (audio_effect_peak_limiter_init pow_one blank_limiter 0 1 1 1 4 1)
        (some (fun p => if p = 0 then (2 : ℚ) else if p = 2 then 4 else 0)) (fun _ => 0) 4
        = some (4, s1, out1) ∧
      out1 3 = 23 / 8 ∧
      (1 - curve_accel (((1 : ℚ) + 1 / ((1 : Int) : ℚ) - 1) / 4)) * pow_one 10 (0 / 20)
          + curve_accel (((1 : ℚ) + 1 / ((1 : Int) : ℚ) - 1) / 4) * |(4 : ℚ)| < |out1 3| := by
  have hin : ∀ c k, 0 ≤ c →
      c < (audio_effect_peak_limiter_init pow_one blank_limiter 0 1 1 1 4 1).numChannels →
      0 ≤ k → k < 4 →
      (fun p => if p = 0 then (2 : ℚ) else if p = 2 then 4 else 0) (c * 4 + k)
        = (fun (_ : Int) (m : Int) => if m = 0 then (2 : ℚ) else if m = 2 then 4 else 0) c
            (0 + k) := by
    intro c k h0 h1 _ _
    have hc : c = 0 := by
      change c < 1 at h1
      omega
    subst hc
    simp
  have hinv := StreamInv_init pow_one blank_limiter 0 1 1 1 4 1 (by decide)
    (fun (_ : Int) (m : Int) => if m = 0 then (2 : ℚ) else if m = 2 then 4 else 0)
  obtain ⟨s3, ab3, hl, _, _, hse, _⟩ :=
    block_prefix_spec _
      (fun (_ : Int) (m : Int) => if m = 0 then (2 : ℚ) else if m = 2 then 4 else 0) 0 _
      (fun p => if p = 0 then (2 : ℚ) else if p = 2 then 4 else 0) (fun _ => 0) 4 hinv hin 3 (by decide)
  obtain ⟨s1, out1, e, _, hout, _⟩ :=
    process_block_spec _
      (fun (_ : Int) (m : Int) => if m = 0 then (2 : ℚ) else if m = 2 then 4 else 0) 0 _
      (fun p => if p = 0 then (2 : ℚ) else if p = 2 then 4 else 0) (fun _ => 0) 4 hinv (by decide) hin
  obtain ⟨h3, h4⟩ := delay_one_env
  have ho : out1 3 = 23 / 8 := by
    have := hout 0 3 (le_refl 0) (by decide) (by decide) (by decide)
    have h4b : (env_run (audio_effect_peak_limiter_init pow_one blank_limiter 0 1 1 1 4 1)
        (lookahead_peak (fun (_ : Int) (m : Int) => if m = 0 then (2 : ℚ) else if m = 2 then 4 else 0)
          (audio_effect_peak_limiter_init pow_one blank_limiter 0 1 1 1 4 1).numChannels
          (audio_effect_peak_limiter_init pow_one blank_limiter 0 1 1 1 4 1).delaySize)
        ((0 : Int) + 3 + 1).toNat).currentGain = 23 / 32 := h4
    rw [h4b] at this
    have e0 : (0 : Int) * 4 + 3 = 3 := by norm_num
    rw [e0] at this
    rw [this]
    norm_num [stream_at, audio_effect_peak_limiter_init]
  refine ⟨s3, ab3, s1, out1, hl, ?_, e, ho, ?_⟩
  · rw [sameEnv_currentTC hse]
    exact h3
  · rw [ho]
    have hacc : curve_accel (((1 : ℚ) + 1 / ((1 : Int) : ℚ) - 1) / 4) = 7 / 16 := by
      unfold curve_accel
      norm_num
    rw [hacc, abs_of_pos (by norm_num : (0 : ℚ) < 23 / 8)]
    norm_num [pow_one]

/-! ## The cached look-ahead maximum and the rescan (C16) -/

/-- The peak a sample passes to `compute_target_gain` is the one `cached_peak`
finds, on the limiter with the position `cached_peak` leaves. -/
theorem sample_body_cached_peak {inb : Int → α} {fs k : Int} {s s1 : AudioEffectPeakLimiter α}
    {ab ab1 : Int → α} (h : sample_body inb fs k s ab = some (s1, ab1)) :
    ∃ (pk : α) (pp : Int),
      cached_peak s (k + s.entryIndex) = some (pk, pp) ∧
      s1 = { (compute_target_gain { s with peak_pos := pp } pk).1 with
              delayData := s1.delayData, peak_pos := s1.peak_pos, peakData := s1.peakData } := by
  unfold sample_body at h
  dsimp only at h
  split at h
  · exact absurd h (by simp)
  · rename_i peak pp hsc
    split at h
    · exact absurd h (by simp)
    · rename_i s3 ab3 pm hcl
      split at h
      · exact absurd h (by simp)
      · rename_i j hj
        simp only [Option.some.injEq, Prod.mk.injEq] at h
        refine ⟨peak, pp, hsc, ?_⟩
        have h3 := channel_loop_frame _ _ _ _ _ _ _ _ _ _ _ _ _ hcl
        rw [← h.1]
        dsimp only
        rw [h3]

/-- The scan of the whole window, on a limiter whose buffers hold the window before
sample `n`: it finds the running maximum of the scanned slots, which is the
look-ahead peak of sample `n`. -/
theorem old_code_peak_spec (x : Int → Int → α) (s : AudioEffectPeakLimiter α) (n idx : Int)
    (hinv : BufInv x s n) (hidx : 0 ≤ idx) (hmod : idx % s.delaySize = n % s.delaySize) :
    old_code_peak s idx
      = some (run_max (fun i => s.peakData ((i + idx) % s.delayBufferSize)) s.delaySize.toNat 0 0) ∧
    run_max (fun i => s.peakData ((i + idx) % s.delayBufferSize)) s.delaySize.toNat 0 0
      = lookahead_peak x s.numChannels s.delaySize n := by
  obtain ⟨hD, hdbs, hpk, _, _⟩ := hinv
  have hdbs0 : 0 < s.delayBufferSize := by rw [hdbs]; exact hD
  constructor
  · obtain ⟨pp1, e1, _⟩ := scan_loop_spec s idx hdbs0 hidx s.delaySize.toNat 0 0 s.peak_pos
      (le_refl 0)
    unfold old_code_peak
    rw [e1]
    rfl
  · unfold lookahead_peak
    apply run_max_congr
    intro j h1 h2
    dsimp only
    rw [hdbs, emod_shift j hmod]
    exact hpk _ (by omega) (by omega)

/-- C16. After `init` with `delay_size = d > 0`, on a limiter that has been fed the
first `N` samples of a stream in blocks of any sizes, at every sample `j` of a
further call of `process_block` (the limiter `sj` after the first `j` samples of the
call, with `idx = j + entryIndex`): the peak the cached-position path passes to
`compute_target_gain` equals the peak the full rescan of the `OLD_CODE` build finds,
which is the maximum of `peakData` over the `delaySize` positions
`(i + idx) % delayBufferSize`, and the cached position is `-1` or a position of the
window that holds this maximum. -/
theorem cached_peak_eq_rescan (pow : α → α → α) (ths : AudioEffectPeakLimiter α) (db : α)
    (sr nc : Int) (atk rel : α) (d : Int) (hd : 0 < d) (x : Int → Int → α) (N : Int)
    (s : AudioEffectPeakLimiter α)
    (hfed : Fed (audio_effect_peak_limiter_init pow ths db sr nc atk rel d) x N s)
    (inb outblock : Int → α) (fs : Int)
    (hin : ∀ c k, 0 ≤ c → c < nc → 0 ≤ k → k < fs → inb (c * fs + k) = x c (N + k))
    (j : Nat) (hj : (j : Int) ≤ fs) :
    ∃ (sj : AudioEffectPeakLimiter α) (abj : Int → α),
      sample_loop inb fs j 0 s outblock = some (sj, abj) ∧
      sj.delaySize = d ∧ sj.delayBufferSize = d ∧
      (cached_peak sj (j + sj.entryIndex)).map Prod.fst = old_code_peak sj (j + sj.entryIndex) ∧
      old_code_peak sj (j + sj.entryIndex)
        = some (run_max (fun i => sj.peakData ((i + (j + sj.entryIndex)) % sj.delayBufferSize))
            sj.delaySize.toNat 0 0) ∧
      (sj.peak_pos = -1 ∨
        ((∃ i, 0 ≤ i ∧ i < sj.delaySize ∧
            sj.peak_pos = (i + (j + sj.entryIndex)) % sj.delayBufferSize) ∧
          sj.peakData sj.peak_pos
            = run_max (fun i => sj.peakData ((i + (j + sj.entryIndex)) % sj.delayBufferSize))
                sj.delaySize.toNat 0 0)) := by
  have hinv := StreamInv_of_fed (StreamInv_init pow ths db sr nc atk rel d hd x) hfed
  have hC : s.numChannels = nc := StreamInv_numChannels hinv
  have hD : s.delaySize = d := StreamInv_delaySize hinv
  have hN : 0 ≤ N := hinv.1
  have hE : s.entryIndex = N % s.delaySize := hinv.2.2.1
  have hin1 : ∀ c k, 0 ≤ c → c < s.numChannels → 0 ≤ k → k < fs →
      inb (c * fs + k) = x c (N + k) := by
    rw [hC]; exact hin
  obtain ⟨sj, abj, hl, hbuf, hej, hse, _⟩ :=
    block_prefix_spec _ x N s inb outblock fs hinv hin1 j hj
  have hDj : sj.delaySize = d := by rw [sameEnv_delaySize hse, env_run_delaySize]; rfl
  have hdbs : sj.delayBufferSize = sj.delaySize := hbuf.2.1
  have hd0 : (0 : Int) < sj.delaySize := hbuf.1
  have hidx : 0 ≤ (j : Int) + sj.entryIndex := by
    rw [hej, hE, hD]
    have := Int.emod_nonneg N (ne_of_gt hd)
    omega
  have hmod : ((j : Int) + sj.entryIndex) % sj.delaySize = (N + j) % sj.delaySize := by
    rw [hej, hE, hD, hDj, Int.add_emod_emod, add_comm]
  obtain ⟨ho1, ho2⟩ := old_code_peak_spec x sj (N + j) _ hbuf hidx hmod
  obtain ⟨pp1, hc, _⟩ := lookahead_step_spec x sj (N + j) _ hbuf hidx hmod
  have hcp : cached_peak sj (j + sj.entryIndex)
      = some (lookahead_peak x sj.numChannels sj.delaySize (N + j), pp1) := hc
  refine ⟨sj, abj, hl, hDj, by rw [hdbs, hDj], ?_, ho1, ?_⟩
  · rw [hcp, ho1, ho2]
    rfl
  · rcases hbuf.2.2.2.2 with h | ⟨m, m1, m2, m3, _⟩
    · exact Or.inl h
    · right
      have hnn : ¬ sj.peak_pos < 0 := by
        have := Int.emod_nonneg m (ne_of_gt hd0)
        omega
      constructor
      · refine ⟨m - (N + j - sj.delaySize), by omega, by omega, ?_⟩
        rw [hdbs, emod_shift _ hmod, m3]
        congr 1
        ring
      · unfold cached_peak at hcp
        rw [if_neg hnn] at hcp
        simp only [Option.some.injEq, Prod.mk.injEq] at hcp
        rw [hcp.1, ho2]

/-- Witness for C16 over the rationals: `delay_size = 3`, one channel, the stream
with an impulse of amplitude 2 at sample 0, after 2 samples of the first block. -/
theorem cached_peak_eq_rescan_witness :
    ∃ (sj : AudioEffectPeakLimiter ℚ) (abj : Int → ℚ),
      sample_loop (fun p => impulse 0 (2 : ℚ) 0 p) 4 2 0
        (audio_effect_peak_limiter_init pow_one blank_limiter 0 1 1 1 4 3) (fun _ => 0)
        = some (sj, abj) ∧
      sj.delaySize = 3 ∧ sj.delayBufferSize = 3 ∧
      (cached_peak sj (((2 : Nat) : Int) + sj.entryIndex)).map Prod.fst
        = old_code_peak sj (((2 : Nat) : Int) + sj.entryIndex) ∧
      old_code_peak sj (((2 : Nat) : Int) + sj.entryIndex)
        = some (run_max
            (fun i => sj.peakData ((i + (((2 : Nat) : Int) + sj.entryIndex)) % sj.delayBufferSize))
            sj.delaySize.toNat 0 0) ∧
      (sj.peak_pos = -1 ∨
        ((∃ i, 0 ≤ i ∧ i < sj.delaySize ∧
            sj.peak_pos = (i + (((2 : Nat) : Int) + sj.entryIndex)) % sj.delayBufferSize) ∧
          sj.peakData sj.peak_pos
            = run_max
                (fun i => sj.peakData ((i + (((2 : Nat) : Int) + sj.entryIndex))
                  % sj.delayBufferSize))
                sj.delaySize.toNat 0 0)) :=
  cached_peak_eq_rescan pow_one blank_limiter 0 1 1 1 4 3 (by decide) (impulse 0 2) 0 _
    Fed.start (fun p => impulse 0 (2 : ℚ) 0 p) (fun _ => 0) 4
    (fun c k h0 h1 _ _ => by
      have hc : c = 0 := by omega
      subst hc
      simp [impulse])
    2 (by decide)

/-! ## The peak history (C17) -/

/-- The channel loop never lowers `peakMax`. -/
theorem channel_loop_peakMax_ge (inb : Int → α) (fs k idx : Int) (g : α) :
    ∀ (n : Nat) (c : Int) (s : AudioEffectPeakLimiter α) (ab : Int → α) (pm : α)
      (s1 : AudioEffectPeakLimiter α) (ab1 : Int → α) (pm1 : α),
      channel_loop inb fs k idx g n c s ab pm = some (s1, ab1, pm1) → pm ≤ pm1 := by
  intro n
  induction n with
  | zero =>
    intro c s ab pm s1 ab1 pm1 h
    simp only [channel_loop, Option.some.injEq, Prod.mk.injEq] at h
    rw [← h.2.2]
  | succ n ih =>
    intro c s ab pm s1 ab1 pm1 h
    unfold channel_loop at h
    dsimp only at h
    split_ifs at h with hd
    · split at h
      · exact absurd h (by simp)
      · refine le_trans ?_ (ih _ _ _ _ _ _ _ h)
        split_ifs with hgt
        · exact le_of_lt hgt
        · exact le_refl _
    · split at h
      · exact absurd h (by simp)
      · refine le_trans ?_ (ih _ _ _ _ _ _ _ h)
        split_ifs with hgt
        · exact le_of_lt hgt
        · exact le_refl _

/-- One sample stores a value that is not negative into `peakData` and leaves the
other entries as they were. -/
theorem sample_body_peakData_nonneg {inb : Int → α} {fs k : Int}
    {s s1 : AudioEffectPeakLimiter α} {ab ab1 : Int → α}
    (h : sample_body inb fs k s ab = some (s1, ab1)) (hs : ∀ i, 0 ≤ s.peakData i) :
    ∀ i, 0 ≤ s1.peakData i := by
  unfold sample_body at h
  dsimp only at h
  split at h
  · exact absurd h (by simp)
  · rename_i peak pp hsc
    split at h
    · exact absurd h (by simp)
    · rename_i s3 ab3 pm hcl
      split at h
      · exact absurd h (by simp)
      · rename_i j hj
        simp only [Option.some.injEq, Prod.mk.injEq] at h
        have h3 := channel_loop_frame _ _ _ _ _ _ _ _ _ _ _ _ _ hcl
        have hpm : (0 : α) ≤ pm := channel_loop_peakMax_ge _ _ _ _ _ _ _ _ _ _ _ _ _ hcl
        have hpd : s3.peakData = s.peakData := by
          rw [h3]
          show (compute_target_gain { s with peak_pos := pp } peak).1.peakData = s.peakData
          rw [cgt_peakData]
        intro i
        rw [← h.1]
        show 0 ≤ Function.update s3.peakData j pm i
        by_cases hi : i = j
        · rw [hi, Function.update_same]
          exact hpm
        · rw [Function.update_noteq hi, hpd]
          exact hs i

theorem sample_loop_peakData_nonneg (inb : Int → α) (fs : Int) :
    ∀ (n : Nat) (k : Int) (s s1 : AudioEffectPeakLimiter α) (ab ab1 : Int → α),
      sample_loop inb fs n k s ab = some (s1, ab1) → (∀ i, 0 ≤ s.peakData i) →
        ∀ i, 0 ≤ s1.peakData i := by
  intro n
  induction n with
  | zero =>
    intro k s s1 ab ab1 h hs
    simp only [sample_loop, Option.some.injEq, Prod.mk.injEq] at h
    rw [← h.1]
    exact hs
  | succ n ih =>
    intro k s s1 ab ab1 h hs
    unfold sample_loop at h
    split at h
    · exact absurd h (by simp)
    · rename_i s2 ab2 hb
      exact ih _ _ _ _ _ h (sample_body_peakData_nonneg hb hs)

theorem process_block_peakData_nonneg {s s1 : AudioEffectPeakLimiter α}
    {inblock : Option (Int → α)} {outblock out1 : Int → α} {fs r : Int}
    (h : audio_effect_peak_limiter_process_block s inblock outblock fs = some (r, s1, out1))
    (hs : ∀ i, 0 ≤ s.peakData i) : ∀ i, 0 ≤ s1.peakData i := by
  unfold audio_effect_peak_limiter_process_block at h
  cases inblock with
  | none =>
    simp only [Option.some.injEq, Prod.mk.injEq] at h
    rw [← h.2.1]
    exact hs
  | some inb =>
    dsimp only at h
    split at h
    · exact absurd h (by simp)
    · rename_i s2 ab2 hl
      have h2 := sample_loop_peakData_nonneg _ _ _ _ _ _ _ _ hl hs
      split_ifs at h
      · split at h
        · exact absurd h (by simp)
        · simp only [Option.some.injEq, Prod.mk.injEq] at h
          rw [← h.2.1]
          exact h2
      · simp only [Option.some.injEq, Prod.mk.injEq] at h
        rw [← h.2.1]
        exact h2

/-- No entry of `peakData` is negative in a state reachable from one where none is. -/
theorem peakData_nonneg_of_reachable {s0 s : AudioEffectPeakLimiter α}
    (h0 : ∀ i, 0 ≤ s0.peakData i) (h : Reachable s0 s) : ∀ i, 0 ≤ s.peakData i := by
  induction h with
  | start => exact h0
  | block _ hb ih => exact process_block_peakData_nonneg hb ih
  | samples _ _ hl ih => exact sample_loop_peakData_nonneg _ _ _ _ _ _ _ _ hl ih

theorem reachable_of_fed {s0 s : AudioEffectPeakLimiter α} {x : Int → Int → α} {N : Int}
    (h : Fed s0 x N s) : Reachable s0 s := by
  induction h with
  | start => exact Reachable.start
  | block _ _ _ hb ih => exact Reachable.block ih hb

/-- On a limiter whose buffers hold a window of the stream, every slot of `peakData`
holds the largest magnitude over the channels of the same slot of the delay lines. -/
theorem BufInv_peakData_channel_max {x : Int → Int → α} {s : AudioEffectPeakLimiter α} {n : Int}
    (hinv : BufInv x s n) (j : Int) (hj0 : 0 ≤ j) (hj1 : j < s.delaySize) :
    s.peakData j = run_max (fun c => |s.delayData c j|) s.numChannels.toNat 0 0 := by
  obtain ⟨hD, _, hpk, hdl, _⟩ := hinv
  have hr0 := Int.emod_nonneg (j - (n - s.delaySize)) (ne_of_gt hD)
  have hr1 := Int.emod_lt_of_pos (j - (n - s.delaySize)) hD
  have hm : (n - s.delaySize + (j - (n - s.delaySize)) % s.delaySize) % s.delaySize = j := by
    rw [Int.add_emod_emod]
    have : n - s.delaySize + (j - (n - s.delaySize)) = j := by ring
    rw [this]
    exact Int.emod_eq_of_lt hj0 hj1
  have e1 := hpk (n - s.delaySize + (j - (n - s.delaySize)) % s.delaySize) (by omega) (by omega)
  rw [hm] at e1
  rw [e1]
  unfold sample_peak
  apply run_max_congr
  intro c h1 h2
  dsimp only
  have e2 := hdl c (n - s.delaySize + (j - (n - s.delaySize)) % s.delaySize) h1 (by omega)
    (by omega) (by omega)
  rw [hm] at e2
  rw [e2]

/-- C17. After `init` with `delay_size = d > 0` (true-peak metering off), on a limiter
`s` that has been fed the first `N` samples of a stream in blocks of any sizes, and
for sample `k` of a further call of `process_block`: the limiter `sk` after that
sample exists, the slot written by the sample is `(N + k) % d`, `peakData` there is
the largest magnitude over the channels of the raw input samples `inb (c * fs + k)`,
which the delay lines hold in the same slot; in `s` and in `sk`, for every slot
`j < d`, `peakData j` is the largest `|delayData c j|` over the channels
`c < numChannels`, and no entry of `peakData` is negative. -/
theorem peakData_channel_max (pow : α → α → α) (ths : AudioEffectPeakLimiter α) (db : α)
    (sr nc : Int) (atk rel : α) (d : Int) (hd : 0 < d) (x : Int → Int → α) (N : Int)
    (s : AudioEffectPeakLimiter α)
    (hfed : Fed (audio_effect_peak_limiter_init pow ths db sr nc atk rel d) x N s)
    (inb outblock : Int → α) (fs : Int)
    (hin : ∀ c k, 0 ≤ c → c < nc → 0 ≤ k → k < fs → inb (c * fs + k) = x c (N + k))
    (k : Int) (hk0 : 0 ≤ k) (hk1 : k < fs) :
    ((∀ j, 0 ≤ j → j < d →
        s.peakData j = run_max (fun c => |s.delayData c j|) nc.toNat 0 0) ∧
      ∀ i, 0 ≤ s.peakData i) ∧
    ∃ (sk : AudioEffectPeakLimiter α) (abk : Int → α),
      sample_loop inb fs (k + 1).toNat 0 s outblock = some (sk, abk) ∧
      DB_IDX sk (k + sk.entryIndex) = some ((N + k) % d) ∧
      sk.peakData ((N + k) % d) = run_max (fun c => |inb (c * fs + k)|) nc.toNat 0 0 ∧
      (∀ c, 0 ≤ c → c < nc → sk.delayData c ((N + k) % d) = inb (c * fs + k)) ∧
      (∀ j, 0 ≤ j → j < d →
        sk.peakData j = run_max (fun c => |sk.delayData c j|) nc.toNat 0 0) ∧
      ∀ i, 0 ≤ sk.peakData i := by
  have hinv := StreamInv_of_fed (StreamInv_init pow ths db sr nc atk rel d hd x) hfed
  have hC : s.numChannels = nc := StreamInv_numChannels hinv
  have hD : s.delaySize = d := StreamInv_delaySize hinv
  have hN : 0 ≤ N := hinv.1
  have hE : s.entryIndex = N % s.delaySize := hinv.2.2.1
  have hnn : ∀ i, 0 ≤ s.peakData i :=
    peakData_nonneg_of_reachable (fun _ => le_refl (0 : α)) (reachable_of_fed hfed)
  have hin1 : ∀ c k, 0 ≤ c → c < s.numChannels → 0 ≤ k → k < fs →
      inb (c * fs + k) = x c (N + k) := by
    rw [hC]; exact hin
  refine ⟨⟨?_, hnn⟩, ?_⟩
  · intro j hj0 hj1
    have := BufInv_peakData_channel_max hinv.2.1 j hj0 (by rw [hD]; exact hj1)
    rw [hC] at this
    exact this
  obtain ⟨sk, abk, hl, hbuf, hek, hse, _⟩ :=
    block_prefix_spec _ x N s inb outblock fs hinv hin1 (k + 1).toNat (by omega)
  have hDk : sk.delaySize = d := by rw [sameEnv_delaySize hse, env_run_delaySize]; rfl
  have hCk : sk.numChannels = nc := by rw [sameEnv_numChannels hse, env_run_numChannels]; rfl
  have hcast : N + (((k + 1).toNat : Nat) : Int) = N + k + 1 := by omega
  rw [hcast] at hbuf
  have hdl : ∀ c, 0 ≤ c → c < nc → sk.delayData c ((N + k) % d) = inb (c * fs + k) := by
    intro c hc0 hc1
    have := hbuf.2.2.2.1 c (N + k) hc0 (by rw [hCk]; exact hc1) (by rw [hDk]; omega) (by omega)
    rw [hDk] at this
    rw [this, hin c k hc0 hc1 hk0 hk1]
    unfold stream_at
    rw [if_neg (by omega)]
  have hall : ∀ j, 0 ≤ j → j < d →
      sk.peakData j = run_max (fun c => |sk.delayData c j|) nc.toNat 0 0 := by
    intro j hj0 hj1
    have := BufInv_peakData_channel_max hbuf j hj0 (by rw [hDk]; exact hj1)
    rw [hCk] at this
    exact this
  refine ⟨sk, abk, hl, ?_, ?_, hdl, hall, sample_loop_peakData_nonneg _ _ _ _ _ _ _ _ hl hnn⟩
  · have hn0 := Int.emod_nonneg N (ne_of_gt hd)
    rw [DB_IDX_of_nonneg (by rw [hbuf.2.1]; exact hbuf.1) (by rw [hek, hE, hD]; omega),
      hbuf.2.1, hDk, hek, hE, hD, Int.add_emod_emod, add_comm]
  · rw [hall _ (Int.emod_nonneg _ (ne_of_gt hd)) (Int.emod_lt_of_pos _ hd)]
    apply run_max_congr
    intro c h1 h2
    dsimp only
    rw [hdl c h1 (by omega)]

/-- Witness for C17 over the rationals: `delay_size = 3`, one channel, the stream
with an impulse of amplitude 2 at sample 0, sample 0 of the first block. -/
theorem peakData_channel_max_witness :
    ((∀ j, 0 ≤ j → j < 3 →
        (audio_effect_peak_limiter_init pow_one blank_limiter 0 1 1 1 4 3).peakData j
          = run_max (fun c =>
              |(audio_effect_peak_limiter_init pow_one blank_limiter 0 1 1 1 4 3).delayData c j|)
              (1 : Int).toNat 0 0) ∧
      ∀ i, 0 ≤ (audio_effect_peak_limiter_init pow_one blank_limiter 0 1 1 1 4 3).peakData i) ∧
    ∃ (sk : AudioEffectPeakLimiter ℚ) (abk : Int → ℚ),
      sample_loop (fun p => impulse 0 (2 : ℚ) 0 p) 4 ((0 : Int) + 1).toNat 0
        (audio_effect_peak_limiter_init pow_one blank_limiter 0 1 1 1 4 3) (fun _ => 0)
        = some (sk, abk) ∧
      DB_IDX sk (0 + sk.entryIndex) = some ((0 + 0) % 3) ∧
      sk.peakData ((0 + 0) % 3)
        = run_max (fun c => |(fun p => impulse 0 (2 : ℚ) 0 p) (c * 4 + 0)|) (1 : Int).toNat 0 0 ∧
      (∀ c, 0 ≤ c → c < 1 →
        sk.delayData c ((0 + 0) % 3) = (fun p => impulse 0 (2 : ℚ) 0 p) (c * 4 + 0)) ∧
      (∀ j, 0 ≤ j → j < 3 →
        sk.peakData j = run_max (fun c => |sk.delayData c j|) (1 : Int).toNat 0 0) ∧
      ∀ i, 0 ≤ sk.peakData i :=
  peakData_channel_max pow_one blank_limiter 0 1 1 1 4 3 (by decide) (impulse 0 2) 0 _
    Fed.start (fun p => impulse 0 (2 : ℚ) 0 p) (fun _ => 0) 4
    (fun c k h0 h1 _ _ => by
      have hc : c = 0 := by omega
      subst hc
      simp [impulse])
    0 (by decide) (by decide)

/-! ## Transparency below the threshold (C19) -/

/-- A bound of the samples of the channels `0 .. C - 1` bounds every look-ahead
peak. -/
theorem lookahead_peak_le_of_range (x : Int → Int → α) {p : α} (hp : 0 ≤ p) (C : Int)
    (hx : ∀ c m, 0 ≤ c → c < C → 0 ≤ m → |x c m| ≤ p) (D n : Int) :
    lookahead_peak x C D n ≤ p := by
  have hs : ∀ m, sample_peak x C m ≤ p := by
    intro m
    unfold sample_peak
    rcases run_max_attained (fun c => |stream_at x c m|) C.toNat 0 0 with h | ⟨j, j0, j1, h⟩
    · rw [h]; exact hp
    · rw [h]
      unfold stream_at
      split_ifs with hm
      · rw [abs_zero]; exact hp
      · exact hx j m j0 (by omega) (by omega)
  unfold lookahead_peak
  rcases run_max_attained (fun i => sample_peak x C (n - D + i)) D.toNat 0 0 with h | ⟨j, _, _, h⟩
  · rw [h]; exact hp
  · rw [h]; exact hs _

/-- C19. After `init` with `delay_size = d > 0` (true-peak metering off) and a
threshold `pow 10 (db / 20)` that is not negative, when no sample of the channels of
the stream exceeds the threshold in magnitude: every limiter fed any number of
samples in blocks of any sizes is idle (`currentTC = -1`, `currentGain = 1`), a
further call of `process_block` returns `frame_size` and leaves the limiter idle, the
gain after every sample of it is exactly 1, and sample `k` of channel `c` of its
output is `0` when `N + k < d` and the input sample `x c (N + k - d)` otherwise. -/
theorem transparent_below_threshold (pow : α → α → α) (ths : AudioEffectPeakLimiter α) (db : α)
    (sr nc : Int) (atk rel : α) (d : Int) (hd : 0 < d) (hT : 0 ≤ pow 10 (db / 20))
    (x : Int → Int → α)
    (hx : ∀ c m, 0 ≤ c → c < nc → 0 ≤ m → |x c m| ≤ pow 10 (db / 20))
    (N : Int) (s : AudioEffectPeakLimiter α)
    (hfed : Fed (audio_effect_peak_limiter_init pow ths db sr nc atk rel d) x N s)
    (inb outblock : Int → α) (fs : Int) (hfs : 0 ≤ fs)
    (hin : ∀ c k, 0 ≤ c → c < nc → 0 ≤ k → k < fs → inb (c * fs + k) = x c (N + k)) :
    s.currentTC = -1 ∧ s.currentGain = 1 ∧
    ∃ (s1 : AudioEffectPeakLimiter α) (out1 : Int → α),
      audio_effect_peak_limiter_process_block s (some inb) outblock fs = some (fs, s1, out1) ∧
      Fed (audio_effect_peak_limiter_init pow ths db sr nc atk rel d) x (N + fs) s1 ∧
      s1.currentTC = -1 ∧ s1.currentGain = 1 ∧
      ∀ k, 0 ≤ k → k < fs →
        ∃ (sk : AudioEffectPeakLimiter α) (abk : Int → α),
          sample_loop inb fs (k + 1).toNat 0 s outblock = some (sk, abk) ∧
          sk.currentTC = -1 ∧ sk.currentGain = 1 ∧
          ∀ c, 0 ≤ c → c < nc →
            out1 (c * fs + k) = (if N + k < d then 0 else x c (N + k - d)) := by
  have hinv := StreamInv_of_fed (StreamInv_init pow ths db sr nc atk rel d hd x) hfed
  have hC : s.numChannels = nc := StreamInv_numChannels hinv
  have hD : s.delaySize = d := StreamInv_delaySize hinv
  have hN : 0 ≤ N := hinv.1
  have hin1 : ∀ c k, 0 ≤ c → c < s.numChannels → 0 ≤ k → k < fs →
      inb (c * fs + k) = x c (N + k) := by
    rw [hC]; exact hin
  have hidle : ∀ n : Nat,
      env_run (audio_effect_peak_limiter_init pow ths db sr nc atk rel d)
        (lookahead_peak x (audio_effect_peak_limiter_init pow ths db sr nc atk rel d).numChannels
          (audio_effect_peak_limiter_init pow ths db sr nc atk rel d).delaySize) n
        = audio_effect_peak_limiter_init pow ths db sr nc atk rel d := by
    intro n
    apply @env_run_idle α _ (audio_effect_peak_limiter_init pow ths db sr nc atk rel d) _ rfl rfl n
    intro i _ _
    exact lookahead_peak_le_of_range x hT nc hx d i
  have hs := hinv.2.2.2
  rw [hidle] at hs
  obtain ⟨s1, out1, e, hinv1, hout, _⟩ := process_block_spec _ x N s inb outblock fs hinv hfs hin1
  have hs1 := hinv1.2.2.2
  rw [hidle] at hs1
  refine ⟨by rw [sameEnv_currentTC hs]; rfl, by rw [sameEnv_currentGain hs]; rfl,
    s1, out1, e, Fed.block hfed hfs hin1 e, by rw [sameEnv_currentTC hs1]; rfl,
    by rw [sameEnv_currentGain hs1]; rfl, ?_⟩
  intro k hk0 hk1
  obtain ⟨sk, abk, hl, _, _, hse, _⟩ :=
    block_prefix_spec _ x N s inb outblock fs hinv hin1 (k + 1).toNat (by omega)
  rw [hidle] at hse
  refine ⟨sk, abk, hl, by rw [sameEnv_currentTC hse]; rfl, by rw [sameEnv_currentGain hse]; rfl, ?_⟩
  intro c hc0 hc1
  rw [hout c k hc0 (by rw [hC]; exact hc1) hk0 hk1, hD, hidle]
  show stream_at x c (N + k - d) * 1 = _
  rw [mul_one]
  unfold stream_at
  by_cases h : N + k < d
  · rw [if_pos h, if_pos (by omega)]
  · rw [if_neg h, if_neg (by omega)]

/-- Witness for C19 over the rationals: threshold 1, `delay_size = 3`, one channel,
the first block of 4 samples of the stream whose only non-zero sample is
`x 0 0 = 1/2`. -/
theorem transparent_below_threshold_witness :
    (audio_effect_peak_limiter_init pow_one blank_limiter 0 1 1 1 4 3).currentTC = -1 ∧
    (audio_effect_peak_limiter_init pow_one blank_limiter 0 1 1 1 4 3).currentGain = 1 ∧
    ∃ (s1 : AudioEffectPeakLimiter ℚ) (out1 : Int → ℚ),
      audio_effect_peak_limiter_process_block
        (audio_effect_peak_limiter_init pow_one blank_limiter 0 1 1 1 4 3)
        (some (fun p => impulse 0 (1 / 2 : ℚ) 0 p)) (fun _ => 0) 4 = some (4, s1, out1) ∧
      Fed (audio_effect_peak_limiter_init pow_one blank_limiter 0 1 1 1 4 3)
        (impulse 0 (1 / 2 : ℚ)) (0 + 4) s1 ∧
      s1.currentTC = -1 ∧ s1.currentGain = 1 ∧
      ∀ k, 0 ≤ k → k < 4 →
        ∃ (sk : AudioEffectPeakLimiter ℚ) (abk : Int → ℚ),
          sample_loop (fun p => impulse 0 (1 / 2 : ℚ) 0 p) 4 (k + 1).toNat 0
            (audio_effect_peak_limiter_init pow_one blank_limiter 0 1 1 1 4 3) (fun _ => 0)
            = some (sk, abk) ∧
          sk.currentTC = -1 ∧ sk.currentGain = 1 ∧
          ∀ c, 0 ≤ c → c < 1 →
            out1 (c * 4 + k) = (if 0 + k < 3 then 0 else impulse 0 (1 / 2 : ℚ) c (0 + k - 3)) :=
  transparent_below_threshold pow_one blank_limiter 0 1 1 1 4 3 (by decide)
    (by norm_num [pow_one]) (impulse 0 (1 / 2))
    (fun c m _ _ _ => by
      unfold impulse pow_one
      split_ifs
      · rw [abs_of_nonneg (by norm_num)]; norm_num
      · rw [abs_zero]; norm_num)
    0 _ Fed.start (fun p => impulse 0 (1 / 2 : ℚ) 0 p) (fun _ => 0) 4 (by decide)
    (fun c k h0 h1 _ _ => by
      have hc : c = 0 := by omega
      subst hc
      simp [impulse])

/-! ## Splitting a block (C20) -/

/-- The scan reads the same slots for two cursors that agree modulo the ring-buffer
size. -/
theorem scan_loop_shift (s t : AudioEffectPeakLimiter α) (idx idx1 : Int)
    (hD : 0 < s.delayBufferSize) (hdbs : t.delayBufferSize = s.delayBufferSize)
    (hpd : t.peakData = s.peakData) (h0 : 0 ≤ idx) (h1 : 0 ≤ idx1)
    (hmod : idx % s.delayBufferSize = idx1 % s.delayBufferSize) :
    ∀ (n : Nat) (i : Int) (peak : α) (pp : Int), 0 ≤ i →
      scan_loop t idx1 n i peak pp = scan_loop s idx n i peak pp := by
  intro n
  induction n with
  | zero => intro i peak pp _; rfl
  | succ n ih =>
    intro i peak pp hi
    have hslot : (i + idx1) % s.delayBufferSize = (i + idx) % s.delayBufferSize := by
      rw [Int.add_emod, ← hmod, ← Int.add_emod]
    have e1 : DB_IDX s (i + idx) = some ((i + idx) % s.delayBufferSize) :=
      DB_IDX_of_nonneg hD (by omega)
    have e2 : DB_IDX t (i + idx1) = some ((i + idx) % s.delayBufferSize) := by
      rw [DB_IDX_of_nonneg (by rw [hdbs]; exact hD) (by omega), hdbs, hslot]
    unfold scan_loop
    rw [e1, e2, hpd]
    dsimp only
    split_ifs
    · exact ih _ _ _ (by omega)
    · exact ih _ _ _ (by omega)

/-- One sample in delay mode, in closed form: the limiter it leaves, given the peak
and the position found by the look-ahead step. -/
theorem sample_body_eval (inb : Int → α) (fs k : Int) (s : AudioEffectPeakLimiter α)
    (ab : Int → α) (peak : α) (pp : Int) (hds : 0 < s.delaySize) (hD : 0 < s.delayBufferSize)
    (hidx : 0 ≤ k + s.entryIndex) (hfs : fs ≠ 0)
    (hsc : cached_peak s (k + s.entryIndex) = some (peak, pp)) :
    ∃ ab1, sample_body inb fs k s ab
      = some ({ (compute_target_gain s peak).1 with
                peak_pos :=
                  (if pp = (k + s.entryIndex) % s.delayBufferSize then -1
                    else if pp < 0 ∨ s.peakData pp
                        < run_max (fun c => |inb (c * fs + k)|) s.numChannels.toNat 0 0
                      then (k + s.entryIndex) % s.delayBufferSize
                    else pp)
                peakData := Function.update s.peakData ((k + s.entryIndex) % s.delayBufferSize)
                  (run_max (fun c => |inb (c * fs + k)|) s.numChannels.toNat 0 0)
                delayData := fun c i =>
                  if 0 ≤ c ∧ c < 0 + (s.numChannels.toNat : Int) ∧
                      i = (k + s.entryIndex) % s.delayBufferSize
                    then inb (c * fs + k) else s.delayData c i }, ab1) := by
  unfold cached_peak at hsc
  unfold sample_body
  dsimp only
  rw [hsc]
  dsimp only
  rw [cgt_with_peak_pos]
  dsimp only
  generalize hr : compute_target_gain s peak = r
  have r_ds : r.1.delaySize = s.delaySize := by rw [← hr]; simp
  have r_dbs : r.1.delayBufferSize = s.delayBufferSize := by rw [← hr]; simp
  have r_nc : r.1.numChannels = s.numChannels := by rw [← hr]; simp
  have r_dd : r.1.delayData = s.delayData := by rw [← hr]; simp
  have r_pd : r.1.peakData = s.peakData := by rw [← hr]; simp
  have hj : DB_IDX ({ r.1 with peak_pos := pp } : AudioEffectPeakLimiter α) (k + s.entryIndex)
      = some ((k + s.entryIndex) % s.delayBufferSize) := by
    have := @DB_IDX_of_nonneg α _ ({ r.1 with peak_pos := pp }) (k + s.entryIndex)
      (by show 0 < r.1.delayBufferSize; rw [r_dbs]; exact hD) hidx
    rw [this]
    show some ((k + s.entryIndex) % r.1.delayBufferSize) = _
    rw [r_dbs]
  obtain ⟨dd, ab1, hcl, hdd, _, _⟩ := channel_loop_spec inb fs k (k + s.entryIndex) r.2
    ((k + s.entryIndex) % s.delayBufferSize) hfs r.1.numChannels.toNat 0
    ({ r.1 with peak_pos := pp }) ab 0
    (by show 0 < r.1.delaySize; rw [r_ds]; exact hds) hj
  rw [hcl]
  dsimp only
  have hj2 : DB_IDX ({ r.1 with peak_pos := pp, delayData := dd } : AudioEffectPeakLimiter α)
      (k + s.entryIndex) = some ((k + s.entryIndex) % s.delayBufferSize) := hj
  rw [hj2]
  dsimp only
  have hdd1 : dd = fun c i =>
      if 0 ≤ c ∧ c < 0 + (s.numChannels.toNat : Int) ∧ i = (k + s.entryIndex) % s.delayBufferSize
        then inb (c * fs + k) else s.delayData c i := by
    funext c i
    rw [hdd c i, r_nc]
    show (if _ then _ else r.1.delayData c i) = _
    rw [r_dd]
  rw [hdd1, r_pd, r_nc]
  exact ⟨ab1, rfl⟩

theorem sample_body_entryIndex {inb : Int → α} {fs k : Int} {s s1 : AudioEffectPeakLimiter α}
    {ab ab1 : Int → α} (h : sample_body inb fs k s ab = some (s1, ab1)) :
    s1.entryIndex = s.entryIndex := by
  obtain ⟨pk, pp, e⟩ := sample_body_frame h
  rw [e]
  show (compute_target_gain _ pk).1.entryIndex = _
  rw [cgt_entryIndex]

theorem sample_loop_entryIndex (inb : Int → α) (fs : Int) :
    ∀ (n : Nat) (k : Int) (s s1 : AudioEffectPeakLimiter α) (ab ab1 : Int → α),
      sample_loop inb fs n k s ab = some (s1, ab1) → s1.entryIndex = s.entryIndex := by
  intro n
  induction n with
  | zero =>
    intro k s s1 ab ab1 h
    simp only [sample_loop, Option.some.injEq, Prod.mk.injEq] at h
    rw [← h.1]
  | succ n ih =>
    intro k s s1 ab ab1 h
    unfold sample_loop at h
    split at h
    · exact absurd h (by simp)
    · rename_i s2 ab2 hb
      rw [ih _ _ _ _ _ h, sample_body_entryIndex hb]

/-- One sample gives the same limiter, up to the write cursor, when the sample
index and the cursor are replaced by others that address the same slot and the
input buffer by one that holds the same samples. -/
theorem sample_body_shift (inb inb1 : Int → α) (fs fs1 k k1 : Int)
    (s : AudioEffectPeakLimiter α) (ab ab1 : Int → α) (e1 : Int)
    (hds : 0 < s.delaySize) (hD : 0 < s.delayBufferSize)
    (hidx : 0 ≤ k + s.entryIndex) (hidx1 : 0 ≤ k1 + e1) (hfs : fs ≠ 0) (hfs1 : fs1 ≠ 0)
    (hmod : (k + s.entryIndex) % s.delayBufferSize = (k1 + e1) % s.delayBufferSize)
    (hin : ∀ c, 0 ≤ c → c < s.numChannels → inb (c * fs + k) = inb1 (c * fs1 + k1)) :
    ∃ (s2 : AudioEffectPeakLimiter α) (ab2 ab3 : Int → α),
      sample_body inb fs k s ab = some (s2, ab2) ∧
      sample_body inb1 fs1 k1 { s with entryIndex := e1 } ab1
        = some ({ s2 with entryIndex := e1 }, ab3) := by
  obtain ⟨⟨peak, pp⟩, hsc⟩ : ∃ r, cached_peak s (k + s.entryIndex) = some r := by
    unfold cached_peak
    split_ifs
    · exact scan_loop_total s _ (ne_of_gt hD) _ _ _ _
    · exact ⟨_, rfl⟩
  have hsc1 : cached_peak ({ s with entryIndex := e1 } : AudioEffectPeakLimiter α)
      (k1 + ({ s with entryIndex := e1 } : AudioEffectPeakLimiter α).entryIndex)
      = some (peak, pp) := by
    unfold cached_peak at hsc ⊢
    show (if s.peak_pos < 0
        then scan_loop ({ s with entryIndex := e1 } : AudioEffectPeakLimiter α) (k1 + e1)
          s.delaySize.toNat 0 0 s.peak_pos
        else some (s.peakData s.peak_pos, s.peak_pos)) = _
    rw [scan_loop_shift s ({ s with entryIndex := e1 } : AudioEffectPeakLimiter α)
      (k + s.entryIndex) (k1 + e1) hD rfl rfl hidx hidx1 hmod _ _ _ _ (le_refl 0)]
    exact hsc
  obtain ⟨ab2, h2⟩ := sample_body_eval inb fs k s ab peak pp hds hD hidx hfs hsc
  obtain ⟨ab3, h3⟩ := sample_body_eval inb1 fs1 k1 { s with entryIndex := e1 } ab1 peak pp
    hds hD hidx1 hfs1 hsc1
  refine ⟨_, ab2, ab3, h2, ?_⟩
  rw [h3]
  dsimp only
  have hpm : run_max (fun c => |inb1 (c * fs1 + k1)|) s.numChannels.toNat 0 0
      = run_max (fun c => |inb (c * fs + k)|) s.numChannels.toNat 0 0 := by
    apply run_max_congr
    intro c c0 c1
    dsimp only
    rw [hin c c0 (by omega)]
  have hdd : (fun c i =>
      if 0 ≤ c ∧ c < 0 + (s.numChannels.toNat : Int) ∧ i = (k1 + e1) % s.delayBufferSize
        then inb1 (c * fs1 + k1) else s.delayData c i)
      = fun c i =>
      if 0 ≤ c ∧ c < 0 + (s.numChannels.toNat : Int) ∧ i = (k + s.entryIndex) % s.delayBufferSize
        then inb (c * fs + k) else s.delayData c i := by
    funext c i
    rw [← hmod]
    by_cases h : 0 ≤ c ∧ c < 0 + (s.numChannels.toNat : Int) ∧
        i = (k + s.entryIndex) % s.delayBufferSize
    · rw [if_pos h, if_pos h, hin c h.1 (by omega)]
    · rw [if_neg h, if_neg h]
  have hc := cgt_with_buffers s peak s.delayData s.peakData s.peak_pos e1
  have hc1 : compute_target_gain ({ s with entryIndex := e1 } : AudioEffectPeakLimiter α) peak
      = ({ (compute_target_gain s peak).1 with
            delayData := s.delayData, peakData := s.peakData, peak_pos := s.peak_pos,
            entryIndex := e1 }, (compute_target_gain s peak).2) := hc
  rw [hpm, hdd, ← hmod, hc1]

/-- The sample loop over `n + m` samples is the loop over `n` samples followed by
the loop over the next `m`. -/
theorem sample_loop_add (inb : Int → α) (fs : Int) (m : Nat) :
    ∀ (n : Nat) (k : Int) (s s1 : AudioEffectPeakLimiter α) (ab ab1 : Int → α),
      sample_loop inb fs n k s ab = some (s1, ab1) →
      sample_loop inb fs (n + m) k s ab = sample_loop inb fs m (k + n) s1 ab1 := by
  intro n
  induction n with
  | zero =>
    intro k s s1 ab ab1 h
    simp only [sample_loop, Option.some.injEq, Prod.mk.injEq] at h
    rw [← h.1, ← h.2]
    simp
  | succ n ih =>
    intro k s s1 ab ab1 h
    unfold sample_loop at h
    split at h
    · exact absurd h (by simp)
    · rename_i s2 ab2 hb
      have e : n + 1 + m = (n + m) + 1 := by omega
      rw [e]
      conv_lhs => unfold sample_loop
      rw [hb]
      dsimp only
      rw [ih _ _ _ _ _ h]
      congr 1
      push_cast
      ring

/-- The sample loop gives the same limiter, up to the write cursor, when the start
index and the cursor are replaced by others that address the same slot and the
input buffer by one that holds the same samples. -/
theorem sample_loop_shift (inb inb1 : Int → α) (fs fs1 : Int) :
    ∀ (n : Nat) (k k1 : Int) (s : AudioEffectPeakLimiter α) (ab ab1 : Int → α) (e1 : Int),
      (n ≠ 0 → fs ≠ 0 ∧ fs1 ≠ 0) → 0 < s.delaySize → 0 < s.delayBufferSize → 0 ≤ k + s.entryIndex → 0 ≤ k1 + e1 →
      (k + s.entryIndex) % s.delayBufferSize = (k1 + e1) % s.delayBufferSize →
      (∀ c i, 0 ≤ c → c < s.numChannels → 0 ≤ i → i < (n : Int) →
        inb (c * fs + (k + i)) = inb1 (c * fs1 + (k1 + i))) →
      ∃ (s2 : AudioEffectPeakLimiter α) (ab2 ab3 : Int → α),
        sample_loop inb fs n k s ab = some (s2, ab2) ∧
        sample_loop inb1 fs1 n k1 { s with entryIndex := e1 } ab1
          = some ({ s2 with entryIndex := e1 }, ab3) := by
  intro n
  induction n with
  | zero =>
    intro k k1 s ab ab1 e1 _ _ _ _ _ _ _
    exact ⟨s, ab, ab1, rfl, rfl⟩
  | succ n ih =>
    intro k k1 s ab ab1 e1 hnz hds hD hidx hidx1 hmod hin
    obtain ⟨hfs, hfs1⟩ := hnz (Nat.succ_ne_zero n)
    obtain ⟨s2, ab2, ab3, h2, h3⟩ := sample_body_shift inb inb1 fs fs1 k k1 s ab ab1 e1 hds hD
      hidx hidx1 hfs hfs1 hmod
      (fun c c0 c1 => by
        have := hin c 0 c0 c1 (le_refl 0) (by push_cast; omega)
        simpa using this)
    have a1 := sample_body_delaySize h2
    have a2 := sample_body_delayBufferSize h2
    have a3 := sample_body_entryIndex h2
    have a4 := sample_body_numChannels h2
    have hmod1 : (k + 1 + s2.entryIndex) % s2.delayBufferSize
        = (k1 + 1 + e1) % s2.delayBufferSize := by
      rw [a2, a3]
      have e : k + 1 + s.entryIndex = 1 + (k + s.entryIndex) := by ring
      have e0 : k1 + 1 + e1 = 1 + (k1 + e1) := by ring
      rw [e, e0, Int.add_emod, hmod, ← Int.add_emod]
    obtain ⟨s4, ab4, ab5, h4, h5⟩ := ih (k + 1) (k1 + 1) s2 ab2 ab3 e1
      (fun _ => ⟨hfs, hfs1⟩) (by rw [a1]; exact hds)
      (by rw [a2]; exact hD) (by rw [a3]; omega) (by omega) hmod1
      (fun c i c0 c1 i0 i1 => by
        have := hin c (i + 1) c0 (by rw [← a4]; exact c1) (by omega) (by push_cast; omega)
        rw [show k + 1 + i = k + (i + 1) by ring, show k1 + 1 + i = k1 + (i + 1) by ring]
        exact this)
    refine ⟨s4, ab4, ab5, ?_, ?_⟩
    · unfold sample_loop
      rw [h2]
      exact h4
    · unfold sample_loop
      rw [h3]
      exact h5

/-- A call of `process_block` in delay mode, given the result of its sample loop:
the write cursor advances by `frame_size` modulo the ring-buffer size. -/
theorem process_block_of_sample_loop (s s1 : AudioEffectPeakLimiter α) (inb ob ab1 : Int → α)
    (fs : Int) (hds : 0 < s.delaySize) (hD : 0 < s.delayBufferSize) (he : 0 ≤ s.entryIndex)
    (hfs : 0 ≤ fs) (hl : sample_loop inb fs fs.toNat 0 s ob = some (s1, ab1)) :
    audio_effect_peak_limiter_process_block s (some inb) ob fs
      = some (fs, { s1 with entryIndex := (s.entryIndex + fs) % s.delayBufferSize }, ab1) := by
  obtain ⟨_, a1, a2⟩ := sample_loop_config _ _ _ _ _ _ _ _ hl
  have a3 := sample_loop_entryIndex _ _ _ _ _ _ _ _ hl
  have hpos : s1.delaySize > 0 := by rw [a1]; exact hds
  unfold audio_effect_peak_limiter_process_block
  dsimp only
  rw [hl]
  dsimp only
  rw [if_pos hpos, DB_IDX_of_nonneg (by rw [a2]; exact hD) (by rw [a3]; omega), a2, a3]

/-- C20. After `init` with `delay_size = d > 0`, on a limiter `s` that has been fed the
first `N0` samples of a stream `x` in blocks of any sizes, for any number of channels
(one in particular): one call of `process_block` on the next `N + M` samples and two
calls, on the next `N` samples and then on the `M` samples after them, all complete,
leave the same limiter and emit the same samples (sample `k` of channel `c` of the
first short call is sample `k` of the long call, sample `k` of the second short call
is its sample `N + k`); the sample loop leaves the write cursor as it is, and the
call stores `(entryIndex + frame_size) % delayBufferSize` once, after the loop. -/
theorem block_splitting_invariance (pow : α → α → α) (ths : AudioEffectPeakLimiter α) (db : α)
    (sr nc : Int) (atk rel : α) (d : Int) (hd : 0 < d) (x : Int → Int → α) (N0 : Int)
    (s : AudioEffectPeakLimiter α)
    (hfed : Fed (audio_effect_peak_limiter_init pow ths db sr nc atk rel d) x N0 s)
    (inz inx iny oz ox oy : Int → α) (N M : Int) (hN : 0 ≤ N) (hM : 0 ≤ M)
    (hz : ∀ c k, 0 ≤ c → c < nc → 0 ≤ k → k < N + M → inz (c * (N + M) + k) = x c (N0 + k))
    (hx : ∀ c k, 0 ≤ c → c < nc → 0 ≤ k → k < N → inx (c * N + k) = x c (N0 + k))
    (hy : ∀ c k, 0 ≤ c → c < nc → 0 ≤ k → k < M → iny (c * M + k) = x c (N0 + N + k)) :
    ∃ (s12 : AudioEffectPeakLimiter α) (o12 : Int → α) (s1 : AudioEffectPeakLimiter α)
      (o1 : Int → α) (s2 : AudioEffectPeakLimiter α) (o2 : Int → α),
      audio_effect_peak_limiter_process_block s (some inz) oz (N + M)
        = some (N + M, s12, o12) ∧
      audio_effect_peak_limiter_process_block s (some inx) ox N = some (N, s1, o1) ∧
      audio_effect_peak_limiter_process_block s1 (some iny) oy M = some (M, s2, o2) ∧
      s12 = s2 ∧
      (∀ c k, 0 ≤ c → c < nc → 0 ≤ k → k < N → o12 (c * (N + M) + k) = o1 (c * N + k)) ∧
      (∀ c k, 0 ≤ c → c < nc → 0 ≤ k → k < M → o12 (c * (N + M) + (N + k)) = o2 (c * M + k)) ∧
      s12.entryIndex = (s.entryIndex + (N + M)) % s.delayBufferSize ∧
      s1.entryIndex = (s.entryIndex + N) % s.delayBufferSize ∧
      ∃ (sl : AudioEffectPeakLimiter α) (ol : Int → α),
        sample_loop inz (N + M) (N + M).toNat 0 s oz = some (sl, ol) ∧
        sl.entryIndex = s.entryIndex ∧
        s12 = { sl with entryIndex := (s.entryIndex + (N + M)) % s.delayBufferSize } := by
  have hinv := StreamInv_of_fed (StreamInv_init pow ths db sr nc atk rel d hd x) hfed
  have hC : s.numChannels = nc := StreamInv_numChannels hinv
  have hN0 : 0 ≤ N0 := hinv.1
  have hds : 0 < s.delaySize := hinv.2.1.1
  have hdbs : s.delayBufferSize = s.delaySize := hinv.2.1.2.1
  have hD : 0 < s.delayBufferSize := by rw [hdbs]; exact hds
  have hE : s.entryIndex = N0 % s.delaySize := hinv.2.2.1
  have he0 : 0 ≤ s.entryIndex := by rw [hE]; exact Int.emod_nonneg _ (ne_of_gt hds)
  have hz1 : ∀ c k, 0 ≤ c → c < s.numChannels → 0 ≤ k → k < N + M →
      inz (c * (N + M) + k) = x c (N0 + k) := by
    rw [hC]; exact hz
  have hx1 : ∀ c k, 0 ≤ c → c < s.numChannels → 0 ≤ k → k < N →
      inx (c * N + k) = x c (N0 + k) := by
    rw [hC]; exact hx
  -- the three calls, with their outputs
  obtain ⟨s12, o12, e12, _, hout12, _⟩ :=
    process_block_spec _ x N0 s inz oz (N + M) hinv (by omega) hz1
  obtain ⟨s1, o1, e1, hinv1, hout1, _⟩ := process_block_spec _ x N0 s inx ox N hinv hN hx1
  have hC1 : s1.numChannels = nc := StreamInv_numChannels hinv1
  have hy1 : ∀ c k, 0 ≤ c → c < s1.numChannels → 0 ≤ k → k < M →
      iny (c * M + k) = x c (N0 + N + k) := by
    rw [hC1]; exact hy
  obtain ⟨s2, o2, e2, _, hout2, _⟩ := process_block_spec _ x (N0 + N) s1 iny oy M hinv1 hM hy1
  have hcfg1 := process_block_config e1
  -- the sample loops of the two short calls and of the long call
  obtain ⟨sA, abA, abA1, hA, hA1⟩ := sample_loop_shift inx inz N (N + M) N.toNat 0 0 s ox oz
    s.entryIndex (fun h => ⟨by omega, by omega⟩) hds hD (by omega) (by omega) rfl
    (fun c i c0 c1 i0 i1 => by
      rw [zero_add, hx1 c i c0 c1 i0 (by omega), hz1 c i c0 c1 i0 (by omega)])
  have hEA : sA.entryIndex = s.entryIndex := sample_loop_entryIndex _ _ _ _ _ _ _ _ hA
  have hsA : ({ sA with entryIndex := s.entryIndex } : AudioEffectPeakLimiter α) = sA := by
    rw [← hEA]
  have hA2 : sample_loop inz (N + M) N.toNat 0 s oz = some (sA, abA1) := by
    rw [← hsA]
    exact hA1
  have p1 := process_block_of_sample_loop s sA inx ox abA N hds hD he0 hN hA
  rw [e1] at p1
  simp only [Option.some.injEq, Prod.mk.injEq, true_and] at p1
  obtain ⟨p1s, p1o⟩ := p1
  have hE1 : s1.entryIndex = (s.entryIndex + N) % s.delayBufferSize := by rw [p1s]
  have hds1 : 0 < s1.delaySize := by rw [hcfg1.2.1]; exact hds
  have hD1 : 0 < s1.delayBufferSize := by rw [hcfg1.2.2]; exact hD
  have he1 : 0 ≤ s1.entryIndex := by rw [hE1]; exact Int.emod_nonneg _ (ne_of_gt hD)
  obtain ⟨sB, abB, abB1, hB, hB1⟩ := sample_loop_shift iny inz M (N + M) M.toNat 0 N s1 oy abA1
    s.entryIndex (fun h => ⟨by omega, by omega⟩) hds1 hD1 (by omega) (by omega)
    (by rw [zero_add, hE1, hcfg1.2.2, Int.emod_emod, add_comm])
    (fun c i c0 c1 i0 i1 => by
      rw [zero_add, hy1 c i c0 c1 i0 (by omega),
        hz1 c (N + i) c0 (by rw [← hcfg1.1]; exact c1) (by omega) (by omega), add_assoc])
  have hs1A : ({ s1 with entryIndex := s.entryIndex } : AudioEffectPeakLimiter α) = sA := by
    rw [p1s]
    exact hsA
  rw [hs1A] at hB1
  have hlong : sample_loop inz (N + M) (N + M).toNat 0 s oz
      = some ({ sB with entryIndex := s.entryIndex }, abB1) := by
    have e : (N + M).toNat = N.toNat + M.toNat := by omega
    rw [e, sample_loop_add inz (N + M) M.toNat N.toNat 0 s sA oz abA1 hA2]
    have e0 : (0 : Int) + (N.toNat : Int) = N := by omega
    rw [e0]
    exact hB1
  have p12 := process_block_of_sample_loop s _ inz oz abB1 (N + M) hds hD he0 (by omega) hlong
  rw [e12] at p12
  simp only [Option.some.injEq, Prod.mk.injEq, true_and] at p12
  obtain ⟨p12s, _⟩ := p12
  have p2 := process_block_of_sample_loop s1 sB iny oy abB M hds1 hD1 he1 hM hB
  rw [e2] at p2
  simp only [Option.some.injEq, Prod.mk.injEq, true_and] at p2
  obtain ⟨p2s, _⟩ := p2
  have hcur : (s1.entryIndex + M) % s1.delayBufferSize
      = (s.entryIndex + (N + M)) % s.delayBufferSize := by
    rw [hE1, hcfg1.2.2, Int.emod_add_emod, add_assoc]
  refine ⟨s12, o12, s1, o1, s2, o2, e12, e1, e2, ?_, ?_, ?_, by rw [p12s], hE1,
    _, abB1, hlong, sample_loop_entryIndex _ _ _ _ _ _ _ _ hlong, p12s⟩
  · rw [p12s, p2s, hcur]
  · intro c k c0 c1 k0 k1
    rw [hout12 c k c0 (by rw [hC]; exact c1) k0 (by omega),
      hout1 c k c0 (by rw [hC]; exact c1) k0 k1]
  · intro c k c0 c1 k0 k1
    rw [hout12 c (N + k) c0 (by rw [hC]; exact c1) (by omega) (by omega),
      hout2 c k c0 (by rw [hC1]; exact c1) k0 k1, hcfg1.2.1,
      show N0 + (N + k) = N0 + N + k by ring]

/-- Witness for C20 over the rationals: one channel, `delay_size = 3`, the stream
with an impulse of amplitude 2 at sample 0; a block of 4 samples against blocks of 1
and 3 samples, from the limiter left by `init`. -/
theorem block_splitting_invariance_witness :
    ∃ (s12 : AudioEffectPeakLimiter ℚ) (o12 : Int → ℚ) (s1 : AudioEffectPeakLimiter ℚ)
      (o1 : Int → ℚ) (s2 : AudioEffectPeakLimiter ℚ) (o2 : Int → ℚ),
      audio_effect_peak_limiter_process_block
        (audio_effect_peak_limiter_init pow_one blank_limiter 0 1 1 1 4 3)
        (some (fun p => impulse 0 (2 : ℚ) 0 p)) (fun _ => 0) (1 + 3) = some (1 + 3, s12, o12) ∧
      audio_effect_peak_limiter_process_block
        (audio_effect_peak_limiter_init pow_one blank_limiter 0 1 1 1 4 3)
        (some (fun p => impulse 0 (2 : ℚ) 0 p)) (fun _ => 0) 1 = some (1, s1, o1) ∧
      audio_effect_peak_limiter_process_block s1 (some (fun _ => (0 : ℚ))) (fun _ => 0) 3
        = some (3, s2, o2) ∧
      s12 = s2 ∧
      (∀ c k, 0 ≤ c → c < 1 → 0 ≤ k → k < 1 → o12 (c * (1 + 3) + k) = o1 (c * 1 + k)) ∧
      (∀ c k, 0 ≤ c → c < 1 → 0 ≤ k → k < 3 → o12 (c * (1 + 3) + (1 + k)) = o2 (c * 3 + k)) ∧
      s12.entryIndex
        = ((audio_effect_peak_limiter_init pow_one blank_limiter 0 1 1 1 4 3).entryIndex + (1 + 3))
          % (audio_effect_peak_limiter_init pow_one blank_limiter 0 1 1 1 4 3).delayBufferSize ∧
      s1.entryIndex
        = ((audio_effect_peak_limiter_init pow_one blank_limiter 0 1 1 1 4 3).entryIndex + 1)
          % (audio_effect_peak_limiter_init pow_one blank_limiter 0 1 1 1 4 3).delayBufferSize ∧
      ∃ (sl : AudioEffectPeakLimiter ℚ) (ol : Int → ℚ),
        sample_loop (fun p => impulse 0 (2 : ℚ) 0 p) (1 + 3) ((1 : Int) + 3).toNat 0
          (audio_effect_peak_limiter_init pow_one blank_limiter 0 1 1 1 4 3) (fun _ => 0)
          = some (sl, ol) ∧
        sl.entryIndex
          = (audio_effect_peak_limiter_init pow_one blank_limiter 0 1 1 1 4 3).entryIndex ∧
        s12 = { sl with entryIndex :=
          ((audio_effect_peak_limiter_init pow_one blank_limiter 0 1 1 1 4 3).entryIndex + (1 + 3))
            % (audio_effect_peak_limiter_init pow_one blank_limiter 0 1 1 1 4 3).delayBufferSize } :=
  block_splitting_invariance pow_one blank_limiter 0 1 1 1 4 3 (by decide) (impulse 0 2) 0 _
    Fed.start (fun p => impulse 0 (2 : ℚ) 0 p) (fun p => impulse 0 (2 : ℚ) 0 p) (fun _ => 0)
    (fun _ => 0) (fun _ => 0) (fun _ => 0) 1 3 (by decide) (by decide)
    (fun c k h0 h1 _ _ => by
      have hc : c = 0 := by omega
      subst hc
      simp [impulse])
    (fun c k h0 h1 _ _ => by
      have hc : c = 0 := by omega
      subst hc
      simp [impulse])
    (fun c k h0 h1 k0 _ => by
      have hc : c = 0 := by omega
      subst hc
      have h : ¬ ((0 : Int) + 1 + k = 0) := by omega
      show (0 : ℚ) = if (0 : Int) + 1 + k = 0 then 2 else 0
      rw [if_neg h])

end PeakLimiter

namespace ScalableFactor

open ChannelLayerMdhr

/-! ## The order of the channel layers (C13) -/

/-- C13, as amended. The enumeration has 9 layers below `CHANNEL_LAYER_MDHR_MAX = 9`,
and `hierarchy_order` lists the first eight in the order of the enumeration. Every
pair of neighbours of that order other than `5.1.4 -> 7.1.0` satisfies the rule for
adjacent layouts (no count decreases and one increases); so do the branch
`1.0.0 -> 3.1.2` and the steps `5.1.0 -> 7.1.0`, `5.1.2 -> 7.1.2` and `5.1.4 -> 7.1.4`
from a `5.1.x` layer to the `7.1.x` layer with the same height count. -/
theorem layer_hierarchy_order :
    CHANNEL_LAYER_MDHR_MAX = 9 ∧
    (∀ l : ChannelLayerMdhr, l.value < CHANNEL_LAYER_MDHR_MAX) ∧
    hierarchy_order.map ChannelLayerMdhr.value = [0, 1, 2, 3, 4, 5, 6, 7] ∧
    CHANNEL_LAYER_MDHR_312.value = 8 ∧
    (adjacent_pairs hierarchy_order).length = 7 ∧
    (∀ p ∈ adjacent_pairs hierarchy_order,
      p ≠ (CHANNEL_LAYER_MDHR_514, CHANNEL_LAYER_MDHR_710) → allowed_adjacent p.1 p.2 = true) ∧
    allowed_adjacent CHANNEL_LAYER_MDHR_100 CHANNEL_LAYER_MDHR_312 = true ∧
    allowed_adjacent CHANNEL_LAYER_MDHR_510 CHANNEL_LAYER_MDHR_710 = true ∧
    allowed_adjacent CHANNEL_LAYER_MDHR_512 CHANNEL_LAYER_MDHR_712 = true ∧
    allowed_adjacent CHANNEL_LAYER_MDHR_514 CHANNEL_LAYER_MDHR_714 = true := by
  refine ⟨rfl, ?_, rfl, rfl, rfl, by decide, rfl, rfl, rfl, rfl⟩
  intro l
  cases l <;> decide

/-- The step `5.1.4 -> 7.1.0` of the order of the enumeration lowers the height count
from 4 to 0, so not every pair of neighbours of `hierarchy_order` satisfies the rule
for adjacent layouts. -/
theorem layer_hierarchy_counterexample :
    (CHANNEL_LAYER_MDHR_514, CHANNEL_LAYER_MDHR_710) ∈ adjacent_pairs hierarchy_order ∧
    CHANNEL_LAYER_MDHR_514.counts.2.2 = 4 ∧ CHANNEL_LAYER_MDHR_710.counts.2.2 = 0 ∧
    allowed_adjacent CHANNEL_LAYER_MDHR_514 CHANNEL_LAYER_MDHR_710 = false ∧
    ¬ ∀ p ∈ adjacent_pairs hierarchy_order, allowed_adjacent p.1 p.2 = true := by
  refine ⟨by decide, rfl, rfl, rfl, ?_⟩
  intro h
  exact absurd (h (CHANNEL_LAYER_MDHR_514, CHANNEL_LAYER_MDHR_710) (by decide)) (by decide)

end ScalableFactor
